import Mathlib

/-
Verification of the byte-level BPE tokenizer implementation
(`cs336_basics/bpe`): a shallow embedding of the Python source into Lean,
with theorems checking the natural-language specification against it.

Conventions of the embedding:
* Python `bytes` values are `List Nat` (each entry a byte value 0..255).
* Python `dict`s are association lists in insertion order; assignment is
  `dictInsert` (replace the binding in place if the key exists, else
  append), matching Python dict semantics.
* Python functions that can raise (`KeyError`, `ValueError`) return
  `Option`/`Except`.
* `heapq` is modelled as a list kept sorted by the entry order, so that
  `heappop` returns the least entry and `heap[0]` is the least entry,
  which is exactly the observable behaviour of a binary min-heap.
* Loops whose termination is not structural take an explicit fuel
  argument; the theorems hold for every fuel value or supply a
  sufficient one.
-/

set_option maxRecDepth 4000

namespace BPE

abbrev Bytes := List Nat

/-- Association-list lookup (first binding wins, as in a Python dict,
whose keys are unique). -/
def alookup [DecidableEq α] : List (α × β) → α → Option β
  | [], _ => none
  | (k, v) :: rest, x => if k = x then some v else alookup rest x

/-- Python dict assignment `d[k] = v`: replace the binding in place if
the key is present, else append at the end. -/
def dictInsert [DecidableEq α] : List (α × β) → α → β → List (α × β)
  | [], k, v => [(k, v)]
  | (k0, v0) :: rest, k, v =>
    if k0 = k then (k, v) :: rest else (k0, v0) :: dictInsert rest k v

/-! ### BPETokenizer (tokenizer.py, class BPETokenizer)

State of `BPETokenizer`: `vocab : Dict[int, bytes]`,
`byte2id : Dict[bytes, int]`, `merges : Dict[Tuple[int,int], int]`. -/

structure BPEState where
  vocab : List (Nat × Bytes)
  byte2id : List (Bytes × Nat)
  merges : List ((Nat × Nat) × Nat)
  deriving Repr, DecidableEq

/-- `BPETokenizer.__init__`: vocab = 256 singleton bytes, then each
special token appended with the next id; `byte2id` is updated by dict
assignment (so a special equal to an existing byte string overwrites
its `byte2id` entry). -/
def bpeInit (specialTokens : List Bytes) : BPEState :=
  let vocab0 := (List.range 256).map (fun i => (i, ([i] : Bytes)))
  let byte2id0 := (List.range 256).map (fun i => (([i] : Bytes), i))
  specialTokens.foldl
    (fun st tok =>
      let tid := st.vocab.length
      { st with
        vocab := dictInsert st.vocab tid tok
        byte2id := dictInsert st.byte2id tok tid })
    { vocab := vocab0, byte2id := byte2id0, merges := [] }

/-- `BPETokenizer.add_merge`: look up the pair's byte strings (a missing
id is a Python `KeyError`, hence `none`), assign the next id to their
concatenation and record the merge. Returns the new id. -/
def addMerge (st : BPEState) (pair : Nat × Nat) : Option (BPEState × Nat) :=
  match alookup st.vocab pair.1, alookup st.vocab pair.2 with
  | some ba, some bb =>
    let newBytes := ba ++ bb
    let newId := st.vocab.length
    some ({ st with
            vocab := dictInsert st.vocab newId newBytes
            byte2id := dictInsert st.byte2id newBytes newId
            merges := dictInsert st.merges pair newId }, newId)
  | _, _ => none

/-- A sequence of `add_merge` calls. -/
def applyMerges : BPEState → List (Nat × Nat) → Option BPEState
  | st, [] => some st
  | st, p :: ps =>
    match addMerge st p with
    | some (st', _) => applyMerges st' ps
    | none => none

/-- Checks that each `add_merge` in the sequence succeeds and that the
concatenated byte string it would intern is not yet a key of `byte2id`
(the freshness condition under which the symbol table stays invertible). -/
def goodSteps : BPEState → List (Nat × Nat) → Bool
  | _, [] => true
  | st, p :: ps =>
    match alookup st.vocab p.1, alookup st.vocab p.2 with
    | some ba, some bb =>
      (alookup st.byte2id (ba ++ bb)).isNone &&
      (match addMerge st p with
       | some (st', _) => goodSteps st' ps
       | none => false)
    | _, _ => false

/-- The symbol-table inversion property of claim C9:
`byte2id[vocab[i]] = i` for every assigned id `i`. -/
def SymInv (st : BPEState) : Prop :=
  ∀ i b, alookup st.vocab i = some b → alookup st.byte2id b = some i

/-! ### Tokenizer construction (tokenizer.py, class Tokenizer, __init__)

`byte2id = {v: k for k, v in vocab.items()}` (later entries overwrite),
then the merge-rank table is built from the merges list: a merge with a
side absent from `byte2id` is skipped; if both sides are present but
the concatenation is not, a `ValueError` is raised. -/

/-- `{v: k for k, v in vocab.items()}`: invert an id→bytes dict; for
duplicate byte strings the later id wins. -/
def invertDict (vocab : List (Nat × Bytes)) : List (Bytes × Nat) :=
  vocab.foldl (fun m kv => dictInsert m kv.2 kv.1) []

/-- The last binding in `l` whose value is `b` (the one that wins when
inverting a dict). -/
def lastKeyFor (l : List (Nat × Bytes)) (b : Bytes) : Option Nat :=
  (l.reverse.find? (fun kv => kv.2 = b)).map (fun kv => kv.1)

/-- Merge-rank construction loop of `Tokenizer.__init__`: a merge with
either side absent from `byte2id` is skipped; if both sides are present
but the concatenation is not, `ValueError` is raised (the error value
is the missing concatenation); otherwise `merge_ranks[(ida, idb)] =
idx`. -/
def mkRanks (byte2id : List (Bytes × Nat)) :
    List (Bytes × Bytes) → Nat → List ((Nat × Nat) × Nat) →
      Except Bytes (List ((Nat × Nat) × Nat))
  | [], _, acc => .ok acc
  | (ba, bb) :: rest, idx, acc =>
    match alookup byte2id ba with
    | none => mkRanks byte2id rest (idx + 1) acc
    | some ida =>
      match alookup byte2id bb with
      | none => mkRanks byte2id rest (idx + 1) acc
      | some idb =>
        if (alookup byte2id (ba ++ bb)).isSome then
          mkRanks byte2id rest (idx + 1) (dictInsert acc (ida, idb) idx)
        else
          .error (ba ++ bb)

/-! ### UTF-8 decoding (Python `bytes.decode("utf-8", errors=...)`)

The CPython decoder follows the W3C "maximal subpart" recommendation:
on an invalid sequence the error handler is invoked once for the
longest valid prefix of a sequence (at least one byte), and decoding
resumes after it. With `errors="ignore"` the handler emits nothing;
with `errors="replace"` it emits U+FFFD. `onErr` is that emission. -/

def isCont (b : Nat) : Bool := 128 ≤ b && b ≤ 191

def utf8Decode (onErr : List Nat) : Nat → List Nat → List Nat
  | 0, _ => []
  | _, [] => []
  | fuel + 1, b1 :: rest =>
    if b1 < 128 then
      b1 :: utf8Decode onErr fuel rest
    else if 194 ≤ b1 && b1 ≤ 223 then
      match rest with
      | b2 :: rest2 =>
        if isCont b2 then
          ((b1 - 192) * 64 + (b2 - 128)) :: utf8Decode onErr fuel rest2
        else
          onErr ++ utf8Decode onErr fuel rest
      | [] => onErr ++ utf8Decode onErr fuel []
    else if 224 ≤ b1 && b1 ≤ 239 then
      let lo2 := if b1 = 224 then 160 else 128
      let hi2 := if b1 = 237 then 159 else 191
      match rest with
      | b2 :: rest2 =>
        if lo2 ≤ b2 && b2 ≤ hi2 then
          match rest2 with
          | b3 :: rest3 =>
            if isCont b3 then
              ((b1 - 224) * 4096 + (b2 - 128) * 64 + (b3 - 128)) ::
                utf8Decode onErr fuel rest3
            else
              onErr ++ utf8Decode onErr fuel rest2
          | [] => onErr ++ utf8Decode onErr fuel []
        else
          onErr ++ utf8Decode onErr fuel rest
      | [] => onErr ++ utf8Decode onErr fuel []
    else if 240 ≤ b1 && b1 ≤ 244 then
      let lo2 := if b1 = 240 then 144 else 128
      let hi2 := if b1 = 244 then 143 else 191
      match rest with
      | b2 :: rest2 =>
        if lo2 ≤ b2 && b2 ≤ hi2 then
          match rest2 with
          | b3 :: rest3 =>
            if isCont b3 then
              match rest3 with
              | b4 :: rest4 =>
                if isCont b4 then
                  ((b1 - 240) * 262144 + (b2 - 128) * 4096 +
                    (b3 - 128) * 64 + (b4 - 128)) ::
                    utf8Decode onErr fuel rest4
                else
                  onErr ++ utf8Decode onErr fuel rest3
              | [] => onErr ++ utf8Decode onErr fuel []
            else
              onErr ++ utf8Decode onErr fuel rest2
          | [] => onErr ++ utf8Decode onErr fuel []
        else
          onErr ++ utf8Decode onErr fuel rest
      | [] => onErr ++ utf8Decode onErr fuel []
    else
      onErr ++ utf8Decode onErr fuel rest

/-- `bytes.decode("utf-8", errors="ignore")`: invalid sequences are
dropped (nothing is emitted for them). This is what
`Tokenizer.decode` uses. -/
def utf8DecodeIgnore (bs : List Nat) : List Nat :=
  utf8Decode [] bs.length bs

/-- Stated from the spec's words, for comparison with the code: a
"lossy replacement policy for invalid sequences" surfaces each maximal
invalid subsequence as U+FFFD (code point 65533). -/
def specUtf8DecodeReplace (bs : List Nat) : List Nat :=
  utf8Decode [65533] bs.length bs

/-- Per-element Option traversal (`[f x for x in l]` where each `f x`
may raise `KeyError`). -/
def mapOpt (f : α → Option β) : List α → Option (List β)
  | [] => some []
  | a :: l =>
    match f a, mapOpt f l with
    | some b, some bs => some (b :: bs)
    | _, _ => none

/-- `Tokenizer.decode`: join `vocab[t]` over the ids, then decode as
UTF-8 with `errors="ignore"`. A missing id is a `KeyError` (`none`). -/
def tokDecode (vocab : List (Nat × Bytes)) (ids : List Nat) :
    Option (List Nat) :=
  match mapOpt (alookup vocab) ids with
  | some parts => some (utf8DecodeIgnore parts.flatten)
  | none => none

/-- The base vocabulary: ids 0..255 mapped to the singleton bytes. -/
def baseVocab : List (Nat × Bytes) :=
  (List.range 256).map (fun i => (i, ([i] : Bytes)))

/-! ### The pre-tokenization regex (PAT_BYTES)

`'(?:[sdmt]|ll|ve|re)| ?\p{L}+| ?\p{N}+| ?[^\s\p{L}\p{N}]+|\s+(?!\S)|\s+`
compiled by the `regex` module over bytes: `\p{L}`/`\p{N}` are the
Unicode Letter/Number properties of the byte's ordinal (Latin-1 view of
0..255), `\s` in a bytes pattern is ASCII whitespace. Alternatives are
tried left to right; quantifiers are greedy with backtracking.
`PAT_BYTES.match(b, j)` anchors at `j` and returns the match end. -/

def isLetterByte (b : Nat) : Bool :=
  (65 ≤ b && b ≤ 90) || (97 ≤ b && b ≤ 122) || b == 170 || b == 181 ||
  b == 186 || (192 ≤ b && b ≤ 214) || (216 ≤ b && b ≤ 246) ||
  (248 ≤ b && b ≤ 255)

def isNumByte (b : Nat) : Bool :=
  (48 ≤ b && b ≤ 57) || b == 178 || b == 179 || b == 185 || b == 188 ||
  b == 189 || b == 190

def isSpaceByte (b : Nat) : Bool :=
  b == 9 || b == 10 || b == 11 || b == 12 || b == 13 || b == 32

/-- `[^\s\p{L}\p{N}]`. -/
def isOtherByte (b : Nat) : Bool :=
  !(isSpaceByte b) && !(isLetterByte b) && !(isNumByte b)

/-- Length of the maximal prefix run satisfying `p` (a greedy `p+`). -/
def runLen (p : Nat → Bool) (l : List Nat) : Nat := (l.takeWhile p).length

/-- `'(?:[sdmt]|ll|ve|re)`: apostrophe then one of the contraction
suffixes, single letters tried before the two-letter ones. Returns the
number of bytes consumed. -/
def patAlt1 : List Nat → Option Nat
  | 39 :: c :: rest =>
    if c == 115 || c == 100 || c == 109 || c == 116 then some 2
    else if c == 108 then
      match rest with
      | 108 :: _ => some 3
      | _ => none
    else if c == 118 then
      match rest with
      | 101 :: _ => some 3
      | _ => none
    else if c == 114 then
      match rest with
      | 101 :: _ => some 3
      | _ => none
    else none
  | _ => none

/-- ` ?cls+`: greedy optional space (tried with the space first, then
backtracking without it), then a nonempty greedy class run. -/
def patAltClass (p : Nat → Bool) (t : List Nat) : Option Nat :=
  match t with
  | 32 :: rest =>
    let k := runLen p rest
    if k > 0 then some (1 + k)
    else
      let k0 := runLen p t
      if k0 > 0 then some k0 else none
  | _ =>
    let k0 := runLen p t
    if k0 > 0 then some k0 else none

/-- The whole alternation applied at the head of `t`: number of bytes
matched, or `none`. The last two alternatives `\s+(?!\S)|\s+` combine
to: a whitespace run to end of input matches whole; a run followed by
a non-space matches the run minus its last byte when the run has
length ≥ 2, else (via the final `\s+`) the single space. -/
def patMatchLen (t : List Nat) : Option Nat :=
  match patAlt1 t with
  | some n => some n
  | none =>
  match patAltClass isLetterByte t with
  | some n => some n
  | none =>
  match patAltClass isNumByte t with
  | some n => some n
  | none =>
  match patAltClass isOtherByte t with
  | some n => some n
  | none =>
    let k := runLen isSpaceByte t
    if k == 0 then none
    else if k == t.length then some k
    else if 2 ≤ k then some (k - 1)
    else some k

/-- `PAT_BYTES.match(b, j)`: anchored at `j`, returns the match end. -/
def patMatch (b : Bytes) (j : Nat) : Option Nat :=
  (patMatchLen (b.drop j)).map (fun n => j + n)

/-- Python slice `b[i:j]`. -/
def slice (b : Bytes) (i j : Nat) : Bytes := (b.drop i).take (j - i)

/-- `_yield_normal_span(b, start, end)` of `Tokenizer.pretokenize`:
cover `[j, e)` with regex matches, clamping a match that overruns `e`,
and falling back to a single byte where the regex does not match. -/
def yieldNormalSpan (b : Bytes) : Nat → Nat → Nat → List Bytes
  | 0, _, _ => []
  | fuel + 1, j, e =>
    if j < e then
      match patMatch b j with
      | none => slice b j (j + 1) :: yieldNormalSpan b fuel (j + 1) e
      | some m =>
        if m > e then slice b j e :: yieldNormalSpan b fuel e e
        else slice b j m :: yieldNormalSpan b fuel m e
    else []

/-! ### Special-token searching -/

/-- Does `needle` occur in `hay` starting exactly at `pos`? -/
def matchesAt (hay needle : Bytes) (pos : Nat) : Bool :=
  needle.isPrefixOf (hay.drop pos)

def bfindFrom (hay needle : Bytes) : Nat → Nat → Option Nat
  | 0, _ => none
  | fuel + 1, pos =>
    if pos + needle.length ≤ hay.length then
      if matchesAt hay needle pos then some pos
      else bfindFrom hay needle fuel (pos + 1)
    else none

/-- Python `hay.find(needle, start)` (with `none` for `-1`). -/
def bfind (hay needle : Bytes) (start : Nat) : Option Nat :=
  bfindFrom hay needle (hay.length + 1 - start) start

/-- One step of the best-special search of `Tokenizer.pretokenize`
(lines 95-99): `find` the token from `i`; keep the earlier position,
and on a position tie the strictly longer token. -/
def fbsStep (btext : Bytes) (i : Nat) (best : Option (Nat × Bytes))
    (tok : Bytes) : Option (Nat × Bytes) :=
  match bfind btext tok i with
  | none => best
  | some pos =>
    match best with
    | none => some (pos, tok)
    | some (bp, bt) =>
      if pos < bp || (pos == bp && bt.length < tok.length) then
        some (pos, tok)
      else best

/-- The best-special search loop of `Tokenizer.pretokenize`
(lines 92-99). -/
def findBestSpecial (btext : Bytes) (specials : List Bytes) (i : Nat) :
    Option (Nat × Bytes) :=
  specials.foldl (fbsStep btext i) none

/-- First special token (in list order) beginning at `pos`: this is how
the alternation `re.escape(t1)|re.escape(t2)|...` of `pretokenize_file`
matches at one position. -/
def firstTokAt (specials : List Bytes) (chunk : Bytes) (pos : Nat) :
    Option Bytes :=
  specials.find? (fun tok => matchesAt chunk tok pos)

/-- Earliest match of the special-token alternation at or after `pos`
(`special_re.finditer` step): scan positions left to right, and at the
first position where some token matches take the first such token in
list order. -/
def emFrom (specials : List Bytes) (chunk : Bytes) : Nat → Nat →
    Option (Nat × Bytes)
  | 0, _ => none
  | fuel + 1, pos =>
    if pos > chunk.length then none
    else
      match firstTokAt specials chunk pos with
      | some tok => some (pos, tok)
      | none => emFrom specials chunk fuel (pos + 1)

/-! ### pretokenization.py: emit_normal_segment, the chunk loop,
and find_chunk_boundaries -/

/-- `PAT_BYTES.finditer(seg)` with emission (`emit_normal_segment`):
scan left to right; where the regex matches, emit the match and resume
at its end; a position where it does not match is skipped without
emission (for this pattern that never happens on nonempty input). -/
def emitNormal (seg : Bytes) : Nat → Nat → List Bytes
  | 0, _ => []
  | fuel + 1, pos =>
    if pos < seg.length then
      match patMatch seg pos with
      | some m => slice seg pos m :: emitNormal seg fuel m
      | none => emitNormal seg fuel (pos + 1)
    else []

/-- The per-chunk loop of `pretokenize_file.gen` (lines 129-139): split
the chunk at matches of the special-token alternation, emitting normal
segments through `emit_normal_segment` and each matched special token
itself. -/
def chunkLoop (specials : List Bytes) (chunk : Bytes) :
    Nat → Nat → List Bytes
  | 0, _ => []
  | fuel + 1, pos =>
    match emFrom specials chunk (chunk.length + 1 - pos) pos with
    | none =>
      if pos < chunk.length then
        emitNormal (slice chunk pos chunk.length)
          (chunk.length - pos + 1) 0
      else []
    | some (s, tok) =>
      (if pos < s then
        emitNormal (slice chunk pos s) (s - pos + 1) 0
      else []) ++
      tok :: chunkLoop specials chunk fuel (s + tok.length)

/-- Pre-tokenize one chunk (`pretokenize_file.gen` body): empty chunks
yield nothing; with no special tokens the whole chunk is one normal
segment. -/
def processChunk (specials : List Bytes) (chunk : Bytes) : List Bytes :=
  if chunk.length = 0 then []
  else if specials.isEmpty then emitNormal chunk (chunk.length + 1) 0
  else chunkLoop specials chunk (chunk.length + 1) 0

/-- `min` over the tokens of `window.find(tok)` (lines 66-72; all
finds share the same `window_start`, so comparing relative indices is
comparing absolute ones). -/
def windowFind (specials : List Bytes) (window : Bytes) : Option Nat :=
  specials.foldl
    (fun best tok =>
      match bfind window tok 0 with
      | none => best
      | some idx =>
        match best with
        | none => some idx
        | some b => if idx < b then some idx else best)
    none

/-- Python `l[-(n):]` for `n ≥ 1`: the last `n` elements. -/
def listTail (l : List α) (n : Nat) : List α := l.drop (l.length - n)

/-- The forward scan for one interior boundary guess (lines 52-83):
read 4 KiB at a time, search the window `tail ++ mini` for the
earliest special-token occurrence, and carry
`window[-(max_tok_len - 1):]` as the next tail when `max_tok_len > 1`.
NOTE the caller passes `max_tok_len = len(special_tokens_bytes)` — the
number of tokens, faithfully reproducing the source. At EOF the
boundary is the file size. (The fuel-exhaustion value is arbitrary;
every use supplies sufficient fuel.) -/
def scanBoundary (file : Bytes) (specials : List Bytes) (maxTokLen : Nat) :
    Nat → Nat → Bytes → Nat
  | 0, _, _ => file.length
  | fuel + 1, pos, tail =>
    let mini := (file.drop pos).take 4096
    if mini.length = 0 then file.length
    else
      let window := tail ++ mini
      let windowStart := pos - tail.length
      match windowFind specials window with
      | some idx => windowStart + idx
      | none =>
        scanBoundary file specials maxTokLen fuel (pos + mini.length)
          (if maxTokLen > 1 then listTail window (maxTokLen - 1) else [])

def insertSorted (x : Nat) : List Nat → List Nat
  | [] => [x]
  | y :: ys => if x ≤ y then x :: y :: ys else y :: insertSorted x ys

def dedupList : List Nat → List Nat
  | [] => []
  | x :: xs =>
    let rest := dedupList xs
    if rest.contains x then rest else x :: rest

/-- `sorted(set(l))`: ascending insertion sort of the distinct
elements (on distinct numbers every correct sort agrees with Python's
`sorted`). -/
def sortDedup (l : List Nat) : List Nat :=
  (dedupList l).foldr insertSorted []

/-- `find_chunk_boundaries`: uniform guesses `i * (F / K)` with the
last entry forced to `F`; interior guesses advanced by `scanBoundary`;
result deduplicated and sorted. `max_tok_len` is
`len(special_tokens_bytes)` exactly as in the source (line 46). -/
def findChunkBoundaries (file : Bytes) (desiredNumChunks : Nat)
    (specials : List Bytes) : List Nat :=
  let fileSize := file.length
  let chunkSize := fileSize / desiredNumChunks
  let cb0 := (List.range (desiredNumChunks + 1)).map (fun i => i * chunkSize)
  let cb := cb0.dropLast ++ [fileSize]
  if specials.isEmpty then sortDedup cb
  else
    let maxTokLen := specials.length
    sortDedup (cb.enum.map (fun bv =>
      if 1 ≤ bv.1 ∧ bv.1 < cb.length - 1 then
        scanBoundary file specials maxTokLen (file.length + 2) bv.2 []
      else bv.2))

/-- Corresponding definition following the spec's words, for
comparison: the sliding window carries a tail overlap of
`max(|s|) − 1` bytes. Only the tail width differs from
`scanBoundary`. -/
def specScanBoundary (file : Bytes) (specials : List Bytes)
    (maxTokLen : Nat) : Nat → Nat → Bytes → Nat
  | 0, _, _ => file.length
  | fuel + 1, pos, tail =>
    let mini := (file.drop pos).take 4096
    if mini.length = 0 then file.length
    else
      let window := tail ++ mini
      let windowStart := pos - tail.length
      match windowFind specials window with
      | some idx => windowStart + idx
      | none =>
        specScanBoundary file specials maxTokLen fuel (pos + mini.length)
          (if maxTokLen > 1 then listTail window (maxTokLen - 1) else [])

/-- The spec's tail width: `max(|s|)` over the special tokens. -/
def specMaxTokLen (specials : List Bytes) : Nat :=
  specials.foldl (fun acc s => max acc s.length) 0

/-- `pretokenize_file`: chunk the file and concatenate the per-chunk
pre-token streams in order. -/
def pretokenizeStream (file : Bytes) (specials : List Bytes)
    (numProcesses : Nat) : List Bytes :=
  let boundaries := findChunkBoundaries file numProcesses specials
  ((boundaries.zip boundaries.tail).map
    (fun se => processChunk specials (slice file se.1 se.2))).flatten

/-- The `word_freq` Counter built over the emitted tokens. -/
def countTokens (toks : List Bytes) : List (Bytes × Nat) :=
  toks.foldl (fun m w => dictInsert m w ((alookup m w).getD 0 + 1)) []

/-! ### train_bpe.py: the merge loop

`heapq` heap entries are `(-count, pair)`, compared as Python tuples
(first the negated count, then the pair lexicographically). The heap
is modelled as a list kept sorted by that order: `heappop` = head,
`heap[0]` = head, `heappush` = ordered insert. -/

abbrev HeapEntry := Int × (Nat × Nat)

def entryLE (e1 e2 : HeapEntry) : Bool :=
  e1.1 < e2.1 || (e1.1 == e2.1 &&
    (e1.2.1 < e2.2.1 || (e1.2.1 == e2.2.1 && e1.2.2 ≤ e2.2.2)))

def heapPush (heap : List HeapEntry) (e : HeapEntry) : List HeapEntry :=
  match heap with
  | [] => [e]
  | h :: t => if entryLE e h then e :: h :: t else h :: heapPush t e

def heapify (l : List HeapEntry) : List HeapEntry :=
  l.foldr (fun e h => heapPush h e) []

/-- Python `bytes` comparison (lexicographic). -/
def bytesLt : Bytes → Bytes → Bool
  | [], [] => false
  | [], _ :: _ => true
  | _ :: _, [] => false
  | a :: as_, b :: bs =>
    if a < b then true else if b < a then false else bytesLt as_ bs

/-- Python tuple comparison of byte-string pairs. -/
def keyLt (k1 k2 : Bytes × Bytes) : Bool :=
  bytesLt k1.1 k2.1 || (k1.1 == k2.1 && bytesLt k1.2 k2.2)

/-- The sort key of line 91: `(tokenizer.vocab[pr[0]], tokenizer.vocab[pr[1]])`
(`getD []` models the lookup; in reachable states the ids are always
present). -/
def pairKey (vocab : List (Nat × Bytes)) (p : Nat × Nat) : Bytes × Bytes :=
  ((alookup vocab p.1).getD [], (alookup vocab p.2).getD [])

/-- Stable descending insertion by `pairKey` (Python
`sort(key=..., reverse=True)` is a stable descending sort). -/
def insertDesc (vocab : List (Nat × Bytes)) (x : Nat × Nat) :
    List (Nat × Nat) → List (Nat × Nat)
  | [] => [x]
  | y :: ys =>
    if keyLt (pairKey vocab y) (pairKey vocab x) then x :: y :: ys
    else y :: insertDesc vocab x ys

def sortTiedDesc (vocab : List (Nat × Bytes)) (l : List (Nat × Nat)) :
    List (Nat × Nat) :=
  l.foldr (insertDesc vocab) []

/-- Lines 87-90: keep popping while the top of the heap has the same
negated count, collecting entries whose count is still current
(stale ones are dropped). -/
def collectTied (counts : List ((Nat × Nat) × Int)) (negcnt freq : Int) :
    Nat → List HeapEntry → List (Nat × Nat) →
    List (Nat × Nat) × List HeapEntry
  | 0, heap, tied => (tied, heap)
  | fuel + 1, heap, tied =>
    match heap with
    | [] => (tied, [])
    | (c, p2) :: rest =>
      if c == negcnt then
        if (alookup counts p2).getD 0 == freq then
          collectTied counts negcnt freq fuel rest (tied ++ [p2])
        else collectTied counts negcnt freq fuel rest tied
      else (tied, (c, p2) :: rest)

/-- Lines 86-95 after a fresh pop of `(negcnt, pair)`: collect the
tied pairs, sort them descending by byte tuple, select the head, and
push every other tied pair back with its current count. Returns the
selected pair, the non-selected tied pairs, and the new heap. -/
def tieBreakStep (vocab : List (Nat × Bytes))
    (counts : List ((Nat × Nat) × Int)) (negcnt freq : Int)
    (pair : Nat × Nat) (heap : List HeapEntry) :
    (Nat × Nat) × List (Nat × Nat) × List HeapEntry :=
  let cr := collectTied counts negcnt freq heap.length heap []
  let tied := sortTiedDesc vocab (pair :: cr.1)
  match tied with
  | [] => (pair, [], cr.2)
  | sel :: others =>
    (sel, others,
      others.foldl
        (fun h p2 => heapPush h (-((alookup counts p2).getD 0), p2)) cr.2)

/-- Lines 55-66: the initial symbol sequence of a pre-token
(`getD 0` models the dict access; every byte has an entry). -/
def wordToIds (tok : BPEState) (w : Bytes) : List Nat :=
  match alookup tok.byte2id w with
  | some id => [id]
  | none => w.map (fun b => (alookup tok.byte2id [b]).getD 0)

/-- Lines 67-71: add the word's adjacent pairs, skipping pairs that
touch a special-token id. -/
def addPairCounts (specialIds : List Nat) (freq : Int) :
    List Nat → List ((Nat × Nat) × Int) → List ((Nat × Nat) × Int)
  | x :: y :: tl, counts =>
    let counts2 :=
      if x ∈ specialIds ∨ y ∈ specialIds then counts
      else dictInsert counts (x, y) ((alookup counts (x, y)).getD 0 + freq)
    addPairCounts specialIds freq (y :: tl) counts2
  | _, counts => counts

/-- Lines 58-71: build `type_byteids` and the initial `pair_counts`.
A word that is a single special id contributes no pairs (line 63). -/
def buildInit (tok : BPEState) (specialIds : List Nat) :
    List (Bytes × Nat) →
    List (Bytes × List Nat) × List ((Nat × Nat) × Int)
  | [] => ([], [])
  | (w, freq) :: rest =>
    let r := buildInit tok specialIds rest
    let ids := wordToIds tok w
    if ids.length = 1 ∧ ids.headD 0 ∈ specialIds then
      ((w, ids) :: r.1, r.2)
    else
      ((w, ids) :: r.1, addPairCounts specialIds (Int.ofNat freq) ids r.2)

/-- Lines 111-132: rewrite one word in place. `left` is the reversed
prefix already scanned; when `(a, b) = (id_a, id_b)` is found, the
outgoing neighbour pairs are decremented, the pair is replaced by
`new_id`, the incoming neighbour pairs are incremented, and each
changed pair is pushed with its new count. -/
def mergeWordLoop (idA idB newId : Nat) (freq : Int) :
    List Nat → List Nat → List ((Nat × Nat) × Int) → List HeapEntry →
    List Nat × List ((Nat × Nat) × Int) × List HeapEntry
  | left, a :: b :: tl, counts, heap =>
    if a = idA ∧ b = idB then
      let s1 : List ((Nat × Nat) × Int) × List HeapEntry :=
        match left with
        | l0 :: _ =>
          let lp := (l0, idA)
          let c := (alookup counts lp).getD 0 - freq
          (dictInsert counts lp c, heapPush heap (-c, lp))
        | [] => (counts, heap)
      let s2 : List ((Nat × Nat) × Int) × List HeapEntry :=
        match tl with
        | r0 :: _ =>
          let rp := (idB, r0)
          let c := (alookup s1.1 rp).getD 0 - freq
          (dictInsert s1.1 rp c, heapPush s1.2 (-c, rp))
        | [] => s1
      let s3 : List ((Nat × Nat) × Int) × List HeapEntry :=
        match left with
        | l0 :: _ =>
          let np := (l0, newId)
          let c := (alookup s2.1 np).getD 0 + freq
          (dictInsert s2.1 np c, heapPush s2.2 (-c, np))
        | [] => s2
      let s4 : List ((Nat × Nat) × Int) × List HeapEntry :=
        match tl with
        | r0 :: _ =>
          let np := (newId, r0)
          let c := (alookup s3.1 np).getD 0 + freq
          (dictInsert s3.1 np c, heapPush s3.2 (-c, np))
        | [] => s3
      mergeWordLoop idA idB newId freq (newId :: left) tl s4.1 s4.2
    else
      mergeWordLoop idA idB newId freq (a :: left) (b :: tl) counts heap
  | left, rest, counts, heap => (left.reverse ++ rest, counts, heap)

/-- Lines 109-132: apply the adopted merge to every word
(`for word_bytes, byte_ids in list(type_byteids.items())`), threading
the pair counts and the heap. `freq = word_freq[word_bytes]`
(`getD 0`; always present). -/
def mergeAllWords (idA idB newId : Nat) (wordFreq : List (Bytes × Nat)) :
    List (Bytes × List Nat) → List ((Nat × Nat) × Int) →
    List HeapEntry →
    List (Bytes × List Nat) × List ((Nat × Nat) × Int) × List HeapEntry
  | [], counts, heap => ([], counts, heap)
  | (w, ids) :: rest, counts, heap =>
    let freq := Int.ofNat ((alookup wordFreq w).getD 0)
    let r := mergeWordLoop idA idB newId freq [] ids counts heap
    let r2 := mergeAllWords idA idB newId wordFreq rest r.2.1 r.2.2
    ((w, r.1) :: r2.1, r2.2.1, r2.2.2)

structure TrainState where
  tok : BPEState
  typeByteids : List (Bytes × List Nat)
  pairCounts : List ((Nat × Nat) × Int)
  heap : List HeapEntry
  merges : List (Bytes × Bytes)
  deriving Repr, DecidableEq

/-- The merge loop of `train_bpe` (lines 79-133). One fuel unit per
iteration of the `while` loop; with fuel 0 the current state is
returned (every theorem below holds for all fuel). If a vocabulary
lookup that Python could only fail on in an unreachable state fails,
the loop stops with the current state. -/
def trainLoop (vocabSize : Nat) (specialIds : List Nat)
    (wordFreq : List (Bytes × Nat)) :
    Nat → TrainState → TrainState
  | 0, st => st
  | fuel + 1, st =>
    if st.tok.vocab.length < vocabSize then
      match st.heap with
      | [] => st
      | (negcnt, pair) :: heapRest =>
        let freq := -negcnt
        if (alookup st.pairCounts pair).getD 0 ≠ freq ∨ freq = 0 then
          trainLoop vocabSize specialIds wordFreq fuel
            { st with heap := heapRest }
        else
          let tb := tieBreakStep st.tok.vocab st.pairCounts negcnt freq
            pair heapRest
          let sel := tb.1
          if sel.1 ∈ specialIds ∨ sel.2 ∈ specialIds then
            trainLoop vocabSize specialIds wordFreq fuel
              { st with pairCounts := dictInsert st.pairCounts sel 0,
                        heap := tb.2.2 }
          else
            match alookup st.tok.vocab sel.1, alookup st.tok.vocab sel.2
              with
            | some ba, some bb =>
              match addMerge st.tok sel with
              | some tokNew =>
                let counts0 := dictInsert st.pairCounts sel 0
                let mw := mergeAllWords sel.1 sel.2 tokNew.2 wordFreq
                  st.typeByteids counts0 tb.2.2
                trainLoop vocabSize specialIds wordFreq fuel
                  { tok := tokNew.1,
                    typeByteids :=
                      mw.1.filter (fun wids => 1 < wids.2.length),
                    pairCounts := mw.2.1,
                    heap := mw.2.2,
                    merges := st.merges ++ [(ba, bb)] }
              | none => st
            | _, _ => st
    else st

/-- `train_bpe` (train_bpe.py): build the tokenizer and special-id
set, pre-tokenize, count words, build the initial pair index and heap,
and run the merge loop. `fuel` bounds the loop iterations (the Python
loop runs until the queue empties). -/
def trainBpe (fuel : Nat) (input : Bytes) (vocabSize : Nat)
    (specialTokens : List Bytes) (numProcesses : Nat) :
    List (Nat × Bytes) × List (Bytes × Bytes) :=
  let tok := bpeInit specialTokens
  let specialIds := specialTokens.filterMap
    (fun t => alookup tok.byte2id t)
  let toks := pretokenizeStream input specialTokens numProcesses
  let wordFreq := countTokens toks
  let init := buildInit tok specialIds wordFreq
  let heap0 := heapify (init.2.map (fun pc => (-pc.2, pc.1)))
  let final := trainLoop vocabSize specialIds wordFreq fuel
    { tok := tok, typeByteids := init.1, pairCounts := init.2,
      heap := heap0, merges := [] }
  (final.tok.vocab, final.merges)

/-- train_bpe2.py lines 37-45. `pretokenize_file` returns the PAIR
`(gen(), word_freq)`, and `for doc in pretokenize_file(...)` iterates
over that pair: `doc` is first the generator object, whose elements
are the per-chunk `List[bytes]` values `toks`. The loop body then
evaluates `tok_bytes in byte2id` where `tok_bytes` is such a `list` —
unhashable, so Python raises `TypeError` as soon as the generator
yields anything, i.e. on every corpus that produces at least one
chunk. Only for an empty corpus (no chunks) does the iteration reach
the Counter (whose keys are byte strings), which is then empty, so
`docs = []`, the heap is empty and the merge loop never runs. -/
def trainBpe2 (input : Bytes) (vocabSize : Nat)
    (specialTokens : List Bytes) (numProcesses : Nat) :
    Except Unit (List (Nat × Bytes) × List (Bytes × Bytes)) :=
  let tok := bpeInit specialTokens
  let boundaries := findChunkBoundaries input numProcesses specialTokens
  let chunkToks := (boundaries.zip boundaries.tail).map
    (fun se => processChunk specialTokens (slice input se.1 se.2))
  match chunkToks with
  | _ :: _ => .error ()
  | [] => .ok (tok.vocab, [])

/-- The head of the stable descending sort dominates every member. -/
def HeadMax (vocab : List (Nat × Bytes)) (xs : List (Nat × Nat)) : Prop :=
  ∀ sel rest, xs = sel :: rest → ∀ p ∈ xs,
    keyLt (pairKey vocab sel) (pairKey vocab p) = false

def c1WVocab : List (Nat × Bytes) := [(97, [97]), (98, [98]), (99, [99])]

def c1WCounts : List ((Nat × Nat) × Int) := [((97, 98), 2), ((98, 99), 2)]

/-- The byte string a symbol sequence spells: the concatenation of
`vocab[id]` over the sequence (`none` when some id is unassigned). -/
def joinIds (vocab : List (Nat × Bytes)) (ids : List Nat) : Option Bytes :=
  (mapOpt (alookup vocab) ids).map List.flatten

/-- The initial merge-loop state built by `train_bpe` (lines 41-77)
from the pre-token frequency table: the fresh tokenizer, the per-word
symbol sequences, the initial pair counts and the heapified queue. -/
def trainInit (specialTokens : List Bytes)
    (wordFreq : List (Bytes × Nat)) : TrainState :=
  let tok := bpeInit specialTokens
  let specialIds := specialTokens.filterMap
    (fun t => alookup tok.byte2id t)
  let init := buildInit tok specialIds wordFreq
  { tok := tok, typeByteids := init.1, pairCounts := init.2,
    heap := heapify (init.2.map (fun pc => (-pc.2, pc.1))),
    merges := [] }

/-! ### C6: the encode path of tokenizer.py -/

/-- `sorted(special_tokens, key=len, reverse=True)` of
`Tokenizer.__init__` (line 46): stable descending insertion by length
(equal lengths keep their original order). -/
def insertByLenDesc (x : Bytes) : List Bytes → List Bytes
  | [] => [x]
  | y :: tl =>
    if x.length < y.length then y :: insertByLenDesc x tl
    else x :: y :: tl

def sortSpecials (l : List Bytes) : List Bytes :=
  l.foldr insertByLenDesc []

/-- `Tokenizer.pretokenize` (lines 66-110): the loop yielding
`(is_special, piece)` pairs. Pieces are kept as their UTF-8 bytes (the
Python code round-trips each piece through `str`; `piece.decode` then
`piece.encode` restores the same bytes whenever the decode succeeds). -/
def pretokenizePieces (specials : List Bytes) (btext : Bytes) :
    Nat → Nat → List (Bool × Bytes)
  | 0, _ => []
  | fuel + 1, i =>
    if i < btext.length then
      match findBestSpecial btext specials i with
      | none =>
        (yieldNormalSpan btext (btext.length - i + 1) i btext.length).map
          (fun p => (false, p))
      | some (bp, bt) =>
        (if i < bp then
          (yieldNormalSpan btext (bp - i + 1) i bp).map
            (fun p => (false, p))
        else []) ++
        (true, bt) ::
          pretokenizePieces specials btext fuel (bp + bt.length)
    else []

/-- The best-pair scan of `_encode_bytes` (lines 121-129): the leftmost
pair of smallest rank, as `(index, rank)`; `i` is the absolute index of
the current head. -/
def findBestPair (ranks : List ((Nat × Nat) × Nat)) :
    List Nat → Nat → Option (Nat × Nat)
  | x :: y :: tl, i =>
    let rest := findBestPair ranks (y :: tl) (i + 1)
    match alookup ranks (x, y) with
    | none => rest
    | some r =>
      match rest with
      | none => some (i, r)
      | some (j, rj) => if r ≤ rj then some (i, r) else some (j, rj)
  | _, _ => none

/-- `seq[best_idx:best_idx+2] = [merged_id]` with the two vocab lookups
and the `byte2id` lookup of lines 130-132 (a missing key is a Python
`KeyError`, so `none`). -/
def replaceAt (vocab : List (Nat × Bytes)) (byte2id : List (Bytes × Nat)) :
    List Nat → Nat → Option (List Nat)
  | x :: y :: tl, 0 =>
    match alookup vocab x, alookup vocab y with
    | some ba, some bb =>
      match alookup byte2id (ba ++ bb) with
      | some mid => some (mid :: tl)
      | none => none
    | _, _ => none
  | x :: tl, i + 1 =>
    (replaceAt vocab byte2id tl i).map (fun l => x :: l)
  | _, _ => none

/-- The merge loop of `_encode_bytes` (lines 119-133). Each iteration
shortens the sequence by one, so `seq.length` fuel always suffices;
with the fuel exhausted the current sequence is returned. -/
def encodeLoop (vocab : List (Nat × Bytes))
    (byte2id : List (Bytes × Nat)) (ranks : List ((Nat × Nat) × Nat)) :
    Nat → List Nat → Option (List Nat)
  | 0, seq => some seq
  | fuel + 1, seq =>
    match findBestPair ranks seq 0 with
    | none => some seq
    | some (idx, _) =>
      match replaceAt vocab byte2id seq idx with
      | some seq2 => encodeLoop vocab byte2id ranks fuel seq2
      | none => none

/-- `Tokenizer._encode_bytes` (lines 112-134): the byte-level initial
sequence, then the merge loop. -/
def encodeBytes (vocab : List (Nat × Bytes))
    (byte2id : List (Bytes × Nat)) (ranks : List ((Nat × Nat) × Nat))
    (data : Bytes) : Option (List Nat) :=
  match alookup byte2id data with
  | some id => encodeLoop vocab byte2id ranks data.length [id]
  | none =>
    match mapOpt (fun b => alookup byte2id [b]) data with
    | some seq => encodeLoop vocab byte2id ranks data.length seq
    | none => none

/-- `Tokenizer.encode` (lines 136-156) composed with `__init__`
(lines 37-63): sort the special tokens longest-first, build `byte2id`
and `merge_ranks` (a `ValueError` there means the tokenizer cannot be
constructed at all), pre-tokenize, and emit the special token's id or
the merged sequence of each piece. A Python `KeyError` anywhere is
`none`. -/
def tokEncode (vocab : List (Nat × Bytes)) (merges : List (Bytes × Bytes))
    (specialTokens : List Bytes) (text : Bytes) : Option (List Nat) :=
  let byte2id := invertDict vocab
  let specials := sortSpecials specialTokens
  match mkRanks byte2id merges 0 [] with
  | .error _ => none
  | .ok ranks =>
    (mapOpt (fun piece =>
        if piece.1 then
          if piece.2 ∈ specials then
            (alookup byte2id piece.2).map (fun tid => [tid])
          else encodeBytes vocab byte2id ranks piece.2
        else encodeBytes vocab byte2id ranks piece.2)
      (pretokenizePieces specials text (text.length + 1) 0)).map
      List.flatten

/-- Position `s` is the start of a future match of the special-token
scan of `pretokenize_file` run from position `pos`. -/
inductive CutAhead (specials : List Bytes) (chunk : Bytes) :
    Nat → Nat → Prop
  | here (pos s : Nat) (tok : Bytes)
      (h : emFrom specials chunk (chunk.length + 1 - pos) pos
        = some (s, tok)) : CutAhead specials chunk pos s
  | skip (pos s s' : Nat) (tok' : Bytes)
      (h : emFrom specials chunk (chunk.length + 1 - pos) pos
        = some (s', tok'))
      (hrest : CutAhead specials chunk (s' + tok'.length) s) :
      CutAhead specials chunk pos s

/-- The positions `cuts` are successive future match starts of the
whole-file special-token scan run from `pos`. -/
inductive CutsFrom (specials : List Bytes) (file : Bytes) :
    Nat → List Nat → Prop
  | nil (pos : Nat) : CutsFrom specials file pos []
  | cons (pos s : Nat) (rest : List Nat)
      (h : CutAhead specials file pos s)
      (hrest : CutsFrom specials file s rest) :
      CutsFrom specials file pos (s :: rest)

theorem alookup_dictInsert [DecidableEq α] (m : List (α × β)) (k : α) (v : β)
    (x : α) :
    alookup (dictInsert m k v) x = if x = k then some v else alookup m x := by
  induction m with
  | nil =>
    simp only [dictInsert, alookup]
    by_cases h : x = k
    · subst h
      simp
    · rw [if_neg (fun hh => h hh.symm), if_neg h]
  | cons p rest ih =>
    obtain ⟨k0, v0⟩ := p
    simp only [dictInsert]
    by_cases h0 : k0 = k
    · subst h0
      simp only [if_pos rfl, alookup]
      by_cases hx : x = k0
      · subst hx
        simp
      · have h1 : ¬ k0 = x := fun hh => hx hh.symm
        rw [if_neg h1, if_neg hx, if_neg h1]
    · rw [if_neg h0]
      simp only [alookup, ih]
      by_cases hx : k0 = x
      · subst hx
        have hxk : ¬ k0 = k := h0
        rw [if_pos rfl, if_neg hxk, if_pos rfl]
      · rw [if_neg hx]
        by_cases hk : x = k
        · rw [if_pos hk, if_pos hk]
        · rw [if_neg hk, if_neg hk, if_neg hx]

theorem alookup_append [DecidableEq α] (l1 l2 : List (α × β)) (x : α) :
    alookup (l1 ++ l2) x =
      match alookup l1 x with
      | some v => some v
      | none => alookup l2 x := by
  induction l1 with
  | nil => simp [alookup]
  | cons p rest ih =>
    obtain ⟨k, v⟩ := p
    by_cases hx : k = x <;> simp [alookup, hx, ih]

/-- Lookup over an enumerated table `[(0, f 0), ..., (n-1, f (n-1))]`. -/
theorem alookup_rangeMap (f : Nat → β) (n : Nat) (x : Nat) :
    alookup ((List.range n).map (fun i => (i, f i))) x =
      if x < n then some (f x) else none := by
  induction n with
  | zero => simp [alookup]
  | succ n ih =>
    rw [List.range_succ, List.map_append, alookup_append]
    by_cases hx : x < n
    · simp [ih, hx, Nat.lt_succ_of_lt hx]
    · by_cases hx2 : x = n
      · subst hx2
        simp [ih, alookup, Nat.lt_irrefl, Nat.lt_succ_self]
      · have h1 : ¬ x < n + 1 := by omega
        have h2 : ¬ n = x := fun h => hx2 h.symm
        simp [ih, hx, hx2, h1, h2, alookup]

theorem symInv_addMerge {st st' : BPEState} {p : Nat × Nat} {nid : Nat}
    (hInv : SymInv st)
    (hfresh : ∀ ba bb, alookup st.vocab p.1 = some ba →
      alookup st.vocab p.2 = some bb → alookup st.byte2id (ba ++ bb) = none)
    (hstep : addMerge st p = some (st', nid)) : SymInv st' := by
  unfold addMerge at hstep
  cases hA : alookup st.vocab p.1 with
  | none => rw [hA] at hstep; cases hstep
  | some ba =>
    cases hB : alookup st.vocab p.2 with
    | none => rw [hA, hB] at hstep; cases hstep
    | some bb =>
      rw [hA, hB] at hstep
      have hf := hfresh ba bb hA hB
      cases hstep
      intro i b hv
      simp only [alookup_dictInsert] at hv ⊢
      by_cases hi : i = st.vocab.length
      · subst hi
        simp at hv
        subst hv
        simp
      · simp [hi] at hv
        have hb2 := hInv i b hv
        by_cases hb : b = ba ++ bb
        · subst hb
          rw [hf] at hb2
          cases hb2
        · simp [hb, hb2]

theorem symInv_applyMerges {st st' : BPEState} {ops : List (Nat × Nat)}
    (hInv : SymInv st) (hgood : goodSteps st ops = true)
    (happ : applyMerges st ops = some st') : SymInv st' := by
  induction ops generalizing st with
  | nil => cases happ; exact hInv
  | cons p ps ih =>
    unfold goodSteps at hgood
    unfold applyMerges at happ
    cases hA : alookup st.vocab p.1 with
    | none => rw [hA] at hgood; cases hgood
    | some ba =>
      cases hB : alookup st.vocab p.2 with
      | none => rw [hA, hB] at hgood; cases hgood
      | some bb =>
        rw [hA, hB] at hgood
        cases hstep : addMerge st p with
        | none =>
          rw [hstep] at hgood
          simp at hgood
        | some stn =>
          obtain ⟨st1, nid⟩ := stn
          rw [hstep] at hgood happ
          simp only [Bool.and_eq_true, Option.isNone_iff_eq_none] at hgood
          have hInv1 : SymInv st1 :=
            symInv_addMerge hInv
              (fun ba' bb' hA' hB' => by
                rw [hA] at hA'; rw [hB] at hB'
                cases hA'; cases hB'; exact hgood.1) hstep
          exact ih hInv1 hgood.2 happ

/-- Keys of the inverted base table are exactly the singleton byte
strings. -/
theorem alookup_baseInv (n : Nat) (b : Bytes) (k : Nat) :
    alookup ((List.range n).map (fun i => (([i] : Bytes), i))) b = some k →
    b = [k] ∧ k < n := by
  induction n with
  | zero => intro h; simp [alookup] at h
  | succ n ih =>
    intro h
    rw [List.range_succ, List.map_append, alookup_append] at h
    cases h1 : alookup ((List.range n).map (fun i => (([i] : Bytes), i))) b with
    | some v =>
      rw [h1] at h
      cases h
      obtain ⟨hb, hk⟩ := ih h1
      exact ⟨hb, Nat.lt_succ_of_lt hk⟩
    | none =>
      rw [h1] at h
      simp [alookup] at h
      by_cases hb : b = [n]
      · simp [hb] at h
        subst h
        exact ⟨hb, Nat.lt_succ_self n⟩
      · exact absurd h.1.symm hb

theorem alookup_baseInv_hit (n i : Nat) (hi : i < n) :
    alookup ((List.range n).map (fun j => (([j] : Bytes), j))) [i] = some i := by
  induction n with
  | zero => omega
  | succ n ih =>
    rw [List.range_succ, List.map_append, alookup_append]
    by_cases h : i < n
    · rw [ih h]
    · have hin : i = n := by omega
      subst hin
      cases hl : alookup ((List.range i).map (fun j => (([j] : Bytes), j))) [i]
        with
      | some k =>
        obtain ⟨hb, hk⟩ := alookup_baseInv i [i] k hl
        have : i = k := by
          cases hb
          rfl
        omega
      | none => simp [alookup]

/-- One step of the `__init__` special-token loop preserves the
inversion property, provided the token is not yet a `byte2id` key. -/
theorem symInv_initStep {st : BPEState} (tok : Bytes)
    (hInv : SymInv st) (hfresh : alookup st.byte2id tok = none) :
    SymInv { st with
             vocab := dictInsert st.vocab st.vocab.length tok
             byte2id := dictInsert st.byte2id tok st.vocab.length } := by
  intro i b hv
  simp only [alookup_dictInsert] at hv ⊢
  by_cases hi : i = st.vocab.length
  · subst hi
    simp at hv
    subst hv
    simp
  · simp [hi] at hv
    have hb2 := hInv i b hv
    by_cases hb : b = tok
    · subst hb
      rw [hfresh] at hb2
      cases hb2
    · simp [hb, hb2]

theorem symInv_initFold (toks : List Bytes) (st : BPEState)
    (hInv : SymInv st)
    (hfresh : ∀ t ∈ toks, alookup st.byte2id t = none)
    (hnd : toks.Nodup) :
    SymInv (toks.foldl
      (fun st tok =>
        let tid := st.vocab.length
        { st with
          vocab := dictInsert st.vocab tid tok
          byte2id := dictInsert st.byte2id tok tid }) st) := by
  induction toks generalizing st with
  | nil => exact hInv
  | cons t ts ih =>
    simp only [List.foldl_cons]
    have hft : alookup st.byte2id t = none := hfresh t (List.mem_cons_self t ts)
    have hInv' := symInv_initStep t hInv hft
    apply ih _ hInv'
    · intro t' ht'
      simp only [alookup_dictInsert]
      have hne : t' ≠ t := by
        intro h
        subst h
        exact (List.nodup_cons.mp hnd).1 ht'
      simp [hne]
      exact hfresh t' (List.mem_cons_of_mem t ht')
    · exact (List.nodup_cons.mp hnd).2

theorem symInv_bpeInit (specialTokens : List Bytes)
    (hnd : specialTokens.Nodup)
    (hlen : ∀ s ∈ specialTokens, s.length ≠ 1) :
    SymInv (bpeInit specialTokens) := by
  unfold bpeInit
  apply symInv_initFold _ _ _ _ hnd
  · intro i b hv
    simp only [alookup_rangeMap] at hv
    by_cases hi : i < 256
    · simp [hi] at hv
      subst hv
      exact alookup_baseInv_hit 256 i hi
    · simp [hi] at hv
  · intro t ht
    cases h : alookup ((List.range 256).map (fun i => (([i] : Bytes), i))) t
      with
    | none => rfl
    | some k =>
      obtain ⟨hb, _⟩ := alookup_baseInv 256 t k h
      exact absurd (by simp [hb]) (hlen t ht)

/-- C9, amended. The symbol table stays invertible under `add_merge`
provided: the special tokens are pairwise distinct and none is a single
byte, and each merge's concatenated byte string is fresh
(`goodSteps`). -/
theorem c9_symbol_table_bijection (specialTokens : List Bytes)
    (ops : List (Nat × Nat)) (st' : BPEState)
    (hnd : specialTokens.Nodup)
    (hlen : ∀ s ∈ specialTokens, s.length ≠ 1)
    (hgood : goodSteps (bpeInit specialTokens) ops = true)
    (happ : applyMerges (bpeInit specialTokens) ops = some st') :
    ∀ i b, alookup st'.vocab i = some b → alookup st'.byte2id b = some i :=
  symInv_applyMerges (symInv_bpeInit specialTokens hnd hlen) hgood happ

/-- C9, counterexample. With the single special token `"a"` (bytes
`[97]`) and no merges at all, `vocab[97] = b"a"` but
`byte2id[b"a"] = 256`: the special-token insertion overwrote the
`byte2id` entry of the base byte, so `byte2id[vocab[97]] ≠ 97`. -/
theorem c9_counterexample :
    alookup (bpeInit [[97]]).vocab 97 = some [97] ∧
    alookup (bpeInit [[97]]).byte2id [97] = some 256 := by decide

/-- Witness for `c9_symbol_table_bijection`: special token `"<s>"`
(bytes `[60,115,62]`), one merge `(97, 98)`. -/
theorem c9_symbol_table_bijection_witness :
    ([[60, 115, 62]] : List Bytes).Nodup ∧
    (∀ s ∈ ([[60, 115, 62]] : List Bytes), s.length ≠ 1) ∧
    goodSteps (bpeInit [[60, 115, 62]]) [(97, 98)] = true ∧
    (∀ i b,
      alookup ((applyMerges (bpeInit [[60, 115, 62]]) [(97, 98)]).getD
        (bpeInit [[60, 115, 62]])).vocab i = some b →
      alookup ((applyMerges (bpeInit [[60, 115, 62]]) [(97, 98)]).getD
        (bpeInit [[60, 115, 62]])).byte2id b = some i) :=
  ⟨by decide, by decide, by decide,
    c9_symbol_table_bijection [[60, 115, 62]] [(97, 98)] _
      (by decide) (by decide) (by decide) (by decide)⟩

theorem alookup_foldl_invert (l : List (Nat × Bytes))
    (m : List (Bytes × Nat)) (b : Bytes) :
    alookup (l.foldl (fun m kv => dictInsert m kv.2 kv.1) m) b =
      match lastKeyFor l b with
      | some k => some k
      | none => alookup m b := by
  induction l generalizing m with
  | nil => simp [lastKeyFor]
  | cons kv rest ih =>
    obtain ⟨k, v⟩ := kv
    simp only [List.foldl_cons, ih]
    have hrev : lastKeyFor ((k, v) :: rest) b =
        match lastKeyFor rest b with
        | some k' => some k'
        | none => if v = b then some k else none := by
      simp only [lastKeyFor, List.reverse_cons, List.find?_append]
      cases hf : (rest.reverse.find? (fun kv => kv.2 = b)) with
      | some p => simp
      | none =>
        simp only [Option.none_or]
        by_cases hv : v = b
        · simp [List.find?, hv]
        · simp [List.find?, hv]
    rw [hrev]
    cases hf : lastKeyFor rest b with
    | some k' => simp
    | none =>
      simp only [alookup_dictInsert]
      by_cases hv : v = b
      · simp [hv]
      · have h2 : ¬ b = v := fun hh => hv hh.symm
        simp [hv, h2]

theorem alookup_invertDict (vocab : List (Nat × Bytes)) (b : Bytes) :
    alookup (invertDict vocab) b =
      match lastKeyFor vocab b with
      | some k => some k
      | none => none := by
  simpa [invertDict] using alookup_foldl_invert vocab [] b

/-- `b` is a byte string present in the vocabulary iff `byte2id` has an
entry for it. -/
theorem lastKeyFor_some_mem (vocab : List (Nat × Bytes)) (b : Bytes)
    (k : Nat) (h : lastKeyFor vocab b = some k) : (k, b) ∈ vocab := by
  unfold lastKeyFor at h
  cases hfind : vocab.reverse.find? (fun kv => kv.2 = b) with
  | none => rw [hfind] at h; cases h
  | some kv =>
    rw [hfind] at h
    have hval := List.find?_some hfind
    have hmem2 : kv ∈ vocab := List.mem_reverse.mp
      (List.mem_of_find?_eq_some hfind)
    simp at h
    have hval2 : kv.2 = b := by simpa using hval
    obtain ⟨k0, v0⟩ := kv
    simp only at hval2 h
    rw [← h, ← hval2]
    exact hmem2

theorem lastKeyFor_none_notmem (vocab : List (Nat × Bytes)) (b : Bytes)
    (h : lastKeyFor vocab b = none) : b ∉ vocab.map Prod.snd := by
  intro hmem
  obtain ⟨kv, hkv, hsnd⟩ := List.mem_map.mp hmem
  unfold lastKeyFor at h
  cases hfind : vocab.reverse.find? (fun kv => kv.2 = b) with
  | some kv' => rw [hfind] at h; cases h
  | none =>
    have := List.find?_eq_none.mp hfind kv (List.mem_reverse.mpr hkv)
    simp [hsnd] at this

theorem invertDict_isSome_iff (vocab : List (Nat × Bytes)) (b : Bytes) :
    (alookup (invertDict vocab) b).isSome = true ↔
      b ∈ vocab.map Prod.snd := by
  rw [alookup_invertDict]
  cases hf : lastKeyFor vocab b with
  | some k =>
    simp only [Option.isSome_some, true_iff]
    have := lastKeyFor_some_mem vocab b k hf
    exact List.mem_map.mpr ⟨(k, b), this, rfl⟩
  | none =>
    simp only [Option.isSome_none, Bool.false_eq_true, false_iff]
    exact lastKeyFor_none_notmem vocab b hf

theorem alookup_invertDict_mem (vocab : List (Nat × Bytes)) (b : Bytes)
    (k : Nat) (h : alookup (invertDict vocab) b = some k) :
    (k, b) ∈ vocab := by
  rw [alookup_invertDict] at h
  cases hf : lastKeyFor vocab b with
  | none => rw [hf] at h; cases h
  | some k2 =>
    rw [hf] at h
    simp only [Option.some.injEq] at h
    subst h
    exact lastKeyFor_some_mem vocab b k2 hf

theorem mkRanks_error_iff (b2i : List (Bytes × Nat)) :
    ∀ (ms : List (Bytes × Bytes)) (idx : Nat)
      (acc : List ((Nat × Nat) × Nat)),
    (∃ e, mkRanks b2i ms idx acc = .error e) ↔
      ∃ p ∈ ms, (alookup b2i p.1).isSome = true ∧
        (alookup b2i p.2).isSome = true ∧
        (alookup b2i (p.1 ++ p.2)).isSome = false := by
  intro ms
  induction ms with
  | nil =>
    intro idx acc
    constructor
    · rintro ⟨e, he⟩
      simp [mkRanks] at he
    · rintro ⟨p, hp, _⟩
      simp at hp
  | cons m rest ih =>
    intro idx acc
    obtain ⟨ba, bb⟩ := m
    constructor
    · intro hl
      obtain ⟨e, he⟩ := hl
      unfold mkRanks at he
      cases hA : alookup b2i ba with
      | none =>
        simp only [hA] at he
        obtain ⟨p, hp, h1, h2, h3⟩ := (ih (idx + 1) acc).mp ⟨e, he⟩
        exact ⟨p, List.mem_cons_of_mem _ hp, h1, h2, h3⟩
      | some ida =>
        cases hB : alookup b2i bb with
        | none =>
          simp only [hA, hB] at he
          obtain ⟨p, hp, h1, h2, h3⟩ := (ih (idx + 1) acc).mp ⟨e, he⟩
          exact ⟨p, List.mem_cons_of_mem _ hp, h1, h2, h3⟩
        | some idb =>
          simp only [hA, hB] at he
          by_cases hC : (alookup b2i (ba ++ bb)).isSome = true
          · rw [if_pos hC] at he
            obtain ⟨p, hp, h1, h2, h3⟩ :=
              (ih (idx + 1) (dictInsert acc (ida, idb) idx)).mp ⟨e, he⟩
            exact ⟨p, List.mem_cons_of_mem _ hp, h1, h2, h3⟩
          · refine ⟨(ba, bb), List.mem_cons_self _ _, ?_, ?_, ?_⟩
            · simp [hA]
            · simp [hB]
            · simpa using hC
    · rintro ⟨p, hp, h1, h2, h3⟩
      rcases List.mem_cons.mp hp with hhead | htail
      · subst hhead
        refine ⟨ba ++ bb, ?_⟩
        unfold mkRanks
        simp only at h1 h2 h3
        cases hA : alookup b2i ba with
        | none => rw [hA] at h1; cases h1
        | some ida =>
          cases hB : alookup b2i bb with
          | none => rw [hB] at h2; cases h2
          | some idb =>
            have hneg : ¬ (alookup b2i (ba ++ bb)).isSome = true := by
              rw [h3]; simp
            simp only [hA, hB]
            rw [if_neg hneg]
      · unfold mkRanks
        cases hA : alookup b2i ba with
        | none =>
          simp only [hA]
          exact (ih (idx + 1) acc).mpr ⟨p, htail, h1, h2, h3⟩
        | some ida =>
          cases hB : alookup b2i bb with
          | none =>
            simp only [hA, hB]
            exact (ih (idx + 1) acc).mpr ⟨p, htail, h1, h2, h3⟩
          | some idb =>
            simp only [hA, hB]
            by_cases hC : (alookup b2i (ba ++ bb)).isSome = true
            · rw [if_pos hC]
              exact (ih (idx + 1) (dictInsert acc (ida, idb) idx)).mpr
                ⟨p, htail, h1, h2, h3⟩
            · rw [if_neg hC]
              exact ⟨ba ++ bb, rfl⟩

theorem mkRanks_ok_keys (b2i : List (Bytes × Nat)) :
    ∀ (ms : List (Bytes × Bytes)) (idx : Nat)
      (acc r : List ((Nat × Nat) × Nat)),
    mkRanks b2i ms idx acc = .ok r →
    ∀ key rank, alookup r key = some rank →
      (∃ p ∈ ms, alookup b2i p.1 = some key.1 ∧
        alookup b2i p.2 = some key.2) ∨
      (∃ rank0, alookup acc key = some rank0) := by
  intro ms
  induction ms with
  | nil =>
    intro idx acc r hok key rank hkey
    simp [mkRanks] at hok
    subst hok
    exact Or.inr ⟨rank, hkey⟩
  | cons m rest ih =>
    intro idx acc r hok key rank hkey
    obtain ⟨ba, bb⟩ := m
    unfold mkRanks at hok
    cases hA : alookup b2i ba with
    | none =>
      simp only [hA] at hok
      rcases ih (idx + 1) acc r hok key rank hkey with h | h
      · obtain ⟨p, hp, h1, h2⟩ := h
        exact Or.inl ⟨p, List.mem_cons_of_mem _ hp, h1, h2⟩
      · exact Or.inr h
    | some ida =>
      cases hB : alookup b2i bb with
      | none =>
        simp only [hA, hB] at hok
        rcases ih (idx + 1) acc r hok key rank hkey with h | h
        · obtain ⟨p, hp, h1, h2⟩ := h
          exact Or.inl ⟨p, List.mem_cons_of_mem _ hp, h1, h2⟩
        · exact Or.inr h
      | some idb =>
        simp only [hA, hB] at hok
        by_cases hC : (alookup b2i (ba ++ bb)).isSome = true
        · rw [if_pos hC] at hok
          rcases ih (idx + 1) (dictInsert acc (ida, idb) idx) r hok key rank
              hkey with h | h
          · obtain ⟨p, hp, h1, h2⟩ := h
            exact Or.inl ⟨p, List.mem_cons_of_mem _ hp, h1, h2⟩
          · obtain ⟨rank0, hr0⟩ := h
            rw [alookup_dictInsert] at hr0
            by_cases hk : key = (ida, idb)
            · subst hk
              exact Or.inl ⟨(ba, bb), List.mem_cons_self _ _, hA, hB⟩
            · rw [if_neg hk] at hr0
              exact Or.inr ⟨rank0, hr0⟩
        · rw [if_neg hC] at hok
          cases hok

/-- C10. Building the merge-rank table in `Tokenizer.__init__` raises
`ValueError` exactly when the merges list contains a pair whose two
sides are byte strings present in the vocabulary while their
concatenation is not; every entered rank key comes from a merge pair
with both sides present, so a merge with an absent side is skipped
silently, receives no rank and causes no error. -/
theorem c10_init_valueerror_iff (vocab : List (Nat × Bytes))
    (merges : List (Bytes × Bytes)) :
    ((∃ e, mkRanks (invertDict vocab) merges 0 [] = .error e) ↔
      ∃ p ∈ merges, p.1 ∈ vocab.map Prod.snd ∧ p.2 ∈ vocab.map Prod.snd ∧
        p.1 ++ p.2 ∉ vocab.map Prod.snd) ∧
    (∀ r, mkRanks (invertDict vocab) merges 0 [] = .ok r →
      ∀ key rank, alookup r key = some rank →
        ∃ p ∈ merges, alookup (invertDict vocab) p.1 = some key.1 ∧
          alookup (invertDict vocab) p.2 = some key.2) := by
  constructor
  · rw [mkRanks_error_iff]
    constructor
    · rintro ⟨p, hp, h1, h2, h3⟩
      refine ⟨p, hp, (invertDict_isSome_iff vocab p.1).mp h1,
        (invertDict_isSome_iff vocab p.2).mp h2, ?_⟩
      intro hmem
      rw [(invertDict_isSome_iff vocab (p.1 ++ p.2)).mpr hmem] at h3
      cases h3
    · rintro ⟨p, hp, h1, h2, h3⟩
      refine ⟨p, hp, (invertDict_isSome_iff vocab p.1).mpr h1,
        (invertDict_isSome_iff vocab p.2).mpr h2, ?_⟩
      cases hs : (alookup (invertDict vocab) (p.1 ++ p.2)).isSome with
      | false => rfl
      | true => exact absurd ((invertDict_isSome_iff vocab (p.1 ++ p.2)).mp hs) h3
  · intro r hok key rank hkey
    rcases mkRanks_ok_keys (invertDict vocab) merges 0 [] r hok key rank hkey
      with h | h
    · exact h
    · obtain ⟨rank0, hr0⟩ := h
      simp [alookup] at hr0

/-- Witness for `c10_init_valueerror_iff`: vocabulary with bytes `[0]`,
`[1]` and merged `[0,1]`, one valid merge and one skipped merge. -/
theorem c10_init_valueerror_iff_witness :
    ¬ (∃ e, mkRanks
        (invertDict [(0, [0]), (1, [1]), (2, [0, 1])])
        [([0], [1]), ([5], [9])] 0 [] = .error e) ∧
    (∃ p ∈ [(([0] : Bytes), ([1] : Bytes)), ([5], [9])],
      alookup (invertDict [(0, [0]), (1, [1]), (2, [0, 1])]) p.1 = some 0 ∧
      alookup (invertDict [(0, [0]), (1, [1]), (2, [0, 1])]) p.2 = some 1) := by
  constructor
  · intro h
    have := (c10_init_valueerror_iff [(0, [0]), (1, [1]), (2, [0, 1])]
      [([0], [1]), ([5], [9])]).1.mp h
    revert this
    decide
  · exact (c10_init_valueerror_iff [(0, [0]), (1, [1]), (2, [0, 1])]
      [([0], [1]), ([5], [9])]).2
      [((0, 1), 0)] (by rfl) (0, 1) 0 (by decide)

theorem utf8Decode_ascii (onErr : List Nat) (bs : List Nat) :
    ∀ fuel, bs.length ≤ fuel → (∀ b ∈ bs, b < 128) →
    utf8Decode onErr fuel bs = bs := by
  induction bs with
  | nil => intro fuel _ _; cases fuel <;> rfl
  | cons b rest ih =>
    intro fuel hfuel hlt
    cases fuel with
    | zero => simp at hfuel
    | succ fuel =>
      have hb : b < 128 := hlt b (List.mem_cons_self b rest)
      simp only [utf8Decode, if_pos hb]
      rw [ih fuel (by simpa using hfuel)
        (fun x hx => hlt x (List.mem_cons_of_mem b hx))]

theorem mapOpt_isSome (f : α → Option β) (l : List α)
    (h : ∀ a ∈ l, (f a).isSome = true) :
    ∃ bs, mapOpt f l = some bs := by
  induction l with
  | nil => exact ⟨[], rfl⟩
  | cons a rest ih =>
    obtain ⟨bs, hbs⟩ := ih (fun x hx => h x (List.mem_cons_of_mem a hx))
    have ha := h a (List.mem_cons_self a rest)
    cases hfa : f a with
    | none => rw [hfa] at ha; cases ha
    | some b => exact ⟨b :: bs, by simp [mapOpt, hfa, hbs]⟩

/-- C8, counterexample. `decode` on the single id 255 (an invalid
UTF-8 byte) returns the empty string — the invalid byte is silently
dropped (`errors="ignore"`), not surfaced as a replacement character
as the claim states. -/
theorem c8_counterexample :
    tokDecode baseVocab [255] = some [] ∧
    specUtf8DecodeReplace [255] = [65533] ∧
    tokDecode baseVocab [255] ≠ some (specUtf8DecodeReplace [255]) := by
  refine ⟨by decide, by decide, by decide⟩

/-- C8, amended. For ids all present in the vocabulary, `decode` is
total: it returns the concatenation of the tokens' bytes decoded as
UTF-8 with invalid sequences *dropped* (`errors="ignore"`); in
particular, when the concatenation is pure ASCII the output is exactly
those bytes. -/
theorem c8_decode_total_ignores_errors (vocab : List (Nat × Bytes))
    (ids : List Nat)
    (h : ∀ t ∈ ids, (alookup vocab t).isSome = true) :
    (∃ s, tokDecode vocab ids = some s) ∧
    (∀ parts, mapOpt (alookup vocab) ids = some parts →
      (∀ b ∈ parts.flatten, b < 128) →
      tokDecode vocab ids = some parts.flatten) := by
  constructor
  · obtain ⟨parts, hparts⟩ := mapOpt_isSome (alookup vocab) ids h
    exact ⟨utf8DecodeIgnore parts.flatten, by simp [tokDecode, hparts]⟩
  · intro parts hparts hascii
    simp only [tokDecode, hparts]
    rw [utf8DecodeIgnore,
      utf8Decode_ascii [] parts.flatten parts.flatten.length le_rfl hascii]

/-- Witness for `c8_decode_total_ignores_errors`: decode of
`[104, 105]` (the ASCII text "hi") over the base vocabulary. -/
theorem c8_decode_total_ignores_errors_witness :
    (∃ s, tokDecode baseVocab [104, 105] = some s) ∧
    tokDecode baseVocab [104, 105] = some [104, 105] := by
  have h := c8_decode_total_ignores_errors baseVocab [104, 105] (by decide)
  exact ⟨h.1, by
    have := h.2 [[104], [105]] (by decide) (by decide)
    simpa using this⟩

/-! ### C7: tie-breaking between special tokens at the same position -/

/-- Conclusions of the best-special fold relative to a starting
accumulator: where the result came from, that its position is minimal,
that on a position tie its token is longest, and monotonicity against
the accumulator. -/
theorem fbs_fold_spec (btext : Bytes) (i : Nat) :
    ∀ (toks : List Bytes) (acc : Option (Nat × Bytes)),
    ∀ pos tok, toks.foldl (fbsStep btext i) acc = some (pos, tok) →
      ((acc = some (pos, tok)) ∨
        (tok ∈ toks ∧ bfind btext tok i = some pos)) ∧
      (∀ t ∈ toks, ∀ p, bfind btext t i = some p → pos ≤ p) ∧
      (∀ t ∈ toks, bfind btext t i = some pos → t.length ≤ tok.length) ∧
      (∀ bp bt, acc = some (bp, bt) →
        pos < bp ∨ (pos = bp ∧ bt.length ≤ tok.length)) := by
  intro toks
  induction toks with
  | nil =>
    intro acc pos tok hres
    simp only [List.foldl_nil] at hres
    refine ⟨Or.inl hres, by simp, by simp, ?_⟩
    intro bp bt hacc
    rw [hacc] at hres
    cases hres
    exact Or.inr ⟨rfl, le_rfl⟩
  | cons t ts ih =>
    intro acc pos tok hres
    have hres2 : ts.foldl (fbsStep btext i) (fbsStep btext i acc t) =
        some (pos, tok) := hres
    cases hft : bfind btext t i with
    | none =>
      have hstep : fbsStep btext i acc t = acc := by
        unfold fbsStep; rw [hft]
      rw [hstep] at hres2
      obtain ⟨hS, hM, hT, hD⟩ := ih acc pos tok hres2
      refine ⟨?_, ?_, ?_, hD⟩
      · rcases hS with h | ⟨hm, hf⟩
        · exact Or.inl h
        · exact Or.inr ⟨List.mem_cons_of_mem t hm, hf⟩
      · intro t2 ht2 p hp
        rcases List.mem_cons.mp ht2 with h | h
        · subst h; rw [hft] at hp; cases hp
        · exact hM t2 h p hp
      · intro t2 ht2 hp
        rcases List.mem_cons.mp ht2 with h | h
        · subst h; rw [hft] at hp; cases hp
        · exact hT t2 h hp
    | some q =>
      cases hacc : acc with
      | none =>
        have hstep : fbsStep btext i acc t = some (q, t) := by
          unfold fbsStep; rw [hft, hacc]
        rw [hstep] at hres2
        obtain ⟨hS, hM, hT, hD⟩ := ih (some (q, t)) pos tok hres2
        have hDqt := hD q t rfl
        refine ⟨?_, ?_, ?_, ?_⟩
        · rcases hS with h | ⟨hm, hf⟩
          · cases h
            exact Or.inr ⟨List.mem_cons_self t ts, hft⟩
          · exact Or.inr ⟨List.mem_cons_of_mem t hm, hf⟩
        · intro t2 ht2 p hp
          rcases List.mem_cons.mp ht2 with h | h
          · subst h
            rw [hft] at hp
            cases hp
            rcases hDqt with h1 | ⟨h1, _⟩
            · exact Nat.le_of_lt h1
            · exact Nat.le_of_eq h1
          · exact hM t2 h p hp
        · intro t2 ht2 hp
          rcases List.mem_cons.mp ht2 with h | h
          · subst h
            rw [hft] at hp
            cases hp
            rcases hDqt with h1 | ⟨_, h2⟩
            · exact absurd h1 (Nat.lt_irrefl pos)
            · exact h2
          · exact hT t2 h hp
        · intro bp bt habs
          cases habs
      | some pr =>
        obtain ⟨bp0, bt0⟩ := pr
        by_cases hc : q < bp0 ∨ (q = bp0 ∧ bt0.length < t.length)
        · have hstep : fbsStep btext i acc t = some (q, t) := by
            unfold fbsStep
            rw [hft, hacc]
            have : (decide (q < bp0) ||
                (q == bp0 && decide (bt0.length < t.length))) = true := by
              rcases hc with h | ⟨h1, h2⟩
              · simp [h]
              · simp [h1, h2]
            simp [this]
          rw [hstep] at hres2
          obtain ⟨hS, hM, hT, hD⟩ := ih (some (q, t)) pos tok hres2
          have hDqt := hD q t rfl
          refine ⟨?_, ?_, ?_, ?_⟩
          · rcases hS with h | ⟨hm, hf⟩
            · cases h
              exact Or.inr ⟨List.mem_cons_self t ts, hft⟩
            · exact Or.inr ⟨List.mem_cons_of_mem t hm, hf⟩
          · intro t2 ht2 p hp
            rcases List.mem_cons.mp ht2 with h | h
            · subst h
              rw [hft] at hp
              cases hp
              rcases hDqt with h1 | ⟨h1, _⟩
              · exact Nat.le_of_lt h1
              · exact Nat.le_of_eq h1
            · exact hM t2 h p hp
          · intro t2 ht2 hp
            rcases List.mem_cons.mp ht2 with h | h
            · subst h
              rw [hft] at hp
              cases hp
              rcases hDqt with h1 | ⟨_, h2⟩
              · exact absurd h1 (Nat.lt_irrefl pos)
              · exact h2
            · exact hT t2 h hp
          · intro bp bt habs
            cases habs
            rcases hDqt with h1 | ⟨h1, h2⟩
            · rcases hc with h3 | ⟨h3, _⟩
              · exact Or.inl (Nat.lt_trans h1 h3)
              · exact Or.inl (h3 ▸ h1)
            · rcases hc with h3 | ⟨h3, h4⟩
              · exact Or.inl (h1 ▸ h3)
              · exact Or.inr ⟨h1.trans h3, Nat.le_of_lt
                  (Nat.lt_of_lt_of_le h4 h2)⟩
        · have hstep : fbsStep btext i acc t = some (bp0, bt0) := by
            unfold fbsStep
            rw [hft, hacc]
            have hfalse : (decide (q < bp0) ||
                (q == bp0 && decide (bt0.length < t.length))) = false := by
              push_neg at hc
              rcases Nat.lt_or_ge q bp0 with h | h
              · exact absurd h (Nat.not_lt.mpr hc.1)
              · by_cases hqe : q = bp0
                · have h2 : ¬ bt0.length < t.length :=
                    Nat.not_lt.mpr (hc.2 hqe)
                  simp [hqe, h2]
                · have h4 : ¬ q < bp0 := Nat.not_lt.mpr h
                  simp [h4, hqe]
            simp [hfalse]
          rw [hstep] at hres2
          obtain ⟨hS, hM, hT, hD⟩ := ih (some (bp0, bt0)) pos tok hres2
          have hDbb := hD bp0 bt0 rfl
          push_neg at hc
          have hble : bp0 ≤ q := hc.1
          refine ⟨?_, ?_, ?_, ?_⟩
          · rcases hS with h | ⟨hm, hf⟩
            · exact Or.inl h
            · exact Or.inr ⟨List.mem_cons_of_mem t hm, hf⟩
          · intro t2 ht2 p hp
            rcases List.mem_cons.mp ht2 with h | h
            · subst h
              rw [hft] at hp
              cases hp
              have hpb : pos ≤ bp0 := by
                rcases hDbb with h1 | ⟨h1, _⟩
                · exact Nat.le_of_lt h1
                · exact Nat.le_of_eq h1
              exact hpb.trans hble
            · exact hM t2 h p hp
          · intro t2 ht2 hp
            rcases List.mem_cons.mp ht2 with h | h
            · subst h
              rw [hft] at hp
              cases hp
              rcases hDbb with h1 | ⟨h1, h2⟩
              · exact absurd (Nat.lt_of_lt_of_le h1 hble)
                  (Nat.lt_irrefl pos)
              · have hqb : pos = bp0 := h1
                exact (hc.2 hqb).trans h2
            · exact hT t2 h hp
          · intro bp bt habs
            cases habs
            exact hDbb

theorem find?_split {p : α → Bool} {l : List α} {a : α}
    (h : l.find? p = some a) :
    ∃ pre suf, l = pre ++ a :: suf ∧ (∀ x ∈ pre, p x = false) ∧
      p a = true := by
  induction l with
  | nil => cases h
  | cons x xs ih =>
    cases hpx : p x with
    | true =>
      rw [List.find?_cons_of_pos _ hpx] at h
      cases h
      exact ⟨[], xs, rfl, by simp, hpx⟩
    | false =>
      rw [List.find?_cons_of_neg _ (by rw [hpx]; exact Bool.false_ne_true)]
        at h
      obtain ⟨pre, suf, heq, hpre, hpa⟩ := ih h
      refine ⟨x :: pre, suf, by rw [heq]; rfl, ?_, hpa⟩
      intro y hy
      rcases List.mem_cons.mp hy with h2 | h2
      · subst h2; exact hpx
      · exact hpre y h2

theorem emFrom_spec (specials : List Bytes) (chunk : Bytes) :
    ∀ (fuel pos s : Nat) (tok : Bytes),
      emFrom specials chunk fuel pos = some (s, tok) →
      pos ≤ s ∧ firstTokAt specials chunk s = some tok ∧
      (∀ q, pos ≤ q → q < s → firstTokAt specials chunk q = none) := by
  intro fuel
  induction fuel with
  | zero => intro pos s tok h; cases h
  | succ fuel ih =>
    intro pos s tok h
    unfold emFrom at h
    by_cases hp : pos > chunk.length
    · rw [if_pos hp] at h; cases h
    · rw [if_neg hp] at h
      cases hf : firstTokAt specials chunk pos with
      | some tk =>
        rw [hf] at h
        cases h
        exact ⟨le_rfl, hf, fun q hq1 hq2 => absurd (hq1.trans_lt hq2)
          (Nat.lt_irrefl pos)⟩
      | none =>
        rw [hf] at h
        obtain ⟨h1, h2, h3⟩ := ih (pos + 1) s tok h
        refine ⟨(Nat.le_succ pos).trans h1, h2, ?_⟩
        intro q hq1 hq2
        by_cases hqp : q = pos
        · subst hqp; exact hf
        · exact h3 q (by omega) hq2

/-- C7, amended. In the encoding path (`Tokenizer.pretokenize`) the
chosen special token minimizes the match position, and among tokens
matching at that same earliest position it has maximal length. In the
training path (`pretokenize_file`, via the `special_re` alternation),
the match is at the earliest position where any token matches, but the
tie at that position is broken by the ORDER of the special-token list
(first listed wins), not by length. -/
theorem c7_special_tiebreak (btext : Bytes) (specials : List Bytes)
    (i : Nat) (chunk : Bytes) (fuel pos : Nat) :
    (∀ posr tokr, findBestSpecial btext specials i = some (posr, tokr) →
      (tokr ∈ specials ∧ bfind btext tokr i = some posr) ∧
      (∀ t ∈ specials, ∀ p, bfind btext t i = some p → posr ≤ p) ∧
      (∀ t ∈ specials, bfind btext t i = some posr →
        t.length ≤ tokr.length)) ∧
    (∀ s tokr, emFrom specials chunk fuel pos = some (s, tokr) →
      (∀ q, pos ≤ q → q < s → firstTokAt specials chunk q = none) ∧
      ∃ pre suf, specials = pre ++ tokr :: suf ∧
        (∀ t ∈ pre, matchesAt chunk t s = false) ∧
        matchesAt chunk tokr s = true) := by
  constructor
  · intro posr tokr hres
    obtain ⟨hS, hM, hT, _⟩ :=
      fbs_fold_spec btext i specials none posr tokr hres
    rcases hS with h | h
    · cases h
    · exact ⟨h, hM, hT⟩
  · intro s tokr hres
    obtain ⟨_, h2, h3⟩ := emFrom_spec specials chunk fuel pos s tokr hres
    refine ⟨h3, ?_⟩
    obtain ⟨pre, suf, heq, hpre, hpa⟩ := find?_split h2
    exact ⟨pre, suf, heq, hpre, hpa⟩

/-- C7, counterexample. Special tokens `["ab", "abc"]` (shorter listed
first) on the buffer `"abc"`: both tokens begin at position 0, and the
training path's scan chooses `"ab"`, not the longest `"abc"`; the
resulting pre-token stream is `["ab", "c"]` instead of `["abc"]`. -/
theorem c7_counterexample :
    emFrom [[97, 98], [97, 98, 99]] [97, 98, 99] 4 0 =
      some (0, [97, 98]) ∧
    matchesAt [97, 98, 99] [97, 98, 99] 0 = true ∧
    ¬ ([97, 98, 99] : Bytes).length ≤ ([97, 98] : Bytes).length ∧
    processChunk [[97, 98], [97, 98, 99]] [97, 98, 99] =
      [[97, 98], [99]] := by
  refine ⟨by decide, by decide, by decide, by decide⟩

/-- Witness for `c7_special_tiebreak` at the concrete instance of the
counterexample: the encoding path does pick the longest token there,
the training path picks the first listed. -/
theorem c7_special_tiebreak_witness :
    (findBestSpecial [97, 98, 99] [[97, 98], [97, 98, 99]] 0 =
      some (0, [97, 98, 99])) ∧
    (∀ t ∈ ([[97, 98], [97, 98, 99]] : List Bytes),
      bfind [97, 98, 99] t 0 = some 0 →
        t.length ≤ ([97, 98, 99] : Bytes).length) ∧
    (∃ pre suf, ([[97, 98], [97, 98, 99]] : List Bytes) =
        pre ++ [97, 98] :: suf ∧
      (∀ t ∈ pre, matchesAt [97, 98, 99] t 0 = false) ∧
      matchesAt [97, 98, 99] [97, 98] 0 = true) :=
  ⟨by decide,
    ((c7_special_tiebreak [97, 98, 99] [[97, 98], [97, 98, 99]] 0
      [97, 98, 99] 4 0).1 0 [97, 98, 99] (by decide)).2.2,
    ((c7_special_tiebreak [97, 98, 99] [[97, 98], [97, 98, 99]] 0
      [97, 98, 99] 4 0).2 0 [97, 98] (by decide)).2⟩

/-- C5 (code bug evidence). `find_chunk_boundaries` sets
`max_tok_len = len(special_tokens_bytes)` — the NUMBER of special
tokens — where the spec (and the variable's own name and the comment
"Make sure all special tokens are not divided") require the maximum
token LENGTH. Consequently, for a single special token `t` the scan
carries an empty tail into every subsequent 4 KiB read (first
conjunct: the recursive call's tail is `[]`), while the spec's sliding
window would carry `max(|s|) − 1 = |t| − 1` bytes (second and third
conjuncts), which is nonempty whenever `|t| ≥ 2` and the window holds
at least one byte. An occurrence of `t` straddling two consecutive
reads is therefore missed by the code. -/
theorem c5_chunker_overlap_counts_tokens (t : Bytes) (file : Bytes)
    (fuel pos : Nat) (tail window : Bytes) :
    (scanBoundary file [t] ([t] : List Bytes).length (fuel + 1) pos tail =
      (let mini := (file.drop pos).take 4096
       if mini.length = 0 then file.length
       else
         match windowFind [t] (tail ++ mini) with
         | some idx => pos - tail.length + idx
         | none => scanBoundary file [t] 1 fuel (pos + mini.length) [])) ∧
    specMaxTokLen [t] = t.length ∧
    (listTail window (specMaxTokLen [t] - 1)).length =
      min (t.length - 1) window.length := by
  refine ⟨rfl, ?_, ?_⟩
  · simp [specMaxTokLen]
  · simp only [specMaxTokLen, List.foldl_cons, List.foldl_nil, listTail,
      List.length_drop]
    omega

/-- C4, counterexample. Chunk coverage fails: on the file `"aaa"`,
with no special tokens and K = 3 the uniform boundaries cut the single
pre-token `"aaa"` into three pieces, and with the special token `"aa"`
and K = 3 the boundary lands on an occurrence of `"aa"` that the
whole-file scan does not match at, reordering the stream. K = 1
reproduces the whole-file run. -/
theorem c4_counterexample :
    pretokenizeStream [97, 97, 97] [] 3 = [[97], [97], [97]] ∧
    pretokenizeStream [97, 97, 97] [] 1 = [[97, 97, 97]] ∧
    pretokenizeStream [97, 97, 97] [[97, 97]] 3 = [[97], [97, 97]] ∧
    pretokenizeStream [97, 97, 97] [[97, 97]] 1 = [[97, 97], [97]] := by
  refine ⟨by decide, by decide, by decide, by decide⟩

/-! ### C1: the lexicographic tie-break of the merge selector -/

theorem bytesLt_irrefl : ∀ a : Bytes, bytesLt a a = false := by
  intro a
  induction a with
  | nil => rfl
  | cons x xs ih => simp [bytesLt, ih]

theorem bytesLt_asymm : ∀ a b : Bytes, bytesLt a b = true →
    bytesLt b a = false := by
  intro a
  induction a with
  | nil =>
    intro b h
    cases b with
    | nil => cases h
    | cons y ys => rfl
  | cons x xs ih =>
    intro b h
    cases b with
    | nil => cases h
    | cons y ys =>
      simp only [bytesLt] at h ⊢
      rcases Nat.lt_trichotomy x y with hxy | hxy | hxy
      · have h1 : ¬ y < x := by omega
        simp [h1, hxy]
      · subst hxy
        simp only [Nat.lt_irrefl, if_false, if_neg (Nat.lt_irrefl x)]
          at h ⊢
        exact ih ys h
      · have h1 : ¬ x < y := by omega
        simp [h1, hxy] at h

theorem bytesLt_trans : ∀ a b c : Bytes, bytesLt a b = true →
    bytesLt b c = true → bytesLt a c = true := by
  intro a
  induction a with
  | nil =>
    intro b c h1 h2
    cases b with
    | nil => cases h1
    | cons y ys =>
      cases c with
      | nil => cases h2
      | cons z zs => rfl
  | cons x xs ih =>
    intro b c h1 h2
    cases b with
    | nil => cases h1
    | cons y ys =>
      cases c with
      | nil => cases h2
      | cons z zs =>
        simp only [bytesLt] at h1 h2 ⊢
        rcases Nat.lt_trichotomy x y with hxy | hxy | hxy <;>
          rcases Nat.lt_trichotomy y z with hyz | hyz | hyz
        · have hxz : x < z := by omega
          simp [hxz]
        · subst hyz
          simp [hxy]
        · have h3 : ¬ y < z := by omega
          simp [h3, hyz] at h2
        · subst hxy
          simp [hyz]
        · subst hxy
          subst hyz
          simp only [Nat.lt_irrefl, if_neg (Nat.lt_irrefl x)] at h1 h2 ⊢
          exact ih _ _ h1 h2
        · subst hxy
          have h3 : ¬ x < z := by omega
          simp [h3, hyz] at h2
        · have h3 : ¬ x < y := by omega
          simp [h3, hxy] at h1
        · have h3 : ¬ x < y := by omega
          simp [h3, hxy] at h1
        · have h3 : ¬ x < y := by omega
          simp [h3, hxy] at h1

theorem keyLt_irrefl (k : Bytes × Bytes) : keyLt k k = false := by
  simp [keyLt, bytesLt_irrefl]

theorem keyLt_asymm (k1 k2 : Bytes × Bytes) (h : keyLt k1 k2 = true) :
    keyLt k2 k1 = false := by
  simp only [keyLt, Bool.or_eq_true, Bool.and_eq_true, beq_iff_eq] at h
  have hgoal : bytesLt k2.1 k1.1 = false →
      ((k2.1 == k1.1 && bytesLt k2.2 k1.2) = false) →
      keyLt k2 k1 = false := by
    intro hh1 hh2
    simp [keyLt, hh1, hh2]
  rcases h with h | ⟨he, h2⟩
  · refine hgoal (bytesLt_asymm _ _ h) ?_
    cases hbe : (k2.1 == k1.1) with
    | false => simp
    | true =>
      have he2 : k2.1 = k1.1 := by simpa using hbe
      rw [he2] at h
      rw [bytesLt_irrefl] at h
      cases h
  · refine hgoal ?_ ?_
    · rw [← he]
      exact bytesLt_irrefl _
    · simp [bytesLt_asymm _ _ h2]

theorem keyLt_trans (k1 k2 k3 : Bytes × Bytes) (h1 : keyLt k1 k2 = true)
    (h2 : keyLt k2 k3 = true) : keyLt k1 k3 = true := by
  simp only [keyLt, Bool.or_eq_true, Bool.and_eq_true, beq_iff_eq]
    at h1 h2 ⊢
  rcases h1 with h1 | ⟨he1, h1b⟩
  · rcases h2 with h2 | ⟨he2, h2b⟩
    · exact Or.inl (bytesLt_trans _ _ _ h1 h2)
    · rw [he2] at h1
      exact Or.inl h1
  · rcases h2 with h2 | ⟨he2, h2b⟩
    · rw [he1]
      exact Or.inl h2
    · rw [he1, he2]
      exact Or.inr ⟨rfl, bytesLt_trans _ _ _ h1b h2b⟩

theorem insertDesc_mem (vocab : List (Nat × Bytes)) (x : Nat × Nat)
    (l : List (Nat × Nat)) (p : Nat × Nat) :
    p ∈ insertDesc vocab x l ↔ p = x ∨ p ∈ l := by
  induction l with
  | nil => simp [insertDesc]
  | cons y ys ih =>
    simp only [insertDesc]
    by_cases hc : keyLt (pairKey vocab y) (pairKey vocab x) = true
    · simp [hc]
    · simp only [if_neg hc, List.mem_cons, ih]
      tauto

theorem sortTiedDesc_mem (vocab : List (Nat × Bytes))
    (l : List (Nat × Nat)) (p : Nat × Nat) :
    p ∈ sortTiedDesc vocab l ↔ p ∈ l := by
  induction l with
  | nil => simp [sortTiedDesc]
  | cons x xs ih =>
    simp only [sortTiedDesc, List.foldr_cons]
    rw [insertDesc_mem]
    simp only [List.mem_cons]
    constructor
    · rintro (h | h)
      · exact Or.inl h
      · exact Or.inr (ih.mp h)
    · rintro (h | h)
      · exact Or.inl h
      · exact Or.inr (ih.mpr h)

theorem insertDesc_headMax (vocab : List (Nat × Bytes)) (x : Nat × Nat)
    (ys : List (Nat × Nat)) (hys : HeadMax vocab ys) :
    HeadMax vocab (insertDesc vocab x ys) := by
  cases ys with
  | nil =>
    intro sel rest heq p hp
    simp only [insertDesc] at heq hp
    cases heq
    simp at hp
    rw [hp]
    exact keyLt_irrefl _
  | cons y ys0 =>
    by_cases hc : keyLt (pairKey vocab y) (pairKey vocab x) = true
    · intro sel rest heq p hp
      simp only [insertDesc, if_pos hc] at heq hp
      cases heq
      rcases List.mem_cons.mp hp with h | h
      · rw [h]
        exact keyLt_irrefl _
      · rcases List.mem_cons.mp h with h2 | h2
        · rw [h2]
          exact keyLt_asymm _ _ hc
        · have hdom := hys y ys0 rfl p (List.mem_cons_of_mem y h2)
          cases hxp : keyLt (pairKey vocab x) (pairKey vocab p) with
          | false => rfl
          | true =>
            have := keyLt_trans _ _ _ hc hxp
            rw [hdom] at this
            cases this
    · intro sel rest heq p hp
      simp only [insertDesc, if_neg hc] at heq hp
      cases heq
      rcases List.mem_cons.mp hp with h | h
      · rw [h]
        exact keyLt_irrefl _
      · rcases (insertDesc_mem vocab x ys0 p).mp h with h2 | h2
        · rw [h2]
          simpa using hc
        · exact hys y ys0 rfl p (List.mem_cons_of_mem y h2)

theorem sortTiedDesc_headMax (vocab : List (Nat × Bytes))
    (l : List (Nat × Nat)) : HeadMax vocab (sortTiedDesc vocab l) := by
  induction l with
  | nil => intro sel rest heq; cases heq
  | cons x xs ih =>
    simp only [sortTiedDesc, List.foldr_cons]
    exact insertDesc_headMax vocab x _ ih

theorem alookup_some_mem_keys [DecidableEq α] (m : List (α × β)) (k : α)
    (v : β) (h : alookup m k = some v) : k ∈ m.map Prod.fst := by
  induction m with
  | nil => cases h
  | cons kv rest ih =>
    obtain ⟨k0, v0⟩ := kv
    simp only [alookup] at h
    by_cases hk : k0 = k
    · subst hk
      simp
    · rw [if_neg hk] at h
      simp [ih h]

theorem collectTied_acc_sub (counts : List ((Nat × Nat) × Int))
    (negcnt freq : Int) :
    ∀ (fuel : Nat) (heap : List HeapEntry) (tied : List (Nat × Nat)),
    ∀ p ∈ tied, p ∈ (collectTied counts negcnt freq fuel heap tied).1 := by
  intro fuel
  induction fuel with
  | zero => intro heap tied p hp; exact hp
  | succ fuel ih =>
    intro heap tied p hp
    cases heap with
    | nil => exact hp
    | cons e rest =>
      obtain ⟨c, p2⟩ := e
      simp only [collectTied]
      by_cases hc : (c == negcnt) = true
      · rw [if_pos hc]
        by_cases hf : ((alookup counts p2).getD 0 == freq) = true
        · rw [if_pos hf]
          exact ih rest (tied ++ [p2]) p (List.mem_append_left _ hp)
        · rw [if_neg hf]
          exact ih rest tied p hp
      · rw [if_neg hc]
        exact hp

theorem collectTied_sound (counts : List ((Nat × Nat) × Int))
    (negcnt freq : Int) :
    ∀ (fuel : Nat) (heap : List HeapEntry) (tied : List (Nat × Nat)),
    ∀ p ∈ (collectTied counts negcnt freq fuel heap tied).1,
      p ∈ tied ∨ (alookup counts p).getD 0 = freq := by
  intro fuel
  induction fuel with
  | zero => intro heap tied p hp; exact Or.inl hp
  | succ fuel ih =>
    intro heap tied p hp
    cases heap with
    | nil => exact Or.inl hp
    | cons e rest =>
      obtain ⟨c, p2⟩ := e
      simp only [collectTied] at hp
      by_cases hc : (c == negcnt) = true
      · rw [if_pos hc] at hp
        by_cases hf : ((alookup counts p2).getD 0 == freq) = true
        · rw [if_pos hf] at hp
          rcases ih rest (tied ++ [p2]) p hp with h | h
          · rcases List.mem_append.mp h with h2 | h2
            · exact Or.inl h2
            · simp at h2
              subst h2
              exact Or.inr (by simpa using hf)
          · exact Or.inr h
        · rw [if_neg hf] at hp
          exact ih rest tied p hp
      · rw [if_neg hc] at hp
        exact Or.inl hp

theorem collectTied_complete (counts : List ((Nat × Nat) × Int))
    (negcnt freq : Int) :
    ∀ (heap : List HeapEntry) (fuel : Nat) (tied : List (Nat × Nat)),
    heap.length ≤ fuel →
    List.Pairwise (fun a b => entryLE a b = true) heap →
    (∀ e ∈ heap, negcnt ≤ e.1) →
    ∀ p, (negcnt, p) ∈ heap → (alookup counts p).getD 0 = freq →
      p ∈ (collectTied counts negcnt freq fuel heap tied).1 := by
  intro heap
  induction heap with
  | nil => intro fuel tied _ _ _ p hp; cases hp
  | cons e rest ih =>
    intro fuel tied hfuel hsorted hmin p hp hcnt
    obtain ⟨c, p2⟩ := e
    cases fuel with
    | zero => simp at hfuel
    | succ fuel =>
      have hcneg : c = negcnt := by
        rcases List.mem_cons.mp hp with h | h
        · cases h
          rfl
        · have h1 := hmin (c, p2) (List.mem_cons_self _ _)
          have h2 := (List.pairwise_cons.mp hsorted).1 (negcnt, p) h
          simp only [entryLE, Bool.or_eq_true, Bool.and_eq_true,
            decide_eq_true_eq, beq_iff_eq] at h2
          rcases h2 with h2 | ⟨h2, _⟩
          · omega
          · omega
      subst hcneg
      simp only [collectTied]
      have hcc : (c == c) = true := by simp
      rw [if_pos hcc]
      rcases List.mem_cons.mp hp with h | h
      · cases h
        have hf : ((alookup counts p).getD 0 == freq) = true := by
          simpa using hcnt
        rw [if_pos hf]
        exact collectTied_acc_sub counts c freq fuel rest
          (tied ++ [p]) p (List.mem_append_right _ (by simp))
      · by_cases hf : ((alookup counts p2).getD 0 == freq) = true
        · rw [if_pos hf]
          exact ih fuel (tied ++ [p2]) (by simpa using hfuel)
            (List.pairwise_cons.mp hsorted).2
            (fun e he => hmin e (List.mem_cons_of_mem _ he)) p h hcnt
        · rw [if_neg hf]
          exact ih fuel tied (by simpa using hfuel)
            (List.pairwise_cons.mp hsorted).2
            (fun e he => hmin e (List.mem_cons_of_mem _ he)) p h hcnt

theorem heapPush_mem (heap : List HeapEntry) (e x : HeapEntry) :
    x ∈ heapPush heap e ↔ x = e ∨ x ∈ heap := by
  induction heap with
  | nil => simp [heapPush]
  | cons h t ih =>
    simp only [heapPush]
    by_cases hc : entryLE e h = true
    · simp [hc]
    · simp only [if_neg hc, List.mem_cons, ih]
      tauto

theorem foldl_push_preserve (counts : List ((Nat × Nat) × Int))
    (l : List (Nat × Nat)) :
    ∀ (h0 : List HeapEntry) (e : HeapEntry), e ∈ h0 →
      e ∈ l.foldl
        (fun h p2 => heapPush h (-((alookup counts p2).getD 0), p2)) h0 := by
  induction l with
  | nil => intro h0 e he; exact he
  | cons q rest ih =>
    intro h0 e he
    simp only [List.foldl_cons]
    exact ih _ e ((heapPush_mem _ _ _).mpr (Or.inr he))

theorem pushback_mem (counts : List ((Nat × Nat) × Int))
    (others : List (Nat × Nat)) :
    ∀ (h0 : List HeapEntry) (p : Nat × Nat), p ∈ others →
      (-((alookup counts p).getD 0), p) ∈
        others.foldl
          (fun h p2 => heapPush h (-((alookup counts p2).getD 0), p2))
          h0 := by
  induction others with
  | nil => intro h0 p hp; cases hp
  | cons q rest ih =>
    intro h0 p hp
    simp only [List.foldl_cons]
    rcases List.mem_cons.mp hp with h | h
    · subst h
      exact foldl_push_preserve counts rest _ _
        ((heapPush_mem _ _ _).mpr (Or.inl rfl))
    · exact ih _ p h

/-- C1. The tie-break of the merge selector (train_bpe.py lines
80-95): when the heap is the sorted model, the popped entry
`(negcnt, pair)` is fresh with nonzero count, no heap entry precedes
`negcnt`, and every other pair whose current count equals `freq` has
its fresh entry `(negcnt, p)` in the heap, then the selected pair has
the lexicographically greatest byte tuple `(vocab[x], vocab[y])` among
ALL pairs tied at the current maximum, and every non-selected tied
pair is pushed back into the heap with its current count. -/
theorem c1_tie_selection (vocab : List (Nat × Bytes))
    (counts : List ((Nat × Nat) × Int)) (negcnt freq : Int)
    (pair : Nat × Nat) (heap : List HeapEntry)
    (hfresh : (alookup counts pair).getD 0 = freq)
    (hfreq0 : freq ≠ 0)
    (hsorted : List.Pairwise (fun a b => entryLE a b = true) heap)
    (hmin : ∀ e ∈ heap, negcnt ≤ e.1)
    (hcompl : ∀ p ∈ counts.map Prod.fst,
      (alookup counts p).getD 0 = freq → p ≠ pair → (negcnt, p) ∈ heap) :
    ∀ sel others heap3,
      tieBreakStep vocab counts negcnt freq pair heap =
        (sel, others, heap3) →
      ((alookup counts sel).getD 0 = freq) ∧
      (∀ p, (alookup counts p).getD 0 = freq →
        keyLt (pairKey vocab sel) (pairKey vocab p) = false) ∧
      (∀ p, (alookup counts p).getD 0 = freq → p ≠ sel → p ∈ others) ∧
      (∀ p ∈ others, (-((alookup counts p).getD 0), p) ∈ heap3) := by
  intro sel others heap3 hstep
  simp only [tieBreakStep] at hstep
  cases hsort : sortTiedDesc vocab
      (pair :: (collectTied counts negcnt freq heap.length heap []).1) with
  | nil =>
    exact absurd ((sortTiedDesc_mem vocab _ pair).mpr
      (List.mem_cons_self _ _)) (by rw [hsort]; simp)
  | cons sel0 others0 =>
    rw [hsort] at hstep
    simp only [Prod.mk.injEq] at hstep
    obtain ⟨h1, h2, h3⟩ := hstep
    subst h1
    subst h2
    subst h3
    have htied_mem : ∀ p, (alookup counts p).getD 0 = freq →
        p ∈ pair :: (collectTied counts negcnt freq heap.length heap []).1
        := by
      intro p hcnt
      by_cases hpp : p = pair
      · subst hpp
        exact List.mem_cons_self _ _
      · have hkey : p ∈ counts.map Prod.fst := by
          cases hl : alookup counts p with
          | none => rw [hl] at hcnt; simp at hcnt; exact absurd hcnt.symm hfreq0
          | some v => exact alookup_some_mem_keys counts p v hl
        exact List.mem_cons_of_mem _
          (collectTied_complete counts negcnt freq heap heap.length []
            le_rfl hsorted hmin p (hcompl p hkey hcnt hpp) hcnt)
    refine ⟨?_, ?_, ?_, ?_⟩
    · -- the selected pair is itself tied
      have hselmem : sel0 ∈ pair ::
          (collectTied counts negcnt freq heap.length heap []).1 := by
        rw [← sortTiedDesc_mem vocab, hsort]
        exact List.mem_cons_self _ _
      rcases List.mem_cons.mp hselmem with h | h
      · rw [h]; exact hfresh
      · rcases collectTied_sound counts negcnt freq heap.length heap []
          sel0 h with h2 | h2
        · cases h2
        · exact h2
    · intro p hcnt
      have hp := htied_mem p hcnt
      have hp2 : p ∈ sortTiedDesc vocab
          (pair :: (collectTied counts negcnt freq heap.length heap []).1) :=
        (sortTiedDesc_mem vocab _ p).mpr hp
      exact sortTiedDesc_headMax vocab _ sel0 others0 hsort p hp2
    · intro p hcnt hne
      have hp := htied_mem p hcnt
      have hp2 : p ∈ sortTiedDesc vocab
          (pair :: (collectTied counts negcnt freq heap.length heap []).1) :=
        (sortTiedDesc_mem vocab _ p).mpr hp
      rw [hsort] at hp2
      rcases List.mem_cons.mp hp2 with h | h
      · exact absurd h hne
      · exact h
    · intro p hp
      exact pushback_mem counts others0 _ p hp

/-- Witness for `c1_tie_selection`: pairs (97,98) and (98,99) tied at
count 2; the byte tuple (b"b", b"c") is greater, so (98,99) is
selected and (97,98) is pushed back with count 2. -/
theorem c1_tie_selection_witness :
    ((alookup c1WCounts ((98 : Nat), (99 : Nat))).getD 0 = 2) ∧
    (∀ p, (alookup c1WCounts p).getD 0 = 2 →
      keyLt (pairKey c1WVocab (98, 99)) (pairKey c1WVocab p) = false) ∧
    (∀ p, (alookup c1WCounts p).getD 0 = 2 → p ≠ (98, 99) →
      p ∈ [((97 : Nat), (98 : Nat))]) ∧
    (∀ p ∈ [((97 : Nat), (98 : Nat))],
      (-((alookup c1WCounts p).getD 0), p) ∈
        [((-2 : Int), ((97 : Nat), (98 : Nat)))]) :=
  c1_tie_selection c1WVocab c1WCounts (-2) 2 (97, 98) [(-2, (98, 99))]
    (by decide) (by decide) (by decide) (by decide) (by decide)
    (98, 99) [(97, 98)] [(-2, (97, 98))] (by decide)

/-! ### C2 / C3: what the two training variants record -/

theorem dictInsert_keys_sub [DecidableEq α] (m : List (α × β)) (a : α)
    (b : β) (k : α) :
    k ∈ (dictInsert m a b).map Prod.fst → k ∈ m.map Prod.fst ∨ k = a := by
  induction m with
  | nil =>
    intro h
    simp [dictInsert] at h
    exact Or.inr h
  | cons kv rest ih =>
    obtain ⟨k0, v0⟩ := kv
    intro h
    simp only [dictInsert] at h
    by_cases hk : k0 = a
    · rw [if_pos hk] at h
      subst hk
      simp only [List.map_cons, List.mem_cons] at h ⊢
      tauto
    · rw [if_neg hk] at h
      simp only [List.map_cons, List.mem_cons] at h ⊢
      rcases h with h | h
      · tauto
      · rcases ih h with h2 | h2 <;> tauto

/-- Adopted-pair keys of `BPETokenizer.merges` only grow by the pair
passed to `add_merge`. -/
theorem addMerge_merges_keys {st : BPEState} {p : Nat × Nat}
    {stNew : BPEState × Nat} (hstep : addMerge st p = some stNew)
    (k : Nat × Nat) (hk : k ∈ stNew.1.merges.map Prod.fst) :
    k ∈ st.merges.map Prod.fst ∨ k = p := by
  unfold addMerge at hstep
  cases hA : alookup st.vocab p.1 with
  | none => rw [hA] at hstep; cases hstep
  | some ba =>
    cases hB : alookup st.vocab p.2 with
    | none => rw [hA, hB] at hstep; cases hstep
    | some bb =>
      rw [hA, hB] at hstep
      cases hstep
      exact dictInsert_keys_sub st.merges p _ k hk

/-- The special-id guard invariant of the merge loop: no adopted pair
(key of `tokenizer.merges`) has a special id on either side. -/
theorem trainLoop_no_special_pairs (vocabSize : Nat)
    (specialIds : List Nat) (wordFreq : List (Bytes × Nat)) :
    ∀ (fuel : Nat) (st : TrainState),
    (∀ k ∈ st.tok.merges.map Prod.fst,
      k.1 ∉ specialIds ∧ k.2 ∉ specialIds) →
    ∀ k ∈ (trainLoop vocabSize specialIds wordFreq fuel
        st).tok.merges.map Prod.fst,
      k.1 ∉ specialIds ∧ k.2 ∉ specialIds := by
  intro fuel
  induction fuel with
  | zero => intro st hinv; exact hinv
  | succ fuel ih =>
    intro st hinv
    by_cases hsz : st.tok.vocab.length < vocabSize
    case neg =>
      simp only [trainLoop, if_neg hsz]
      exact hinv
    case pos =>
      cases hheap : st.heap with
      | nil =>
        simp only [trainLoop, if_pos hsz, hheap]
        exact hinv
      | cons e heapRest =>
        obtain ⟨negcnt, pair⟩ := e
        simp only [trainLoop, if_pos hsz, hheap]
        by_cases hstale :
            (alookup st.pairCounts pair).getD 0 ≠ -negcnt ∨ -negcnt = 0
        · rw [if_pos hstale]
          exact ih _ hinv
        · rw [if_neg hstale]
          by_cases hguard :
              (tieBreakStep st.tok.vocab st.pairCounts negcnt (-negcnt)
                pair heapRest).1.1 ∈ specialIds ∨
              (tieBreakStep st.tok.vocab st.pairCounts negcnt (-negcnt)
                pair heapRest).1.2 ∈ specialIds
          · rw [if_pos hguard]
            exact ih _ hinv
          · rw [if_neg hguard]
            cases hA : alookup st.tok.vocab
                (tieBreakStep st.tok.vocab st.pairCounts negcnt (-negcnt)
                  pair heapRest).1.1 with
            | none => exact hinv
            | some ba =>
              cases hB : alookup st.tok.vocab
                  (tieBreakStep st.tok.vocab st.pairCounts negcnt
                    (-negcnt) pair heapRest).1.2 with
              | none => exact hinv
              | some bb =>
                cases hM : addMerge st.tok
                    (tieBreakStep st.tok.vocab st.pairCounts negcnt
                      (-negcnt) pair heapRest).1 with
                | none => exact hinv
                | some tokNew =>
                  apply ih
                  intro k hk
                  simp only at hk
                  rcases addMerge_merges_keys hM k hk with h | h
                  · exact hinv k h
                  · subst h
                    push_neg at hguard
                    exact hguard

/-- Every successful run of `train_bpe2` records no merges: its `ok`
result only arises for a corpus with no chunks at all. -/
theorem trainBpe2_ok_merges_nil (input : Bytes) (vocabSize : Nat)
    (specials : List Bytes) (numProcesses : Nat)
    (res : List (Nat × Bytes) × List (Bytes × Bytes))
    (h : trainBpe2 input vocabSize specials numProcesses = .ok res) :
    res.2 = [] := by
  simp only [trainBpe2] at h
  cases hct : ((findChunkBoundaries input numProcesses specials).zip
      (findChunkBoundaries input numProcesses specials).tail).map
      (fun se => processChunk specials (slice input se.1 se.2)) with
  | nil =>
    rw [hct] at h
    simp only at h
    cases h
    rfl
  | cons c cs =>
    rw [hct] at h
    cases h

/-- C2, amended. No adopted candidate pair has a special-token ID on
either side: in `train_bpe` the guard before `add_merge` ensures every
key of `tokenizer.merges` avoids the special ids, and `train_bpe2`
never adopts any pair at all — on every corpus with at least one chunk
it raises `TypeError` (iterating the tuple returned by
`pretokenize_file` makes `tok_bytes` a `list`, which is unhashable in
`tok_bytes in byte2id`), and otherwise returns an empty merge list. -/
theorem c2_no_special_pair_adopted :
    (∀ (fuel vocabSize : Nat) (specialIds : List Nat)
      (wordFreq : List (Bytes × Nat)) (st : TrainState),
      (∀ k ∈ st.tok.merges.map Prod.fst,
        k.1 ∉ specialIds ∧ k.2 ∉ specialIds) →
      ∀ k ∈ (trainLoop vocabSize specialIds wordFreq fuel
          st).tok.merges.map Prod.fst,
        k.1 ∉ specialIds ∧ k.2 ∉ specialIds) ∧
    (∀ (input : Bytes) (vocabSize : Nat) (specials : List Bytes)
      (numProcesses : Nat) res,
      trainBpe2 input vocabSize specials numProcesses = .ok res →
      res.2 = []) :=
  ⟨fun fuel vocabSize specialIds wordFreq st hinv =>
    trainLoop_no_special_pairs vocabSize specialIds wordFreq fuel st hinv,
   fun input vocabSize specials numProcesses res h =>
    trainBpe2_ok_merges_nil input vocabSize specials numProcesses res h⟩

/-- Witness for `c2_no_special_pair_adopted`: one real merge step on
the corpus "ac ac" (no specials), and the empty corpus for
`train_bpe2`. -/
theorem c2_no_special_pair_adopted_witness :
    (∀ k ∈ (trainLoop 257 [256] [([97, 99], 2)] 1
        { tok := bpeInit [[60, 115, 62]],
          typeByteids := [([97, 99], [97, 99])],
          pairCounts := [((97, 99), 2)],
          heap := [(-2, (97, 99))],
          merges := [] }).tok.merges.map Prod.fst,
      k.1 ∉ ([256] : List Nat) ∧ k.2 ∉ ([256] : List Nat)) ∧
    (((bpeInit []).vocab, ([] : List (Bytes × Bytes))).2 = []) :=
  ⟨c2_no_special_pair_adopted.1 1 257 [256] [([97, 99], 2)] _
      (by decide),
   c2_no_special_pair_adopted.2 [] 300 [] 1 ((bpeInit []).vocab, [])
      (by rfl)⟩

theorem mapOpt_append (f : α → Option β) (xs ys : List α) :
    mapOpt f (xs ++ ys) =
      match mapOpt f xs, mapOpt f ys with
      | some as_, some bs => some (as_ ++ bs)
      | _, _ => none := by
  induction xs with
  | nil =>
    simp only [List.nil_append, mapOpt]
    cases mapOpt f ys <;> rfl
  | cons x xs ih =>
    simp only [List.cons_append, mapOpt, List.append_eq]
    rw [ih]
    cases hx : f x <;> cases hxs : mapOpt f xs <;>
      cases hys : mapOpt f ys <;> rfl

theorem mapOpt_congr (f g : α → Option β) (l : List α)
    (h : ∀ a ∈ l, f a = g a) : mapOpt f l = mapOpt g l := by
  induction l with
  | nil => rfl
  | cons x xs ih =>
    simp only [mapOpt]
    rw [h x (List.mem_cons_self x xs),
      ih (fun a ha => h a (List.mem_cons_of_mem x ha))]

theorem mapOpt_some_forall (f : α → Option β) (l : List α) (bs : List β)
    (h : mapOpt f l = some bs) : ∀ a ∈ l, ∃ b, f a = some b := by
  induction l generalizing bs with
  | nil => intro a ha; cases ha
  | cons x xs ih =>
    intro a ha
    simp only [mapOpt] at h
    cases hf : f x with
    | none => rw [hf] at h; cases h
    | some b =>
      rw [hf] at h
      cases hm : mapOpt f xs with
      | none => rw [hm] at h; cases h
      | some bs2 =>
        rcases List.mem_cons.mp ha with h2 | h2
        · exact ⟨b, h2 ▸ hf⟩
        · exact ih bs2 hm a h2

theorem dictInsert_fresh_append [DecidableEq α] (m : List (α × β)) (k : α)
    (v : β) (h : k ∉ m.map Prod.fst) : dictInsert m k v = m ++ [(k, v)] := by
  induction m with
  | nil => rfl
  | cons kv rest ih =>
    obtain ⟨k0, v0⟩ := kv
    simp only [List.map_cons, List.mem_cons] at h
    push_neg at h
    have h2 : ¬ k0 = k := fun hh => h.1 hh.symm
    simp only [dictInsert, if_neg h2, List.cons_append]
    rw [ih h.2]

/-- `mergeWordLoop` preserves the spelled byte string: replacing the
adjacent pair `(id_a, id_b)` by `new_id` whose bytes are the
concatenation leaves the join unchanged. -/
theorem mergeWordLoop_join (vocab : List (Nat × Bytes))
    (idA idB newId : Nat) (f : Int) (ba bb : Bytes)
    (hA : alookup vocab idA = some ba) (hB : alookup vocab idB = some bb)
    (hN : alookup vocab newId = some (ba ++ bb)) :
    ∀ (n : Nat) (rest : List Nat), rest.length ≤ n →
    ∀ (left : List Nat) (counts : List ((Nat × Nat) × Int))
      (heap : List HeapEntry),
      joinIds vocab
        (mergeWordLoop idA idB newId f left rest counts heap).1 =
      joinIds vocab (left.reverse ++ rest) := by
  intro n
  induction n with
  | zero =>
    intro rest hlen left counts heap
    have : rest = [] := List.length_eq_zero.mp (Nat.le_zero.mp hlen)
    subst this
    rfl
  | succ n ih =>
    intro rest hlen left counts heap
    match rest with
    | [] => rfl
    | [a] => rfl
    | a :: b :: tl =>
      simp only [mergeWordLoop]
      by_cases hab : a = idA ∧ b = idB
      · rw [if_pos hab]
        obtain ⟨ha, hb⟩ := hab
        subst ha
        subst hb
        have hlen2 : tl.length ≤ n := by
          simp only [List.length_cons] at hlen
          omega
        rw [ih tl hlen2]
        -- join (left.rev ++ [newId] ++ tl) = join (left.rev ++ [a, b] ++ tl)
        simp only [List.reverse_cons, List.append_assoc]
        simp only [joinIds, mapOpt_append, mapOpt, hA, hB, hN]
        cases hL : mapOpt (alookup vocab) left.reverse <;>
          cases hT : mapOpt (alookup vocab) tl <;>
            simp [hL, hT, List.flatten_append, List.flatten_cons]
      · rw [if_neg hab]
        have hlen2 : (b :: tl).length ≤ n := by
          simp only [List.length_cons] at hlen ⊢
          omega
        rw [ih (b :: tl) hlen2]
        simp only [List.reverse_cons, List.append_assoc]
        rfl

/-- `mergeAllWords` preserves each word's spelling. -/
theorem mergeAllWords_spell (vocab : List (Nat × Bytes))
    (idA idB newId : Nat) (ba bb : Bytes)
    (hA : alookup vocab idA = some ba) (hB : alookup vocab idB = some bb)
    (hN : alookup vocab newId = some (ba ++ bb))
    (wordFreq : List (Bytes × Nat)) :
    ∀ (entries : List (Bytes × List Nat))
      (counts : List ((Nat × Nat) × Int)) (heap : List HeapEntry),
    (∀ p ∈ entries, joinIds vocab p.2 = some p.1) →
    ∀ p ∈ (mergeAllWords idA idB newId wordFreq entries counts heap).1,
      joinIds vocab p.2 = some p.1 := by
  intro entries
  induction entries with
  | nil => intro counts heap _ p hp; cases hp
  | cons e rest ih =>
    intro counts heap hinv p hp
    obtain ⟨w, ids⟩ := e
    simp only [mergeAllWords] at hp
    rcases List.mem_cons.mp hp with h | h
    · subst h
      have hmwl := mergeWordLoop_join vocab idA idB newId
        (Int.ofNat ((alookup wordFreq w).getD 0)) ba bb hA hB hN
        ids.length ids le_rfl [] counts heap
      simp only [List.reverse_nil, List.nil_append] at hmwl
      rw [hmwl]
      exact hinv (w, ids) (List.mem_cons_self _ _)
    · exact ih _ _ (fun q hq => hinv q (List.mem_cons_of_mem _ hq)) p h

theorem alookup_some_mem [DecidableEq α] (m : List (α × β)) (k : α) (v : β)
    (h : alookup m k = some v) : (k, v) ∈ m := by
  induction m with
  | nil => cases h
  | cons p rest ih =>
    obtain ⟨k0, v0⟩ := p
    simp only [alookup] at h
    by_cases hk : k0 = k
    · rw [if_pos hk] at h
      cases h
      subst hk
      exact List.mem_cons_self _ _
    · rw [if_neg hk] at h
      exact List.mem_cons_of_mem _ (ih h)

theorem alookup_none_of_notmem [DecidableEq α] (m : List (α × β)) (k : α)
    (h : k ∉ m.map Prod.fst) : alookup m k = none := by
  induction m with
  | nil => rfl
  | cons p rest ih =>
    obtain ⟨k0, v0⟩ := p
    simp only [List.map_cons, List.mem_cons] at h
    push_neg at h
    have h2 : ¬ k0 = k := fun hh => h.1 hh.symm
    simp only [alookup, if_neg h2]
    exact ih h.2

theorem mapOpt_extend (vocab ext : List (Nat × Bytes)) (ids : List Nat)
    (l : List Bytes) (h : mapOpt (alookup vocab) ids = some l) :
    mapOpt (alookup (vocab ++ ext)) ids = some l := by
  induction ids generalizing l with
  | nil =>
    simp only [mapOpt] at h ⊢
    exact h
  | cons x xs ih =>
    simp only [mapOpt] at h ⊢
    cases hx : alookup vocab x with
    | none => rw [hx] at h; cases h
    | some b =>
      rw [hx] at h
      cases hm : mapOpt (alookup vocab) xs with
      | none => rw [hm] at h; cases h
      | some bs =>
        rw [hm] at h
        cases h
        simp [alookup_append, hx, ih bs hm]

theorem joinIds_extend (vocab ext : List (Nat × Bytes)) (ids : List Nat)
    (bs : Bytes) (h : joinIds vocab ids = some bs) :
    joinIds (vocab ++ ext) ids = some bs := by
  simp only [joinIds] at h ⊢
  cases hm : mapOpt (alookup vocab) ids with
  | none => rw [hm] at h; cases h
  | some l =>
    rw [hm] at h
    rw [mapOpt_extend vocab ext ids l hm]
    exact h

/-- `BPETokenizer.__init__` invariants used for C3: the vocab keys are
exactly `0..len-1` in order, `vocab[byte2id[b]] = b` for every entry of
`byte2id`, and every single byte has a `byte2id` entry. -/
theorem bpeInit_fold_inv (toks : List Bytes) :
    ∀ st : BPEState,
    st.vocab.map Prod.fst = List.range st.vocab.length →
    (∀ b i, alookup st.byte2id b = some i → alookup st.vocab i = some b) →
    (∀ x, x < 256 → (alookup st.byte2id [x]).isSome) →
    ((toks.foldl
      (fun st tok =>
        let tid := st.vocab.length
        { st with
          vocab := dictInsert st.vocab tid tok
          byte2id := dictInsert st.byte2id tok tid }) st).vocab.map
        Prod.fst
      = List.range (toks.foldl
        (fun st tok =>
          let tid := st.vocab.length
          { st with
            vocab := dictInsert st.vocab tid tok
            byte2id := dictInsert st.byte2id tok tid }) st).vocab.length) ∧
    (∀ b i, alookup (toks.foldl
        (fun st tok =>
          let tid := st.vocab.length
          { st with
            vocab := dictInsert st.vocab tid tok
            byte2id := dictInsert st.byte2id tok tid }) st).byte2id b
        = some i →
      alookup (toks.foldl
        (fun st tok =>
          let tid := st.vocab.length
          { st with
            vocab := dictInsert st.vocab tid tok
            byte2id := dictInsert st.byte2id tok tid }) st).vocab i
        = some b) ∧
    (∀ x, x < 256 → (alookup (toks.foldl
        (fun st tok =>
          let tid := st.vocab.length
          { st with
            vocab := dictInsert st.vocab tid tok
            byte2id := dictInsert st.byte2id tok tid }) st).byte2id
        [x]).isSome) := by
  induction toks with
  | nil => intro st h1 h2 h3; exact ⟨h1, h2, h3⟩
  | cons t ts ih =>
    intro st h1 h2 h3
    simp only [List.foldl_cons]
    have hnot : st.vocab.length ∉ st.vocab.map Prod.fst := by
      rw [h1]
      simp
    have hvoc : dictInsert st.vocab st.vocab.length t
        = st.vocab ++ [(st.vocab.length, t)] :=
      dictInsert_fresh_append _ _ _ hnot
    apply ih
    · simp only [hvoc, List.map_append, List.length_append, h1]
      simp [List.range_succ]
    · intro b i hb
      simp only [alookup_dictInsert] at hb
      by_cases hbt : b = t
      · rw [if_pos hbt] at hb
        cases hb
        subst hbt
        rw [hvoc, alookup_append, alookup_none_of_notmem _ _ hnot]
        simp [alookup]
      · rw [if_neg hbt] at hb
        have := h2 b i hb
        rw [hvoc, alookup_append, this]
    · intro x hx
      simp only [alookup_dictInsert]
      by_cases hbt : ([x] : Bytes) = t
      · rw [if_pos hbt]
        rfl
      · rw [if_neg hbt]
        exact h3 x hx

/-- The `__init__` invariants at the actual initial tokenizer. -/
theorem bpeInit_inv (specials : List Bytes) :
    ((bpeInit specials).vocab.map Prod.fst
      = List.range (bpeInit specials).vocab.length) ∧
    (∀ b i, alookup (bpeInit specials).byte2id b = some i →
      alookup (bpeInit specials).vocab i = some b) ∧
    (∀ x, x < 256 → (alookup (bpeInit specials).byte2id [x]).isSome) := by
  unfold bpeInit
  apply bpeInit_fold_inv
  · have hlen :
        ((List.range 256).map (fun i => (i, ([i] : Bytes)))).length = 256 :=
      by simp
    rw [hlen]
    simp [Function.comp_def]
  · intro b i hb
    obtain ⟨hbi, hi⟩ := alookup_baseInv 256 b i hb
    subst hbi
    rw [alookup_rangeMap]
    simp [hi]
  · intro x hx
    rw [alookup_baseInv_hit 256 x hx]
    rfl

theorem flatten_singletons (w : Bytes) :
    (w.map (fun b => ([b] : Bytes))).flatten = w := by
  induction w with
  | nil => rfl
  | cons b bs ih => simp [ih]

theorem wordToIds_bytes_spell (tok : BPEState)
    (hrev : ∀ b i, alookup tok.byte2id b = some i →
      alookup tok.vocab i = some b)
    (hcov : ∀ x, x < 256 → (alookup tok.byte2id [x]).isSome) :
    ∀ w : Bytes, (∀ b ∈ w, b < 256) →
    mapOpt (alookup tok.vocab)
      (w.map (fun b => (alookup tok.byte2id [b]).getD 0))
      = some (w.map (fun b => ([b] : Bytes))) := by
  intro w
  induction w with
  | nil => intro _; rfl
  | cons b bs ih =>
    intro hw
    have hb : b < 256 := hw b (List.mem_cons_self _ _)
    have hcb := hcov b hb
    cases hlb : alookup tok.byte2id [b] with
    | none => rw [hlb] at hcb; cases hcb
    | some i =>
      have hv := hrev [b] i hlb
      simp [mapOpt, hlb, hv,
        ih (fun x hx => hw x (List.mem_cons_of_mem _ hx))]

/-- Lines 55-66: the initial symbol sequence of every pre-token spells
exactly that pre-token's bytes. -/
theorem wordToIds_spell (tok : BPEState)
    (hrev : ∀ b i, alookup tok.byte2id b = some i →
      alookup tok.vocab i = some b)
    (hcov : ∀ x, x < 256 → (alookup tok.byte2id [x]).isSome)
    (w : Bytes) (hw : ∀ b ∈ w, b < 256) :
    joinIds tok.vocab (wordToIds tok w) = some w := by
  simp only [wordToIds]
  cases hid : alookup tok.byte2id w with
  | some id =>
    have hv := hrev w id hid
    simp [joinIds, mapOpt, hv]
  | none =>
    simp [joinIds, wordToIds_bytes_spell tok hrev hcov w hw,
      flatten_singletons]

/-- Every entry built by `buildInit` spells its own pre-token. -/
theorem buildInit_spell (tok : BPEState) (specialIds : List Nat)
    (hrev : ∀ b i, alookup tok.byte2id b = some i →
      alookup tok.vocab i = some b)
    (hcov : ∀ x, x < 256 → (alookup tok.byte2id [x]).isSome) :
    ∀ wf : List (Bytes × Nat), (∀ p ∈ wf, ∀ b ∈ p.1, b < 256) →
    ∀ p ∈ (buildInit tok specialIds wf).1,
      joinIds tok.vocab p.2 = some p.1 := by
  intro wf
  induction wf with
  | nil => intro _ p hp; cases hp
  | cons e rest ih =>
    intro h256 p hp
    obtain ⟨w, freq⟩ := e
    simp only [buildInit] at hp
    have hmem : p ∈ (w, wordToIds tok w) :: (buildInit tok specialIds rest).1
        := by
      by_cases hc : (wordToIds tok w).length = 1 ∧
          (wordToIds tok w).headD 0 ∈ specialIds
      · rw [if_pos hc] at hp
        exact hp
      · rw [if_neg hc] at hp
        exact hp
    rcases List.mem_cons.mp hmem with h | h
    · subst h
      exact wordToIds_spell tok hrev hcov w
        (h256 (w, freq) (List.mem_cons_self _ _))
    · exact ih (fun q hq => h256 q (List.mem_cons_of_mem _ hq)) p h

/-- The merge loop of `train_bpe` preserves the spelling invariant:
if the vocabulary's keys are exactly `0..len-1` and every tracked
pre-token's symbol sequence spells exactly that pre-token's bytes,
both facts still hold after any number of iterations — every adopted
merge rewrites adjacencies inside individual sequences only. -/
theorem trainLoop_spell (vocabSize : Nat) (specialIds : List Nat)
    (wordFreq : List (Bytes × Nat)) :
    ∀ (fuel : Nat) (st : TrainState),
    st.tok.vocab.map Prod.fst = List.range st.tok.vocab.length →
    (∀ p ∈ st.typeByteids, joinIds st.tok.vocab p.2 = some p.1) →
    ((trainLoop vocabSize specialIds wordFreq fuel st).tok.vocab.map
        Prod.fst
      = List.range (trainLoop vocabSize specialIds wordFreq fuel
          st).tok.vocab.length) ∧
    ∀ p ∈ (trainLoop vocabSize specialIds wordFreq fuel st).typeByteids,
      joinIds (trainLoop vocabSize specialIds wordFreq fuel st).tok.vocab
        p.2 = some p.1 := by
  intro fuel
  induction fuel with
  | zero => intro st hVK hSpell; exact ⟨hVK, hSpell⟩
  | succ fuel ih =>
    intro st hVK hSpell
    by_cases hsz : st.tok.vocab.length < vocabSize
    case neg =>
      simp only [trainLoop, if_neg hsz]
      exact ⟨hVK, hSpell⟩
    case pos =>
      cases hheap : st.heap with
      | nil =>
        simp only [trainLoop, if_pos hsz, hheap]
        exact ⟨hVK, hSpell⟩
      | cons e heapRest =>
        obtain ⟨negcnt, pair⟩ := e
        simp only [trainLoop, if_pos hsz, hheap]
        by_cases hstale :
            (alookup st.pairCounts pair).getD 0 ≠ -negcnt ∨ -negcnt = 0
        · rw [if_pos hstale]
          exact ih _ hVK hSpell
        · rw [if_neg hstale]
          by_cases hguard :
              (tieBreakStep st.tok.vocab st.pairCounts negcnt (-negcnt)
                pair heapRest).1.1 ∈ specialIds ∨
              (tieBreakStep st.tok.vocab st.pairCounts negcnt (-negcnt)
                pair heapRest).1.2 ∈ specialIds
          · rw [if_pos hguard]
            exact ih _ hVK hSpell
          · rw [if_neg hguard]
            cases hA : alookup st.tok.vocab
                (tieBreakStep st.tok.vocab st.pairCounts negcnt (-negcnt)
                  pair heapRest).1.1 with
            | none => exact ⟨hVK, hSpell⟩
            | some ba =>
              cases hB : alookup st.tok.vocab
                  (tieBreakStep st.tok.vocab st.pairCounts negcnt
                    (-negcnt) pair heapRest).1.2 with
              | none => exact ⟨hVK, hSpell⟩
              | some bb =>
                cases hM : addMerge st.tok
                    (tieBreakStep st.tok.vocab st.pairCounts negcnt
                      (-negcnt) pair heapRest).1 with
                | none => exact ⟨hVK, hSpell⟩
                | some tokNew =>
                  simp only [addMerge, hA, hB, Option.some.injEq] at hM
                  have hv : tokNew.1.vocab = dictInsert st.tok.vocab
                      st.tok.vocab.length (ba ++ bb) := by
                    rw [← hM]
                  have hid : tokNew.2 = st.tok.vocab.length := by
                    rw [← hM]
                  have hnot : st.tok.vocab.length ∉
                      st.tok.vocab.map Prod.fst := by
                    rw [hVK]
                    simp
                  have hvocab2 : tokNew.1.vocab
                      = st.tok.vocab ++ [(st.tok.vocab.length, ba ++ bb)]
                      := by
                    rw [hv]
                    exact dictInsert_fresh_append _ _ _ hnot
                  apply ih
                  · simp only [hvocab2, List.map_append, List.map_cons,
                      List.map_nil, List.length_append, List.length_cons,
                      List.length_nil, hVK]
                    simp [List.range_succ]
                  · intro p hp
                    have hp2 := (List.mem_filter.mp hp).1
                    have hA2 : alookup tokNew.1.vocab
                        (tieBreakStep st.tok.vocab st.pairCounts negcnt
                          (-negcnt) pair heapRest).1.1 = some ba := by
                      simp [hvocab2, alookup_append, hA]
                    have hB2 : alookup tokNew.1.vocab
                        (tieBreakStep st.tok.vocab st.pairCounts negcnt
                          (-negcnt) pair heapRest).1.2 = some bb := by
                      simp [hvocab2, alookup_append, hB]
                    have hN2 : alookup tokNew.1.vocab tokNew.2
                        = some (ba ++ bb) := by
                      rw [hid, hvocab2, alookup_append,
                        alookup_none_of_notmem _ _ hnot]
                      simp [alookup]
                    have hold : ∀ q ∈ st.typeByteids,
                        joinIds tokNew.1.vocab q.2 = some q.1 := by
                      intro q hq
                      rw [hvocab2]
                      exact joinIds_extend _ _ _ _ (hSpell q hq)
                    exact mergeAllWords_spell tokNew.1.vocab _ _ _ ba bb
                      hA2 hB2 hN2 wordFreq st.typeByteids _ _ hold p hp2

/-- C3. Merges apply only inside a single pre-token. In `train_bpe`
the training state keeps one symbol sequence per pre-token
(`type_byteids`); starting from the real initial state every sequence
spells exactly its own pre-token's bytes, and after any number of
merge-loop iterations it still does — so every adopted merge rewrote
an adjacency within one pre-token's sequence and no merge ever joined
symbols of two different pre-tokens. In `train_bpe2` no merge is
recorded at all: every successful run returns an empty merge list
(and every corpus with at least one chunk raises `TypeError`). -/
theorem c3_merges_within_pretokens :
    (∀ (fuel vocabSize : Nat) (specials : List Bytes)
      (wordFreq : List (Bytes × Nat)),
      (∀ p ∈ wordFreq, ∀ b ∈ p.1, b < 256) →
      ∀ p ∈ (trainLoop vocabSize
          (specials.filterMap
            (fun t => alookup (bpeInit specials).byte2id t))
          wordFreq fuel (trainInit specials wordFreq)).typeByteids,
        joinIds (trainLoop vocabSize
            (specials.filterMap
              (fun t => alookup (bpeInit specials).byte2id t))
            wordFreq fuel (trainInit specials wordFreq)).tok.vocab p.2
          = some p.1) ∧
    (∀ (input : Bytes) (vocabSize : Nat) (specials : List Bytes)
      (numProcesses : Nat) res,
      trainBpe2 input vocabSize specials numProcesses = .ok res →
      res.2 = []) := by
  constructor
  · intro fuel vocabSize specials wordFreq h256
    obtain ⟨hVK0, hrev0, hcov0⟩ := bpeInit_inv specials
    exact (trainLoop_spell vocabSize _ wordFreq fuel
      (trainInit specials wordFreq) hVK0
      (buildInit_spell (bpeInit specials) _ hrev0 hcov0 wordFreq h256)).2
  · intro input vocabSize specials numProcesses res h
    exact trainBpe2_ok_merges_nil input vocabSize specials numProcesses
      res h

/-- Witness for C3 at a concrete run: pre-token "ab" with frequency 2,
special token "<s>", vocab size 300, three loop iterations; and the
empty-corpus run of `train_bpe2`. -/
theorem c3_merges_within_pretokens_witness :
    (∀ p ∈ [(([97, 98] : Bytes), 2)], ∀ b ∈ p.1, b < 256) ∧
    (∀ p ∈ (trainLoop 300
        ([[60, 115, 62]].filterMap
          (fun t => alookup (bpeInit [[60, 115, 62]]).byte2id t))
        [([97, 98], 2)] 3
        (trainInit [[60, 115, 62]] [([97, 98], 2)])).typeByteids,
      joinIds (trainLoop 300
          ([[60, 115, 62]].filterMap
            (fun t => alookup (bpeInit [[60, 115, 62]]).byte2id t))
          [([97, 98], 2)] 3
          (trainInit [[60, 115, 62]] [([97, 98], 2)])).tok.vocab p.2
        = some p.1) ∧
    (trainBpe2 [] 300 [] 1
        = .ok ((bpeInit []).vocab, []) →
      ((bpeInit []).vocab, ([] : List (Bytes × Bytes))).2 = []) :=
  ⟨by decide,
   c3_merges_within_pretokens.1 3 300 [[60, 115, 62]]
     [([97, 98], 2)] (by decide),
   c3_merges_within_pretokens.2 [] 300 [] 1 ((bpeInit []).vocab, [])⟩

theorem runLen_le (p : Nat → Bool) (l : List Nat) :
    runLen p l ≤ l.length := by
  induction l with
  | nil => exact Nat.le_refl 0
  | cons x xs ih =>
    cases hp : p x
    · simp [runLen, List.takeWhile_cons, hp]
    · have := ih
      simp only [runLen] at this
      simp only [runLen, List.takeWhile_cons, hp, if_true, List.length_cons]
      omega

theorem patAlt1_bounds (t : List Nat) (n : Nat) (h : patAlt1 t = some n) :
    1 ≤ n ∧ n ≤ t.length := by
  unfold patAlt1 at h
  split at h
  case h_1 c rest =>
    split at h
    · cases h
      simp only [List.length_cons]
      omega
    · split at h
      · split at h
        · cases h
          simp_all only [List.length_cons]
          omega
        · cases h
      · split at h
        · split at h
          · cases h
            simp_all only [List.length_cons]
            omega
          · cases h
        · split at h
          · split at h
            · cases h
              simp_all only [List.length_cons]
              omega
            · cases h
          · cases h
  case h_2 => cases h

theorem patAltClass_bounds (p : Nat → Bool) (t : List Nat) (n : Nat)
    (h : patAltClass p t = some n) : 1 ≤ n ∧ n ≤ t.length := by
  unfold patAltClass at h
  split at h
  case h_1 rest =>
    by_cases h1 : runLen p rest > 0
    · rw [if_pos h1] at h
      cases h
      have := runLen_le p rest
      simp only [List.length_cons]
      omega
    · rw [if_neg h1] at h
      by_cases h2 : runLen p (32 :: rest) > 0
      · rw [if_pos h2] at h
        cases h
        have := runLen_le p (32 :: rest)
        omega
      · rw [if_neg h2] at h
        cases h
  case h_2 =>
    by_cases h2 : runLen p t > 0
    · rw [if_pos h2] at h
      cases h
      have := runLen_le p t
      omega
    · rw [if_neg h2] at h
      cases h

theorem patMatchLen_bounds (t : List Nat) (n : Nat)
    (h : patMatchLen t = some n) : 1 ≤ n ∧ n ≤ t.length := by
  unfold patMatchLen at h
  cases h1 : patAlt1 t with
  | some m =>
    rw [h1] at h
    cases h
    exact patAlt1_bounds t n h1
  | none =>
    rw [h1] at h
    cases h2 : patAltClass isLetterByte t with
    | some m =>
      rw [h2] at h
      cases h
      exact patAltClass_bounds _ t n h2
    | none =>
      rw [h2] at h
      cases h3 : patAltClass isNumByte t with
      | some m =>
        rw [h3] at h
        cases h
        exact patAltClass_bounds _ t n h3
      | none =>
        rw [h3] at h
        cases h4 : patAltClass isOtherByte t with
        | some m =>
          rw [h4] at h
          cases h
          exact patAltClass_bounds _ t n h4
        | none =>
          rw [h4] at h
          simp only at h
          have hle := runLen_le isSpaceByte t
          by_cases h5 : (runLen isSpaceByte t == 0) = true
          · rw [if_pos h5] at h
            cases h
          · rw [if_neg h5] at h
            have h5n : runLen isSpaceByte t ≠ 0 := by
              simpa using h5
            by_cases h6 : (runLen isSpaceByte t == t.length) = true
            · rw [if_pos h6] at h
              cases h
              omega
            · rw [if_neg h6] at h
              by_cases h7 : 2 ≤ runLen isSpaceByte t
              · rw [if_pos h7] at h
                cases h
                omega
              · rw [if_neg h7] at h
                cases h
                omega

/-- `PAT_BYTES.match(b, j)` consumes at least one byte and stays inside
the buffer. -/
theorem patMatch_bounds (b : Bytes) (j m : Nat)
    (h : patMatch b j = some m) : j + 1 ≤ m ∧ m ≤ b.length := by
  simp only [patMatch] at h
  cases hp : patMatchLen (b.drop j) with
  | none => rw [hp] at h; cases h
  | some n =>
    rw [hp] at h
    simp only [Option.map] at h
    cases h
    obtain ⟨h1, h2⟩ := patMatchLen_bounds _ n hp
    rw [List.length_drop] at h2
    omega

theorem slice_append_slice (b : Bytes) (i j k : Nat) (h1 : i ≤ j)
    (h2 : j ≤ k) : slice b i j ++ slice b j k = slice b i k := by
  simp only [slice]
  have hk : k - i = (j - i) + (k - j) := by omega
  rw [hk, List.take_add, List.drop_drop]
  have hji : i + (j - i) = j := by omega
  rw [hji]

theorem slice_to_end (b : Bytes) (i : Nat) :
    slice b i b.length = b.drop i := by
  simp only [slice]
  apply List.take_of_length_le
  simp

theorem slice_nil (b : Bytes) (i : Nat) : slice b i i = [] := by
  simp [slice]

theorem slice_subset (b : Bytes) (i j : Nat) (x : Nat)
    (hx : x ∈ slice b i j) : x ∈ b :=
  List.mem_of_mem_drop (List.mem_of_mem_take hx)

/-- `_yield_normal_span` covers its span exactly: the emitted pieces
concatenate to `b[j:e]`. -/
theorem yieldNormalSpan_flatten (b : Bytes) :
    ∀ (fuel j e : Nat), e ≤ b.length → e - j ≤ fuel →
    (yieldNormalSpan b fuel j e).flatten = slice b j e := by
  intro fuel
  induction fuel with
  | zero =>
    intro j e he hf
    have h0 : e - j = 0 := Nat.le_zero.mp hf
    simp [yieldNormalSpan, slice, h0]
  | succ fuel ih =>
    intro j e he hf
    by_cases hj : j < e
    · simp only [yieldNormalSpan, if_pos hj]
      cases hm : patMatch b j with
      | none =>
        show (slice b j (j + 1) ::
          yieldNormalSpan b fuel (j + 1) e).flatten = slice b j e
        simp only [List.flatten_cons]
        rw [ih (j + 1) e he (by omega)]
        exact slice_append_slice b j (j + 1) e (by omega) (by omega)
      | some m =>
        obtain ⟨hm1, hm2⟩ := patMatch_bounds b j m hm
        show (if m > e then slice b j e :: yieldNormalSpan b fuel e e
          else slice b j m :: yieldNormalSpan b fuel m e).flatten
          = slice b j e
        by_cases hme : m > e
        · rw [if_pos hme]
          simp only [List.flatten_cons]
          rw [ih e e he (by omega), slice_nil]
          simp
        · rw [if_neg hme]
          simp only [List.flatten_cons]
          rw [ih m e he (by omega)]
          exact slice_append_slice b j m e (by omega) (by omega)
    · simp only [yieldNormalSpan, if_neg hj]
      have h0 : e - j = 0 := by omega
      simp [slice, h0]

/-- Every byte of every piece emitted by `_yield_normal_span` comes
from the buffer. -/
theorem yieldNormalSpan_mem (b : Bytes) :
    ∀ (fuel j e : Nat), ∀ p ∈ yieldNormalSpan b fuel j e, ∀ x ∈ p,
      x ∈ b := by
  intro fuel
  induction fuel with
  | zero =>
    intro j e p hp
    simp [yieldNormalSpan] at hp
  | succ fuel ih =>
    intro j e p hp
    by_cases hj : j < e
    · simp only [yieldNormalSpan, if_pos hj] at hp
      cases hm : patMatch b j with
      | none =>
        simp only [hm] at hp
        rcases List.mem_cons.mp hp with h | h
        · subst h
          intro x hx
          exact slice_subset b _ _ x hx
        · exact ih _ _ p h
      | some m =>
        simp only [hm] at hp
        by_cases hme : m > e
        · rw [if_pos hme] at hp
          rcases List.mem_cons.mp hp with h | h
          · subst h
            intro x hx
            exact slice_subset b _ _ x hx
          · exact ih _ _ p h
        · rw [if_neg hme] at hp
          rcases List.mem_cons.mp hp with h | h
          · subst h
            intro x hx
            exact slice_subset b _ _ x hx
          · exact ih _ _ p h
    · simp only [yieldNormalSpan, if_neg hj] at hp
      cases hp

theorem bfindFrom_spec (hay needle : Bytes) :
    ∀ (fuel pos p : Nat), bfindFrom hay needle fuel pos = some p →
    pos ≤ p ∧ p + needle.length ≤ hay.length ∧
      matchesAt hay needle p = true := by
  intro fuel
  induction fuel with
  | zero => intro pos p h; cases h
  | succ fuel ih =>
    intro pos p h
    simp only [bfindFrom] at h
    by_cases h1 : pos + needle.length ≤ hay.length
    · rw [if_pos h1] at h
      by_cases h2 : matchesAt hay needle pos = true
      · rw [if_pos h2] at h
        cases h
        exact ⟨le_rfl, h1, h2⟩
      · rw [if_neg h2] at h
        obtain ⟨ha, hb, hc⟩ := ih _ _ h
        exact ⟨by omega, hb, hc⟩
    · rw [if_neg h1] at h
      cases h

theorem bfind_spec (hay needle : Bytes) (start p : Nat)
    (h : bfind hay needle start = some p) :
    start ≤ p ∧ p + needle.length ≤ hay.length ∧
      matchesAt hay needle p = true :=
  bfindFrom_spec hay needle _ start p h

theorem matchesAt_slice (hay needle : Bytes) (pos : Nat)
    (h : matchesAt hay needle pos = true) :
    slice hay pos (pos + needle.length) = needle := by
  simp only [matchesAt] at h
  have hpre : needle <+: hay.drop pos := List.isPrefixOf_iff_prefix.mp h
  simp only [slice]
  have hl : pos + needle.length - pos = needle.length := by omega
  rw [hl]
  exact (List.prefix_iff_eq_take.mp hpre).symm

theorem findBestSpecial_spec (btext : Bytes) (specials : List Bytes)
    (i bp : Nat) (bt : Bytes)
    (h : findBestSpecial btext specials i = some (bp, bt)) :
    bt ∈ specials ∧ i ≤ bp ∧ bp + bt.length ≤ btext.length ∧
      matchesAt btext bt bp = true := by
  obtain ⟨hS, _, _, _⟩ := fbs_fold_spec btext i specials none bp bt h
  rcases hS with h0 | ⟨hm, hf⟩
  · cases h0
  · obtain ⟨h1, h2, h3⟩ := bfind_spec btext bt i bp hf
    exact ⟨hm, h1, h2, h3⟩

/-- `Tokenizer.pretokenize` covers the input exactly (its pieces
concatenate to the full text), every special piece is one of the
special tokens, and every emitted byte comes from the input — provided
no special token is empty (an empty special would loop forever in
Python). -/
theorem pretokenizePieces_spec (specials : List Bytes) (btext : Bytes)
    (hne : ∀ s ∈ specials, s ≠ []) :
    ∀ (fuel i : Nat), btext.length - i < fuel →
    (((pretokenizePieces specials btext fuel i).map Prod.snd).flatten
      = btext.drop i) ∧
    ∀ q ∈ pretokenizePieces specials btext fuel i,
      (q.1 = true → q.2 ∈ specials) ∧ ∀ x ∈ q.2, x ∈ btext := by
  intro fuel
  induction fuel with
  | zero => intro i h; omega
  | succ fuel ih =>
    intro i hfi
    by_cases hi : i < btext.length
    · simp only [pretokenizePieces, if_pos hi]
      cases hfb : findBestSpecial btext specials i with
      | none =>
        constructor
        · have hsnd : ((yieldNormalSpan btext (btext.length - i + 1) i
              btext.length).map (fun p => ((false : Bool), p))).map
              Prod.snd = yieldNormalSpan btext (btext.length - i + 1) i
                btext.length := by
            simp [List.map_map, Function.comp_def]
          rw [hsnd, yieldNormalSpan_flatten btext _ i btext.length le_rfl
            (by omega), slice_to_end]
        · intro q hq
          obtain ⟨pc, hpc, hq2⟩ := List.mem_map.mp hq
          constructor
          · intro hflag
            rw [← hq2] at hflag
            cases hflag
          · intro x hx
            rw [← hq2] at hx
            exact yieldNormalSpan_mem btext _ i btext.length pc hpc x hx
      | some pb =>
        obtain ⟨bp, bt⟩ := pb
        obtain ⟨hmem, hile, hlen, hmat⟩ :=
          findBestSpecial_spec btext specials i bp bt hfb
        have hbt1 : 1 ≤ bt.length := by
          cases hbt : bt with
          | nil => exact absurd hbt (hne bt hmem)
          | cons c cs => simp [hbt]
        have hslice : slice btext bp (bp + bt.length) = bt :=
          matchesAt_slice btext bt bp hmat
        have hfuel2 : btext.length - (bp + bt.length) < fuel := by omega
        obtain ⟨ihf, ihm⟩ := ih (bp + bt.length) hfuel2
        have key : btext.drop i
            = slice btext i bp ++ (bt ++ btext.drop (bp + bt.length)) := by
          rw [← slice_to_end btext i,
            ← slice_append_slice btext i bp btext.length (by omega)
              (by omega),
            ← slice_append_slice btext bp (bp + bt.length) btext.length
              (by omega) (by omega),
            hslice, slice_to_end]
        constructor
        · simp only [List.map_append, List.map_cons, List.flatten_append,
            List.flatten_cons]
          rw [ihf]
          by_cases hib : i < bp
          · rw [if_pos hib]
            have hsnd : ((yieldNormalSpan btext (bp - i + 1) i bp).map
                (fun p => ((false : Bool), p))).map Prod.snd
                = yieldNormalSpan btext (bp - i + 1) i bp := by
              simp [List.map_map, Function.comp_def]
            rw [hsnd, yieldNormalSpan_flatten btext _ i bp (by omega)
              (by omega)]
            exact key.symm
          · rw [if_neg hib]
            have hieq : i = bp := by omega
            subst hieq
            simp only [List.map_nil, List.flatten_nil, List.nil_append]
            rw [key, slice_nil, List.nil_append]
        · intro q hq
          rcases List.mem_append.mp hq with h | h
          · by_cases hib : i < bp
            · rw [if_pos hib] at h
              obtain ⟨pc, hpc, hq2⟩ := List.mem_map.mp h
              constructor
              · intro hflag
                rw [← hq2] at hflag
                cases hflag
              · intro x hx
                rw [← hq2] at hx
                exact yieldNormalSpan_mem btext _ i bp pc hpc x hx
            · rw [if_neg hib] at h
              cases h
          · rcases List.mem_cons.mp h with h2 | h2
            · subst h2
              refine ⟨fun _ => hmem, ?_⟩
              intro x hx
              rw [← hslice] at hx
              exact slice_subset btext _ _ x hx
            · exact ihm q h2
    · simp only [pretokenizePieces, if_neg hi]
      constructor
      · have hd : btext.drop i = ([] : Bytes) :=
          List.drop_eq_nil_of_le (by omega)
        simp [hd]
      · intro q hq
        cases hq

theorem alookup_of_mem_nodup [DecidableEq α] (m : List (α × β)) (k : α)
    (v : β) (hnd : (m.map Prod.fst).Nodup) (hkv : (k, v) ∈ m) :
    alookup m k = some v := by
  induction m with
  | nil => cases hkv
  | cons p rest ih =>
    obtain ⟨k0, v0⟩ := p
    simp only [List.map_cons, List.nodup_cons] at hnd
    rcases List.mem_cons.mp hkv with h | h
    · cases h
      simp [alookup]
    · have hk : k0 ≠ k := by
        intro he
        subst he
        exact hnd.1 (List.mem_map.mpr ⟨(k0, v), h, rfl⟩)
      simp only [alookup, if_neg hk]
      exact ih hnd.2 h

/-- With unique vocab ids (a Python dict), `vocab[byte2id[b]] = b`. -/
theorem invertDict_rev (vocab : List (Nat × Bytes))
    (hnd : (vocab.map Prod.fst).Nodup) (b : Bytes) (i : Nat)
    (h : alookup (invertDict vocab) b = some i) :
    alookup vocab i = some b :=
  alookup_of_mem_nodup vocab i b hnd (alookup_invertDict_mem vocab b i h)

/-- Every key of a successfully built rank table names a pair whose two
sides and their concatenation are all present in `byte2id`. -/
theorem mkRanks_ok_keys_concat (b2i : List (Bytes × Nat)) :
    ∀ (ms : List (Bytes × Bytes)) (idx : Nat)
      (acc r : List ((Nat × Nat) × Nat)),
    mkRanks b2i ms idx acc = .ok r →
    (∀ key rank, alookup acc key = some rank →
      ∃ ba bb, alookup b2i ba = some key.1 ∧
        alookup b2i bb = some key.2 ∧
        (alookup b2i (ba ++ bb)).isSome = true) →
    ∀ key rank, alookup r key = some rank →
      ∃ ba bb, alookup b2i ba = some key.1 ∧
        alookup b2i bb = some key.2 ∧
        (alookup b2i (ba ++ bb)).isSome = true := by
  intro ms
  induction ms with
  | nil =>
    intro idx acc r hok hacc key rank hkey
    simp [mkRanks] at hok
    subst hok
    exact hacc key rank hkey
  | cons m rest ih =>
    intro idx acc r hok hacc key rank hkey
    obtain ⟨ba, bb⟩ := m
    unfold mkRanks at hok
    cases hA : alookup b2i ba with
    | none =>
      simp only [hA] at hok
      exact ih (idx + 1) acc r hok hacc key rank hkey
    | some ida =>
      cases hB : alookup b2i bb with
      | none =>
        simp only [hA, hB] at hok
        exact ih (idx + 1) acc r hok hacc key rank hkey
      | some idb =>
        simp only [hA, hB] at hok
        by_cases hC : (alookup b2i (ba ++ bb)).isSome = true
        · rw [if_pos hC] at hok
          apply ih (idx + 1) _ r hok _ key rank hkey
          intro key2 rank2 hk2
          rw [alookup_dictInsert] at hk2
          by_cases hk : key2 = (ida, idb)
          · subst hk
            exact ⟨ba, bb, hA, hB, hC⟩
          · rw [if_neg hk] at hk2
            exact hacc key2 rank2 hk2
        · rw [if_neg hC] at hok
          cases hok

theorem joinIds_cons (vocab : List (Nat × Bytes)) (x : Nat) (s : List Nat)
    (bs : Bytes) (h : joinIds vocab (x :: s) = some bs) :
    ∃ bx rest, alookup vocab x = some bx ∧ joinIds vocab s = some rest ∧
      bs = bx ++ rest := by
  simp only [joinIds, mapOpt] at h
  cases hx : alookup vocab x with
  | none => simp only [hx] at h; cases h
  | some bx =>
    cases hm : mapOpt (alookup vocab) s with
    | none => simp only [hx, hm] at h; cases h
    | some l =>
      simp only [hx, hm, Option.map, List.flatten_cons] at h
      cases h
      exact ⟨bx, l.flatten, rfl, by simp [joinIds, hm], rfl⟩

theorem joinIds_cons_intro (vocab : List (Nat × Bytes)) (x : Nat)
    (s : List Nat) (bx rest : Bytes) (hx : alookup vocab x = some bx)
    (hs : joinIds vocab s = some rest) :
    joinIds vocab (x :: s) = some (bx ++ rest) := by
  simp only [joinIds] at hs ⊢
  cases hm : mapOpt (alookup vocab) s with
  | none => rw [hm] at hs; cases hs
  | some l =>
    rw [hm] at hs
    simp only [Option.map] at hs
    cases hs
    simp [mapOpt, hx, hm, List.flatten_cons]

theorem joinIds_append_intro (vocab : List (Nat × Bytes))
    (a b : List Nat) (x y : Bytes) (ha : joinIds vocab a = some x)
    (hb : joinIds vocab b = some y) :
    joinIds vocab (a ++ b) = some (x ++ y) := by
  simp only [joinIds] at ha hb ⊢
  cases hma : mapOpt (alookup vocab) a with
  | none => rw [hma] at ha; cases ha
  | some la =>
    cases hmb : mapOpt (alookup vocab) b with
    | none => rw [hmb] at hb; cases hb
    | some lb =>
      rw [hma] at ha
      rw [hmb] at hb
      simp only [Option.map] at ha hb
      cases ha
      cases hb
      rw [mapOpt_append]
      simp [hma, hmb, List.flatten_append]

theorem findBestPair_shift (ranks : List ((Nat × Nat) × Nat)) :
    ∀ (s : List Nat) (i : Nat),
    findBestPair ranks s (i + 1)
      = (findBestPair ranks s i).map (fun p => (p.1 + 1, p.2)) := by
  intro s
  induction s with
  | nil => intro i; rfl
  | cons x tl ih =>
    intro i
    cases tl with
    | nil => rfl
    | cons y tl2 =>
      simp only [findBestPair]
      rw [ih (i + 1), ih i]
      cases hxy : alookup ranks (x, y) with
      | none => rfl
      | some r =>
        cases hrest : findBestPair ranks (y :: tl2) i with
        | none => rfl
        | some pr =>
          obtain ⟨j, rj⟩ := pr
          by_cases hle : r ≤ rj <;> simp [hle]

/-- Replacing the winning pair at index 0: the merged id spells the
two replaced symbols' bytes, so the join is unchanged. -/
theorem replaceAt_zero_spell (vocab : List (Nat × Bytes))
    (b2i : List (Bytes × Nat))
    (hrev : ∀ b i, alookup b2i b = some i → alookup vocab i = some b)
    (x y : Nat) (tl2 : List Nat) (bs : Bytes)
    (hj : joinIds vocab (x :: y :: tl2) = some bs)
    (hpair : ∃ ba bb, alookup b2i ba = some x ∧ alookup b2i bb = some y ∧
      (alookup b2i (ba ++ bb)).isSome = true) :
    ∃ s2, replaceAt vocab b2i (x :: y :: tl2) 0 = some s2 ∧
      joinIds vocab s2 = some bs ∧
      s2.length + 1 = (x :: y :: tl2).length := by
  obtain ⟨bx, restb, hx, hjrest, hbs⟩ := joinIds_cons vocab x _ bs hj
  obtain ⟨byy, restb2, hy, hjrest2, hbs2⟩ :=
    joinIds_cons vocab y _ restb hjrest
  obtain ⟨ba, bb, hba, hbb, hcc⟩ := hpair
  have hxv := hrev ba x hba
  have hyv := hrev bb y hbb
  have hbax : ba = bx := by
    rw [hxv] at hx
    cases hx
    rfl
  have hbby : bb = byy := by
    rw [hyv] at hy
    cases hy
    rfl
  subst hbax
  subst hbby
  cases hmid : alookup b2i (ba ++ bb) with
  | none => rw [hmid] at hcc; cases hcc
  | some mid =>
    have hmidv := hrev _ mid hmid
    refine ⟨mid :: tl2, ?_, ?_, by simp⟩
    · simp only [replaceAt, hxv, hyv, hmid]
    · rw [joinIds_cons_intro vocab mid tl2 (ba ++ bb) restb2 hmidv
        hjrest2, hbs, hbs2, List.append_assoc]

/-- The merge step of `_encode_bytes` preserves the spelled bytes and
always succeeds: the selected pair is in `merge_ranks`, whose keys all
have their concatenation interned. -/
theorem replaceAt_spell (vocab : List (Nat × Bytes))
    (b2i : List (Bytes × Nat)) (ranks : List ((Nat × Nat) × Nat))
    (hrk : ∀ key rank, alookup ranks key = some rank →
      ∃ ba bb, alookup b2i ba = some key.1 ∧
        alookup b2i bb = some key.2 ∧
        (alookup b2i (ba ++ bb)).isSome = true)
    (hrev : ∀ b i, alookup b2i b = some i → alookup vocab i = some b) :
    ∀ (s : List Nat) (idx rank : Nat) (bs : Bytes),
    findBestPair ranks s 0 = some (idx, rank) →
    joinIds vocab s = some bs →
    ∃ s2, replaceAt vocab b2i s idx = some s2 ∧
      joinIds vocab s2 = some bs ∧ s2.length + 1 = s.length := by
  intro s
  induction s with
  | nil => intro idx rank bs hf _; cases hf
  | cons x tl ih =>
    intro idx rank bs hf hj
    cases tl with
    | nil => cases hf
    | cons y tl2 =>
      simp only [findBestPair] at hf
      rw [findBestPair_shift] at hf
      obtain ⟨bx, restb, hx, hjrest, hbs⟩ := joinIds_cons vocab x _ bs hj
      cases hxy : alookup ranks (x, y) with
      | none =>
        simp only [hxy] at hf
        cases hfr : findBestPair ranks (y :: tl2) 0 with
        | none => rw [hfr] at hf; cases hf
        | some pr =>
          obtain ⟨j, rj⟩ := pr
          rw [hfr] at hf
          simp only [Option.map] at hf
          cases hf
          obtain ⟨s2, hs2, hjs2, hlen⟩ := ih j rank restb hfr hjrest
          refine ⟨x :: s2, ?_, ?_, ?_⟩
          · simp only [replaceAt, hs2, Option.map]
          · rw [joinIds_cons_intro vocab x s2 bx restb hx hjs2, hbs]
          · simp only [List.length_cons] at hlen ⊢
            omega
      | some r =>
        simp only [hxy] at hf
        cases hfr : findBestPair ranks (y :: tl2) 0 with
        | none =>
          rw [hfr] at hf
          simp only [Option.map] at hf
          cases hf
          exact replaceAt_zero_spell vocab b2i hrev x y tl2 bs hj
            (hrk (x, y) rank hxy)
        | some pr =>
          obtain ⟨j, rj⟩ := pr
          rw [hfr] at hf
          simp only [Option.map] at hf
          by_cases hle : r ≤ rj
          · rw [if_pos hle] at hf
            cases hf
            exact replaceAt_zero_spell vocab b2i hrev x y tl2 bs hj
              (hrk (x, y) rank hxy)
          · rw [if_neg hle] at hf
            cases hf
            obtain ⟨s2, hs2, hjs2, hlen⟩ := ih j rank restb hfr hjrest
            refine ⟨x :: s2, ?_, ?_, ?_⟩
            · simp only [replaceAt, hs2, Option.map]
            · rw [joinIds_cons_intro vocab x s2 bx restb hx hjs2, hbs]
            · simp only [List.length_cons] at hlen ⊢
              omega

/-- The merge loop of `_encode_bytes` never raises and preserves the
spelled bytes of the sequence, for any amount of fuel. -/
theorem encodeLoop_spell (vocab : List (Nat × Bytes))
    (b2i : List (Bytes × Nat)) (ranks : List ((Nat × Nat) × Nat))
    (hrk : ∀ key rank, alookup ranks key = some rank →
      ∃ ba bb, alookup b2i ba = some key.1 ∧
        alookup b2i bb = some key.2 ∧
        (alookup b2i (ba ++ bb)).isSome = true)
    (hrev : ∀ b i, alookup b2i b = some i → alookup vocab i = some b) :
    ∀ (fuel : Nat) (s : List Nat) (bs : Bytes),
    joinIds vocab s = some bs →
    ∃ out, encodeLoop vocab b2i ranks fuel s = some out ∧
      joinIds vocab out = some bs := by
  intro fuel
  induction fuel with
  | zero => intro s bs hj; exact ⟨s, rfl, hj⟩
  | succ fuel ih =>
    intro s bs hj
    cases hfb : findBestPair ranks s 0 with
    | none => exact ⟨s, by simp [encodeLoop, hfb], hj⟩
    | some pr =>
      obtain ⟨idx, rank⟩ := pr
      obtain ⟨s2, hs2, hjs2, _⟩ :=
        replaceAt_spell vocab b2i ranks hrk hrev s idx rank bs hfb hj
      obtain ⟨out, hout, hjout⟩ := ih s2 bs hjs2
      exact ⟨out, by simp [encodeLoop, hfb, hs2, hout], hjout⟩

theorem mapOpt_bytes_spell (vocab : List (Nat × Bytes))
    (b2i : List (Bytes × Nat))
    (hrev : ∀ b i, alookup b2i b = some i → alookup vocab i = some b) :
    ∀ data : Bytes, (∀ b ∈ data, (alookup b2i [b]).isSome = true) →
    ∃ seq, mapOpt (fun b => alookup b2i [b]) data = some seq ∧
      joinIds vocab seq = some data := by
  intro data
  induction data with
  | nil => intro _; exact ⟨[], rfl, rfl⟩
  | cons b rest ih =>
    intro h
    obtain ⟨seq, hseq, hjoin⟩ :=
      ih (fun x hx => h x (List.mem_cons_of_mem _ hx))
    have hb := h b (List.mem_cons_self _ _)
    cases hlb : alookup b2i [b] with
    | none => rw [hlb] at hb; cases hb
    | some i =>
      have hv := hrev [b] i hlb
      refine ⟨i :: seq, by simp [mapOpt, hlb, hseq], ?_⟩
      have := joinIds_cons_intro vocab i seq [b] rest hv hjoin
      simpa using this

/-- `_encode_bytes` succeeds on any pre-token whose single bytes are
all interned, and its output spells exactly the pre-token's bytes. -/
theorem encodeBytes_spell (vocab : List (Nat × Bytes))
    (b2i : List (Bytes × Nat)) (ranks : List ((Nat × Nat) × Nat))
    (hrk : ∀ key rank, alookup ranks key = some rank →
      ∃ ba bb, alookup b2i ba = some key.1 ∧
        alookup b2i bb = some key.2 ∧
        (alookup b2i (ba ++ bb)).isSome = true)
    (hrev : ∀ b i, alookup b2i b = some i → alookup vocab i = some b)
    (data : Bytes)
    (hbytes : ∀ b ∈ data, (alookup b2i [b]).isSome = true) :
    ∃ out, encodeBytes vocab b2i ranks data = some out ∧
      joinIds vocab out = some data := by
  cases hd : alookup b2i data with
  | some id =>
    have hvd := hrev data id hd
    have hj : joinIds vocab [id] = some data := by
      simp [joinIds, mapOpt, hvd]
    obtain ⟨out, hout, hjout⟩ :=
      encodeLoop_spell vocab b2i ranks hrk hrev data.length [id] data hj
    exact ⟨out, by simp [encodeBytes, hd, hout], hjout⟩
  | none =>
    obtain ⟨seq, hseq, hjoin⟩ := mapOpt_bytes_spell vocab b2i hrev data
      hbytes
    obtain ⟨out, hout, hjout⟩ :=
      encodeLoop_spell vocab b2i ranks hrk hrev data.length seq data hjoin
    exact ⟨out, by simp [encodeBytes, hd, hseq, hout], hjout⟩

theorem insertByLenDesc_mem (x : Bytes) (l : List Bytes) (y : Bytes) :
    y ∈ insertByLenDesc x l ↔ y = x ∨ y ∈ l := by
  induction l with
  | nil => simp [insertByLenDesc]
  | cons z tl ih =>
    simp only [insertByLenDesc]
    by_cases h : x.length < z.length
    · rw [if_pos h]
      simp only [List.mem_cons, ih]
      tauto
    · rw [if_neg h]
      simp only [List.mem_cons]

theorem sortSpecials_mem (l : List Bytes) (y : Bytes) :
    y ∈ sortSpecials l ↔ y ∈ l := by
  unfold sortSpecials
  induction l with
  | nil => simp
  | cons x tl ih =>
    simp only [List.foldr_cons, insertByLenDesc_mem, ih, List.mem_cons]

theorem mapOpt_join (vocab : List (Nat × Bytes))
    (f : (Bool × Bytes) → Option (List Nat)) :
    ∀ pieces : List (Bool × Bytes),
    (∀ q ∈ pieces, ∃ out, f q = some out ∧
      joinIds vocab out = some q.2) →
    ∃ idss, mapOpt f pieces = some idss ∧
      joinIds vocab idss.flatten
        = some ((pieces.map Prod.snd).flatten) := by
  intro pieces
  induction pieces with
  | nil => intro _; exact ⟨[], rfl, rfl⟩
  | cons q rest ih =>
    intro h
    obtain ⟨idss, hm, hj⟩ := ih (fun x hx => h x (List.mem_cons_of_mem _ hx))
    obtain ⟨out, hout, hjout⟩ := h q (List.mem_cons_self _ _)
    refine ⟨out :: idss, by simp [mapOpt, hout, hm], ?_⟩
    simp only [List.flatten_cons, List.map_cons]
    exact joinIds_append_intro vocab out idss.flatten q.2 _ hjout hj

/-- C6, amended. Encode/decode round-trip on ASCII, for a tokenizer
that can actually be constructed and whose special tokens are usable:
the vocabulary's ids are unique and map 0..255 to the 256 singleton
bytes, building the merge-rank table succeeds (every merge pair's
concatenation is interned — this is how "every merged ID maps to the
concatenation of its pair's bytes" shows up in `__init__`), and every
special token is nonempty and present in the vocabulary. Then `encode`
never raises and `decode(encode(t)) = t` for every ASCII input.
Without the added special-token condition the claim fails:
see the counterexample. -/
theorem c6_ascii_roundtrip (vocab : List (Nat × Bytes))
    (merges : List (Bytes × Bytes)) (specialTokens : List Bytes)
    (text : Bytes) (ranks : List ((Nat × Nat) × Nat))
    (hnd : (vocab.map Prod.fst).Nodup)
    (hbase : ∀ b, b < 256 → alookup vocab b = some ([b] : Bytes))
    (hmk : mkRanks (invertDict vocab) merges 0 [] = .ok ranks)
    (hspec : ∀ s ∈ specialTokens, s ≠ [] ∧ s ∈ vocab.map Prod.snd)
    (hascii : ∀ b ∈ text, b < 128) :
    ∃ ids, tokEncode vocab merges specialTokens text = some ids ∧
      tokDecode vocab ids = some text := by
  have hrev : ∀ b i, alookup (invertDict vocab) b = some i →
      alookup vocab i = some b := invertDict_rev vocab hnd
  have hrk : ∀ key rank, alookup ranks key = some rank →
      ∃ ba bb, alookup (invertDict vocab) ba = some key.1 ∧
        alookup (invertDict vocab) bb = some key.2 ∧
        (alookup (invertDict vocab) (ba ++ bb)).isSome = true := by
    apply mkRanks_ok_keys_concat (invertDict vocab) merges 0 [] ranks hmk
    intro k r h
    simp [alookup] at h
  have hne : ∀ s ∈ sortSpecials specialTokens, s ≠ [] :=
    fun s hs => (hspec s ((sortSpecials_mem _ _).mp hs)).1
  obtain ⟨hflat, hqm⟩ := pretokenizePieces_spec (sortSpecials specialTokens)
    text hne (text.length + 1) 0 (by omega)
  rw [List.drop_zero] at hflat
  have hper : ∀ q ∈ pretokenizePieces (sortSpecials specialTokens) text
      (text.length + 1) 0, ∃ out,
      (if q.1 then
        if q.2 ∈ sortSpecials specialTokens then
          (alookup (invertDict vocab) q.2).map (fun tid => [tid])
        else encodeBytes vocab (invertDict vocab) ranks q.2
      else encodeBytes vocab (invertDict vocab) ranks q.2) = some out ∧
      joinIds vocab out = some q.2 := by
    intro q hq
    obtain ⟨hflag, hmemb⟩ := hqm q hq
    by_cases hq1 : q.1 = true
    · rw [if_pos hq1]
      have hsp := hflag hq1
      rw [if_pos hsp]
      have hmem2 : q.2 ∈ vocab.map Prod.snd :=
        (hspec q.2 ((sortSpecials_mem _ _).mp hsp)).2
      have hsome : (alookup (invertDict vocab) q.2).isSome = true :=
        (invertDict_isSome_iff vocab q.2).mpr hmem2
      cases htid : alookup (invertDict vocab) q.2 with
      | none => rw [htid] at hsome; cases hsome
      | some tid =>
        have hv := hrev q.2 tid htid
        refine ⟨[tid], by simp [htid], ?_⟩
        simp [joinIds, mapOpt, hv]
    · rw [if_neg hq1]
      apply encodeBytes_spell vocab (invertDict vocab) ranks hrk hrev q.2
      intro b hb
      have hb128 : b < 128 := hascii b (hmemb b hb)
      have hv := hbase b (by omega)
      have hm : ([b] : Bytes) ∈ vocab.map Prod.snd :=
        List.mem_map.mpr ⟨(b, [b]), alookup_some_mem vocab b [b] hv, rfl⟩
      exact (invertDict_isSome_iff vocab [b]).mpr hm
  obtain ⟨idss, hmo, hjoin⟩ := mapOpt_join vocab _
    (pretokenizePieces (sortSpecials specialTokens) text
      (text.length + 1) 0) hper
  rw [hflat] at hjoin
  refine ⟨idss.flatten, ?_, ?_⟩
  · simp only [tokEncode, hmk]
    rw [hmo]
    rfl
  · simp only [joinIds] at hjoin
    cases hparts : mapOpt (alookup vocab) idss.flatten with
    | none => rw [hparts] at hjoin; cases hjoin
    | some parts =>
      rw [hparts] at hjoin
      simp only [Option.map] at hjoin
      cases hjoin
      simp only [tokDecode, hparts]
      rw [utf8DecodeIgnore, utf8Decode_ascii [] parts.flatten
        parts.flatten.length le_rfl hascii]

/-- C6, counterexample to the claim as stated. The base vocabulary maps
every id 0..255 to its singleton byte (and there are no merged ids, so
the merged-id condition is vacuous), yet with the special token "aa" —
absent from the vocabulary — encoding the ASCII text "aa" raises
`KeyError` (`byte2id[b"aa"]`) instead of round-tripping. -/
theorem c6_counterexample :
    (∀ b, b < 256 → alookup baseVocab b = some ([b] : Bytes)) ∧
    tokEncode baseVocab [] [[97, 97]] [97, 97] = none := by
  constructor
  · intro b hb
    simp [baseVocab, alookup_rangeMap, hb]
  · decide

/-- Witness for `c6_ascii_roundtrip`: the base vocabulary, no merges,
no specials, on the ASCII text "hi". -/
theorem c6_ascii_roundtrip_witness :
    ∃ ids, tokEncode baseVocab [] [] [104, 105] = some ids ∧
      tokDecode baseVocab ids = some [104, 105] :=
  c6_ascii_roundtrip baseVocab [] [] [104, 105] []
    (by
      have h1 : baseVocab.map Prod.fst = List.range 256 := by
        simp [baseVocab, Function.comp_def]
      rw [h1]
      exact List.nodup_range 256)
    (by
      intro b hb
      simp [baseVocab, alookup_rangeMap, hb])
    (by rfl)
    (by simp)
    (by decide)

/-! ### C4: splitting the training pre-tokenizer at scan match starts -/

theorem prefix_take (t l : List α) (n : Nat) :
    t <+: l.take n ↔ t <+: l ∧ t.length ≤ n := by
  constructor
  · intro h
    have h1 : t <+: l := h.trans (List.take_prefix n l)
    have h2 : t.length ≤ (l.take n).length := h.length_le
    rw [List.length_take] at h2
    exact ⟨h1, le_trans h2 (min_le_left _ _)⟩
  · rintro ⟨h1, h2⟩
    rw [List.prefix_iff_eq_take, List.take_take, min_eq_left h2]
    exact List.prefix_iff_eq_take.mp h1

theorem length_pos_of_ne_nil {t : List α} (h : t ≠ []) : 1 ≤ t.length := by
  cases t with
  | nil => cases h rfl
  | cons a l => simp

theorem matchesAt_len (chunk t : Bytes) (p : Nat) (ht : t ≠ [])
    (h : matchesAt chunk t p = true) :
    p + t.length ≤ chunk.length ∧ p < chunk.length := by
  simp only [matchesAt] at h
  have hpre := List.isPrefixOf_iff_prefix.mp h
  have hlen := hpre.length_le
  rw [List.length_drop] at hlen
  have ht1 : 1 ≤ t.length := length_pos_of_ne_nil ht
  omega

theorem matchesAt_take (chunk t : Bytes) (p s : Nat) (ht : t ≠ []) :
    matchesAt (chunk.take s) t p = true ↔
      (matchesAt chunk t p = true ∧ p + t.length ≤ s) := by
  simp only [matchesAt]
  rw [List.isPrefixOf_iff_prefix, List.isPrefixOf_iff_prefix,
    List.drop_take, prefix_take]
  have ht1 : 1 ≤ t.length := length_pos_of_ne_nil ht
  constructor
  · rintro ⟨h1, h2⟩
    exact ⟨h1, by omega⟩
  · rintro ⟨h1, h2⟩
    exact ⟨h1, by omega⟩

theorem matchesAt_drop (chunk t : Bytes) (s q : Nat) :
    matchesAt (chunk.drop s) t q = matchesAt chunk t (s + q) := by
  simp only [matchesAt, List.drop_drop]

theorem find?_restrict {p q : α → Bool} : ∀ (l : List α) (t : α),
    l.find? p = some t → (∀ x ∈ l, q x = true → p x = true) →
    q t = true → l.find? q = some t := by
  intro l
  induction l with
  | nil => intro t h; cases h
  | cons x xs ih =>
    intro t h himp hqt
    by_cases hpx : p x = true
    · rw [List.find?_cons_of_pos _ hpx] at h
      cases h
      rw [List.find?_cons_of_pos _ hqt]
    · rw [List.find?_cons_of_neg _ hpx] at h
      have hqx : ¬ q x = true :=
        fun hq => hpx (himp x (List.mem_cons_self _ _) hq)
      rw [List.find?_cons_of_neg _ hqx]
      exact ih t h (fun y hy => himp y (List.mem_cons_of_mem _ hy)) hqt

theorem firstTokAt_facts (specials : List Bytes) (chunk : Bytes)
    (p : Nat) (t : Bytes) (h : firstTokAt specials chunk p = some t) :
    t ∈ specials ∧ matchesAt chunk t p = true := by
  unfold firstTokAt at h
  have h1 := List.mem_of_find?_eq_some h
  have h2 := List.find?_some h
  exact ⟨h1, h2⟩

theorem firstTokAt_take_some (specials : List Bytes) (chunk : Bytes)
    (p s : Nat) (hne : ∀ x ∈ specials, x ≠ []) (t : Bytes)
    (h : firstTokAt specials chunk p = some t)
    (hfit : p + t.length ≤ s) :
    firstTokAt specials (chunk.take s) p = some t := by
  obtain ⟨hmem, hmat⟩ := firstTokAt_facts specials chunk p t h
  apply find?_restrict specials t h
  · intro x hx hq
    exact ((matchesAt_take chunk x p s (hne x hx)).mp hq).1
  · exact (matchesAt_take chunk t p s (hne t hmem)).mpr ⟨hmat, hfit⟩

theorem firstTokAt_take_none (specials : List Bytes) (chunk : Bytes)
    (p s : Nat) (hne : ∀ x ∈ specials, x ≠ [])
    (h : firstTokAt specials chunk p = none) :
    firstTokAt specials (chunk.take s) p = none := by
  rw [firstTokAt, List.find?_eq_none]
  intro x hx hq
  exact List.find?_eq_none.mp h x hx
    ((matchesAt_take chunk x p s (hne x hx)).mp hq).1

theorem firstTokAt_none_ge (specials : List Bytes) (chunk : Bytes)
    (p : Nat) (hne : ∀ x ∈ specials, x ≠ [])
    (hp : chunk.length ≤ p) :
    firstTokAt specials chunk p = none := by
  rw [firstTokAt, List.find?_eq_none]
  intro x hx hq
  simp only [matchesAt] at hq
  rw [List.drop_eq_nil_of_le hp] at hq
  have := List.isPrefixOf_iff_prefix.mp hq
  exact hne x hx (List.prefix_nil.mp this)

theorem firstTokAt_drop (specials : List Bytes) (chunk : Bytes)
    (s q : Nat) :
    firstTokAt specials (chunk.drop s) q = firstTokAt specials chunk (s + q)
    := by
  unfold firstTokAt
  congr 1
  funext tok
  rw [matchesAt_drop]

/-- A scan over positions with no match anywhere returns `none`
(whatever the fuel). -/
theorem emFrom_none (specials : List Bytes) (c : Bytes) :
    ∀ (fuel pos : Nat),
    (∀ p, pos ≤ p → firstTokAt specials c p = none) →
    emFrom specials c fuel pos = none := by
  intro fuel
  induction fuel with
  | zero => intro pos _; rfl
  | succ fuel ih =>
    intro pos h
    unfold emFrom
    by_cases hp : pos > c.length
    · rw [if_pos hp]
    · rw [if_neg hp, h pos le_rfl]
      exact ih (pos + 1) (fun p hp2 => h p (by omega))

/-- A scan whose first match position and token are known. -/
theorem emFrom_steps (specials : List Bytes) (c : Bytes) :
    ∀ (fuel pos s' : Nat) (t' : Bytes),
    (∀ p, pos ≤ p → p < s' → firstTokAt specials c p = none) →
    firstTokAt specials c s' = some t' →
    pos ≤ s' → s' ≤ c.length → s' - pos < fuel →
    emFrom specials c fuel pos = some (s', t') := by
  intro fuel
  induction fuel with
  | zero => intro pos s' t' _ _ _ _ h; omega
  | succ fuel ih =>
    intro pos s' t' hnone hfind hpos hslen hfuel
    unfold emFrom
    rw [if_neg (by omega)]
    by_cases hps : pos = s'
    · subst hps
      rw [hfind]
    · rw [hnone pos le_rfl (by omega)]
      exact ih (pos + 1) s' t' (fun p h1 h2 => hnone p (by omega) h2) hfind
        (by omega) hslen (by omega)

theorem emFrom_drop (specials : List Bytes) (chunk : Bytes) (s : Nat)
    (hs : s ≤ chunk.length) :
    ∀ (fuel q : Nat),
    emFrom specials (chunk.drop s) fuel q =
      match emFrom specials chunk fuel (s + q) with
      | some pt => some (pt.1 - s, pt.2)
      | none => none := by
  intro fuel
  induction fuel with
  | zero => intro q; rfl
  | succ fuel ih =>
    intro q
    unfold emFrom
    rw [List.length_drop, firstTokAt_drop]
    by_cases hq : q > chunk.length - s
    · rw [if_pos hq, if_pos (by omega)]
    · rw [if_neg hq, if_neg (by omega)]
      cases hf : firstTokAt specials chunk (s + q) with
      | some tk => simp
      | none =>
        simp only
        rw [ih (q + 1)]
        have harith : s + q + 1 = s + (q + 1) := by omega
        rw [harith]

theorem slice_drop_shift (chunk : Bytes) (s a b : Nat) :
    slice (chunk.drop s) a b = slice chunk (s + a) (s + b) := by
  simp only [slice, List.drop_drop]
  have h1 : s + b - (s + a) = b - a := by omega
  rw [h1]

theorem slice_take (chunk : Bytes) (s a b : Nat) (hb : b ≤ s) :
    slice (chunk.take s) a b = slice chunk a b := by
  simp only [slice, List.drop_take, List.take_take]
  rw [min_eq_left (by omega)]

/-- `chunkLoop` does not depend on its fuel once the fuel covers the
remaining positions (each iteration advances past a nonempty token). -/
theorem chunkLoop_fuel (specials : List Bytes) (chunk : Bytes)
    (hne : ∀ x ∈ specials, x ≠ []) :
    ∀ (f1 f2 pos : Nat), chunk.length + 1 - pos ≤ f1 →
    chunk.length + 1 - pos ≤ f2 →
    chunkLoop specials chunk f1 pos = chunkLoop specials chunk f2 pos := by
  intro f1
  induction f1 with
  | zero =>
    intro f2 pos h1 h2
    have hp : chunk.length < pos := by omega
    have h0 : chunk.length + 1 - pos = 0 := by omega
    cases f2 with
    | zero => rfl
    | succ f2 =>
      show ([] : List Bytes) = _
      simp only [chunkLoop, h0, emFrom]
      rw [if_neg (by omega : ¬ pos < chunk.length)]
  | succ f1 ih =>
    intro f2 pos h1 h2
    by_cases hp : chunk.length < pos
    · have h0 : chunk.length + 1 - pos = 0 := by omega
      cases f2 with
      | zero =>
        show _ = ([] : List Bytes)
        simp only [chunkLoop, h0, emFrom]
        rw [if_neg (by omega : ¬ pos < chunk.length)]
      | succ f2 =>
        simp only [chunkLoop, h0, emFrom]
    · have hf2 : ∃ g2, f2 = g2 + 1 := ⟨f2 - 1, by omega⟩
      obtain ⟨g2, rfl⟩ := hf2
      simp only [chunkLoop]
      cases hem : emFrom specials chunk (chunk.length + 1 - pos) pos with
      | none => rfl
      | some st =>
        obtain ⟨s, tok⟩ := st
        obtain ⟨hps, hft, _⟩ := emFrom_spec specials chunk _ pos s tok hem
        obtain ⟨hmem, hmat⟩ := firstTokAt_facts specials chunk s tok hft
        obtain ⟨hfit, hslt⟩ :=
          matchesAt_len chunk tok s (hne tok hmem) hmat
        have ht1 : 1 ≤ tok.length := length_pos_of_ne_nil (hne tok hmem)
        show (if pos < s then
            emitNormal (slice chunk pos s) (s - pos + 1) 0 else []) ++
            tok :: chunkLoop specials chunk f1 (s + tok.length)
          = (if pos < s then
            emitNormal (slice chunk pos s) (s - pos + 1) 0 else []) ++
            tok :: chunkLoop specials chunk g2 (s + tok.length)
        rw [ih g2 (s + tok.length) (by omega) (by omega)]

/-- `chunkLoop` on a suffix is the loop on the whole chunk with every
position shifted. -/
theorem chunkLoop_drop (specials : List Bytes) (chunk : Bytes) (s : Nat)
    (hs : s ≤ chunk.length) :
    ∀ (fuel q : Nat),
    chunkLoop specials (chunk.drop s) fuel q
      = chunkLoop specials chunk fuel (s + q) := by
  intro fuel
  induction fuel with
  | zero => intro q; rfl
  | succ fuel ih =>
    intro q
    simp only [chunkLoop, List.length_drop]
    rw [emFrom_drop specials chunk s hs (chunk.length - s + 1 - q) q]
    have harith : chunk.length - s + 1 - q = chunk.length + 1 - (s + q) :=
      by omega
    rw [harith]
    cases hem : emFrom specials chunk (chunk.length + 1 - (s + q)) (s + q)
      with
    | none =>
      show (if q < chunk.length - s then
          emitNormal (slice (chunk.drop s) q (chunk.length - s))
            (chunk.length - s - q + 1) 0 else [])
        = (if s + q < chunk.length then
          emitNormal (slice chunk (s + q) chunk.length)
            (chunk.length - (s + q) + 1) 0 else [])
      rw [slice_drop_shift]
      have h1 : s + (chunk.length - s) = chunk.length := by omega
      have h2 : chunk.length - s - q = chunk.length - (s + q) := by omega
      rw [h1, h2]
      by_cases hq : q < chunk.length - s
      · rw [if_pos hq, if_pos (by omega)]
      · rw [if_neg hq, if_neg (by omega)]
    | some st =>
      obtain ⟨p, tok⟩ := st
      obtain ⟨hps, hft, _⟩ :=
        emFrom_spec specials chunk _ (s + q) p tok hem
      show (if q < p - s then
          emitNormal (slice (chunk.drop s) q (p - s)) (p - s - q + 1) 0
        else []) ++
          tok :: chunkLoop specials (chunk.drop s) fuel
            (p - s + tok.length)
        = (if s + q < p then
          emitNormal (slice chunk (s + q) p) (p - (s + q) + 1) 0
        else []) ++
          tok :: chunkLoop specials chunk fuel (p + tok.length)
      rw [slice_drop_shift]
      have h1 : s + (p - s) = p := by omega
      have h2 : p - s - q = p - (s + q) := by omega
      rw [h1, h2, ih (p - s + tok.length)]
      have h4 : s + (p - s + tok.length) = p + tok.length := by omega
      rw [h4]
      by_cases hq : q < p - s
      · rw [if_pos hq, if_pos (by omega)]
      · rw [if_neg hq, if_neg (by omega)]

theorem cutAhead_facts (specials : List Bytes) (chunk : Bytes)
    (hne : ∀ x ∈ specials, x ≠ []) :
    ∀ pos s, CutAhead specials chunk pos s →
    pos ≤ s ∧ ∃ tok, firstTokAt specials chunk s = some tok ∧
      s + tok.length ≤ chunk.length ∧ 1 ≤ tok.length := by
  intro pos s h
  induction h with
  | here pos s tok hem =>
    obtain ⟨hps, hft, _⟩ := emFrom_spec specials chunk _ pos s tok hem
    obtain ⟨hmem, hmat⟩ := firstTokAt_facts specials chunk s tok hft
    obtain ⟨hfit, _⟩ := matchesAt_len chunk tok s (hne tok hmem) hmat
    exact ⟨hps, tok, hft, hfit, length_pos_of_ne_nil (hne tok hmem)⟩
  | skip pos s s' tok' hem hrest ih =>
    obtain ⟨hps', hft', _⟩ := emFrom_spec specials chunk _ pos s' tok' hem
    obtain ⟨hps2, rest⟩ := ih
    have ht1 : 1 ≤ tok'.length := by
      obtain ⟨hmem', _⟩ := firstTokAt_facts specials chunk s' tok' hft'
      exact length_pos_of_ne_nil (hne tok' hmem')
    exact ⟨by omega, rest⟩

theorem cutAhead_drop (specials : List Bytes) (chunk : Bytes) (d : Nat)
    (hd : d ≤ chunk.length) :
    ∀ pos s, CutAhead specials chunk pos s → d ≤ pos →
    CutAhead specials (chunk.drop d) (pos - d) (s - d) := by
  intro pos s h
  induction h with
  | here pos s tok hem =>
    intro hdp
    apply CutAhead.here _ _ tok
    rw [List.length_drop, emFrom_drop specials chunk d hd]
    have h1 : d + (pos - d) = pos := by omega
    have h2 : chunk.length - d + 1 - (pos - d) = chunk.length + 1 - pos :=
      by omega
    rw [h1, h2, hem]
  | skip pos s s' tok' hem hrest ih =>
    intro hdp
    obtain ⟨hps', _, _⟩ := emFrom_spec specials chunk _ pos s' tok' hem
    apply CutAhead.skip _ _ (s' - d) tok'
    · rw [List.length_drop, emFrom_drop specials chunk d hd]
      have h1 : d + (pos - d) = pos := by omega
      have h2 : chunk.length - d + 1 - (pos - d) = chunk.length + 1 - pos
        := by omega
      rw [h1, h2, hem]
    · have h3 : s' - d + tok'.length = s' + tok'.length - d := by omega
      rw [h3]
      exact ih (by omega)

/-- Splitting the per-chunk scan at the start of one of its own future
matches: the loop's output is the concatenation of the loop on the
prefix before the match and the loop on the rest. -/
theorem chunkLoop_split (specials : List Bytes) (chunk : Bytes)
    (hne : ∀ x ∈ specials, x ≠ []) (s0 : Nat) :
    ∀ pos, CutAhead specials chunk pos s0 →
    chunkLoop specials chunk (chunk.length + 1 - pos) pos
      = chunkLoop specials (chunk.take s0) (s0 + 1 - pos) pos
        ++ chunkLoop specials chunk (chunk.length + 1 - s0) s0 := by
  intro pos h
  induction h with
  | here pos s tok hem =>
    obtain ⟨hps, hft, hmin⟩ := emFrom_spec specials chunk _ pos s tok hem
    obtain ⟨hmem, hmat⟩ := firstTokAt_facts specials chunk s tok hft
    obtain ⟨hfit, hslt⟩ := matchesAt_len chunk tok s (hne tok hmem) hmat
    have ht1 : 1 ≤ tok.length := length_pos_of_ne_nil (hne tok hmem)
    have hslen : s ≤ chunk.length := by omega
    have htk : (chunk.take s).length = s := by
      rw [List.length_take]
      exact min_eq_left hslen
    have hem1 : emFrom specials (chunk.take s) (s + 1 - pos) pos = none := by
      apply emFrom_none
      intro p hp
      by_cases hps2 : p < s
      · exact firstTokAt_take_none specials chunk p s hne (hmin p hp hps2)
      · exact firstTokAt_none_ge specials (chunk.take s) p hne
          (by rw [htk]; omega)
    have hem2 : emFrom specials chunk (chunk.length + 1 - s) s
        = some (s, tok) := by
      apply emFrom_steps specials chunk _ s s tok
      · intro p h1 h2
        omega
      · exact hft
      · exact le_rfl
      · exact hslen
      · omega
    have hfL : chunk.length + 1 - pos = (chunk.length - pos) + 1 := by omega
    have hfR1 : s + 1 - pos = (s - pos) + 1 := by omega
    have hfR2 : chunk.length + 1 - s = (chunk.length - s) + 1 := by omega
    rw [hfL, hfR1, hfR2]
    simp only [chunkLoop, htk, hem, hem1, hem2]
    rw [slice_take chunk s pos s le_rfl]
    rw [if_neg (lt_irrefl s)]
    rw [chunkLoop_fuel specials chunk hne (chunk.length - pos)
      (chunk.length - s) (s + tok.length) (by omega) (by omega)]
    simp
  | skip pos s s' tok' hem hrest ih =>
    obtain ⟨hps', hft', hmin'⟩ := emFrom_spec specials chunk _ pos s' tok'
      hem
    obtain ⟨hmem', hmat'⟩ := firstTokAt_facts specials chunk s' tok' hft'
    obtain ⟨hfit', hslt'⟩ := matchesAt_len chunk tok' s'
      (hne tok' hmem') hmat'
    have ht1' : 1 ≤ tok'.length := length_pos_of_ne_nil (hne tok' hmem')
    obtain ⟨hple, tokS, hftS, hfitS, htS⟩ :=
      cutAhead_facts specials chunk hne (s' + tok'.length) s hrest
    have hslen : s ≤ chunk.length := by omega
    have htk : (chunk.take s).length = s := by
      rw [List.length_take]
      exact min_eq_left hslen
    have hem1 : emFrom specials (chunk.take s) (s + 1 - pos) pos
        = some (s', tok') := by
      apply emFrom_steps specials (chunk.take s) _ pos s' tok'
      · intro p h1 h2
        exact firstTokAt_take_none specials chunk p s hne (hmin' p h1 h2)
      · exact firstTokAt_take_some specials chunk s' s hne tok' hft'
          (by omega)
      · exact hps'
      · rw [htk]
        omega
      · omega
    have hfL : chunk.length + 1 - pos = (chunk.length - pos) + 1 := by omega
    have hfR1 : s + 1 - pos = (s - pos) + 1 := by omega
    rw [hfL, hfR1]
    simp only [chunkLoop, htk, hem, hem1]
    rw [slice_take chunk s pos s' (by omega)]
    rw [chunkLoop_fuel specials chunk hne (chunk.length - pos)
      (chunk.length + 1 - (s' + tok'.length)) (s' + tok'.length)
      (by omega) (by omega)]
    rw [ih]
    rw [chunkLoop_fuel specials (chunk.take s) hne (s - pos)
      (s + 1 - (s' + tok'.length)) (s' + tok'.length)
      (by rw [htk]; omega) (by rw [htk])]
    simp [List.append_assoc]

theorem processChunk_eq_loop (specials : List Bytes) (c : Bytes)
    (hne : ∀ x ∈ specials, x ≠ []) (hspe : specials.isEmpty = false) :
    processChunk specials c = chunkLoop specials c (c.length + 1) 0 := by
  by_cases hc : c.length = 0
  · have hcnil : c = [] := List.length_eq_zero.mp hc
    subst hcnil
    have hem : emFrom specials ([] : Bytes) 1 0 = none := by
      apply emFrom_none
      intro p hp
      exact firstTokAt_none_ge specials [] p hne (by simp)
    have h0 : processChunk specials [] = [] := rfl
    rw [h0]
    simp [chunkLoop, hem]
  · simp only [processChunk, hspe]
    rw [if_neg hc]
    simp

/-- Splitting `processChunk` at the start of a future match of its own
special-token scan is exact. -/
theorem processChunk_split (specials : List Bytes) (chunk : Bytes)
    (hne : ∀ x ∈ specials, x ≠ []) (s : Nat)
    (h : CutAhead specials chunk 0 s) :
    processChunk specials chunk
      = processChunk specials (chunk.take s)
        ++ processChunk specials (chunk.drop s) := by
  obtain ⟨-, tok, hft, hfit, ht1⟩ :=
    cutAhead_facts specials chunk hne 0 s h
  have hslt : s < chunk.length := by omega
  have hslen : s ≤ chunk.length := by omega
  have hspe : specials.isEmpty = false := by
    cases hsp : specials with
    | nil =>
      rw [hsp] at hft
      simp [firstTokAt] at hft
    | cons a l => rfl
  rw [processChunk_eq_loop specials chunk hne hspe,
    processChunk_eq_loop specials (chunk.take s) hne hspe,
    processChunk_eq_loop specials (chunk.drop s) hne hspe]
  have htk : (chunk.take s).length = s := by
    rw [List.length_take]
    exact min_eq_left hslen
  rw [htk, List.length_drop]
  rw [chunkLoop_drop specials chunk s hslen (chunk.length - s + 1) 0]
  have hmain := chunkLoop_split specials chunk hne s 0 h
  simp only [Nat.sub_zero] at hmain
  rw [hmain]
  have hf : chunk.length - s + 1 = chunk.length + 1 - s := by omega
  rw [hf]
  simp

theorem coverRec (specials : List Bytes) (file : Bytes)
    (hne : ∀ x ∈ specials, x ≠ []) :
    ∀ (cuts : List Nat) (pos : Nat), CutsFrom specials file pos cuts →
    pos ≤ file.length →
    (((pos :: cuts ++ [file.length]).zip
        ((pos :: cuts ++ [file.length]).tail)).map
      (fun se => processChunk specials (slice file se.1 se.2))).flatten
      = processChunk specials (file.drop pos) := by
  intro cuts
  induction cuts with
  | nil =>
    intro pos _ _
    simp only [List.cons_append, List.nil_append, List.tail_cons]
    simp only [List.zip_cons_cons, List.zip_nil_right, List.map_cons,
      List.map_nil, List.flatten_cons, List.flatten_nil, List.append_nil]
    rw [slice_to_end]
  | cons s rest ih =>
    intro pos h hpos
    cases h with
    | cons _ _ _ hca hrest =>
      obtain ⟨hple, tokS, hftS, hfitS, htS⟩ :=
        cutAhead_facts specials file hne pos s hca
      have hslen : s ≤ file.length := by omega
      simp only [List.cons_append, List.tail_cons, List.zip_cons_cons,
        List.map_cons, List.flatten_cons]
      have hih := ih s hrest hslen
      simp only [List.cons_append, List.tail_cons] at hih
      rw [hih]
      have hca2 : CutAhead specials (file.drop pos) 0 (s - pos) := by
        have h2 := cutAhead_drop specials file pos (by omega) pos s hca
          le_rfl
        simpa using h2
      rw [processChunk_split specials (file.drop pos) hne (s - pos) hca2]
      have hd2 : (file.drop pos).drop (s - pos) = file.drop s := by
        rw [List.drop_drop]
        congr 1
        omega
      rw [hd2]
      rfl

/-- C4, amended. Concatenating the per-chunk pre-token streams over the
boundaries `0 :: cuts ++ [file.length]` reproduces the whole-file
stream precisely when every interior boundary is the start of one of
the matches of the whole-file left-to-right special-token scan (the
`CutsFrom` chain); `find_chunk_boundaries`' uniform guesses do not
satisfy this in general, and then the equality fails (see the
counterexample). Special tokens must be nonempty (an empty special
loops forever in Python). -/
theorem c4_chunk_coverage (specials : List Bytes) (file : Bytes)
    (cuts : List Nat) (hne : ∀ t ∈ specials, t ≠ [])
    (hcuts : CutsFrom specials file 0 cuts) :
    ((((0 :: cuts) ++ [file.length]).zip
        (((0 :: cuts) ++ [file.length]).tail)).map
      (fun se => processChunk specials (slice file se.1 se.2))).flatten
      = processChunk specials file := by
  have h := coverRec specials file hne cuts 0 hcuts (by omega)
  rw [List.drop_zero] at h
  exact h

/-- Witness for `c4_chunk_coverage`: file "aXb" with special "X"
(`[88]`), cut at the match start 1. -/
theorem c4_chunk_coverage_witness :
    (∀ t ∈ [[88]], t ≠ ([] : Bytes)) ∧
    ((((0 :: [1] : List Nat) ++ [([97, 88, 98] : Bytes).length]).zip
        (((0 :: [1] : List Nat) ++ [([97, 88, 98] : Bytes).length]).tail)).map
      (fun se => processChunk [[88]] (slice [97, 88, 98] se.1 se.2))).flatten
      = processChunk [[88]] [97, 88, 98] :=
  ⟨by decide,
   c4_chunk_coverage [[88]] [97, 88, 98] [1] (by decide)
     (CutsFrom.cons 0 1 [] (CutAhead.here 0 1 [88] (by decide))
       (CutsFrom.nil 1))⟩

end BPE
